import Mathlib

/-!
# Verification of the LP-1 practicals

Two programs are embedded: the producer/consumer over a counting semaphore
(`assignment-5/mutex_semaphore.cpp`, namespace `MutexSemaphore`) and the
memory allocation routines (`assignment-6/memoryManagement.cpp`, namespace
`MemoryManagement`).  The definitions of both come first, the theorems after.

## Producer/consumer over a counting semaphore

A shallow embedding of the `Semaphore` class and of the two thread bodies
`produce()` and `consume()` as a step relation on an explicit state.  One step
is one semaphore call, one `std::mutex` lock or unlock, one queue operation or
one branch test, so every interleaving of the two threads at that granularity
is a path of the relation.

C++ `int` values are modelled as `Int`.  In the protocol the counts stay within
`[0, max 1 BUFFER_SIZE]` and the loop variable within `[1, ITEMS_TO_PRODUCE + 1]`,
so with constants such as those of the program the arithmetic is exact.  Where
a statement can leave the range of `int` whatever the constants, in
`Semaphore::release` on an arbitrary count and in the allocation statements
of `firstfit`, the result is wrapped around to 32 bits (`CppInt.wrapInt32`), as
the two's-complement target does.  `this_thread::sleep_for` has no effect on the
state and is omitted.  The text written to `cout` is not modelled, the
`cout_mutex` that guards it is.
-/

/-! ## C++ `int` -/

namespace CppInt

/-- `INT_MAX` of a 32-bit `int`. -/
def INT_MAX : Int := 2147483647

/-- `INT_MIN` of a 32-bit `int`. -/
def INT_MIN : Int := -2147483648

/-- The value is representable in a 32-bit `int`. -/
def IsInt32 (x : Int) : Prop := INT_MIN ≤ x ∧ x ≤ INT_MAX

instance (x : Int) : Decidable (IsInt32 x) :=
  inferInstanceAs (Decidable (INT_MIN ≤ x ∧ x ≤ INT_MAX))

/-- The 32-bit `int` that holds the exact result `x` of an arithmetic
operation: two's-complement wrap-around into `[INT_MIN, INT_MAX]`. -/
def wrapInt32 (x : Int) : Int := (x + 2147483648) % 4294967296 - 2147483648

end CppInt

namespace MutexSemaphore
open CppInt

/-! ## `class Semaphore` -/

/-- The `Semaphore` class: its only data is `int count`.  The private `mtx` and
`cv` make each member function atomic and are represented by that atomicity. -/
structure Semaphore where
  count : Int
deriving DecidableEq, Repr

/-- Constructor `Semaphore(int initial_count)`. -/
def Semaphore.mk' (initial_count : Int) : Semaphore := { count := initial_count }

/-- `Semaphore::acquire`: `cv.wait(lock, [this] { return count > 0; }); count--;`.
`none` means the caller stays blocked in the wait. -/
def Semaphore.acquire (s : Semaphore) : Option Semaphore :=
  if 0 < s.count then some { count := s.count - 1 } else none

/-- `Semaphore::release`: `count++; cv.notify_one();`, the increment taken
exactly, as it is for every count below `INT_MAX` (`Semaphore.release32` is the
increment on any `int`). -/
def Semaphore.release (s : Semaphore) : Semaphore :=
  { count := s.count + 1 }

/-- One completed member-function call on a semaphore. -/
inductive SemOp where
  | acquire
  | release
deriving DecidableEq, Repr

/-- `Semaphore::release` on the 32-bit `int count`: `count++; cv.notify_one();`. -/
def Semaphore.release32 (s : Semaphore) : Semaphore :=
  { count := wrapInt32 (s.count + 1) }

/-- Run a sequence of calls that each complete, on the 32-bit count; `none`
when some `acquire` in the sequence cannot complete at its turn. -/
def Semaphore.runCalls : Semaphore → List SemOp → Option Semaphore
  | s, [] => some s
  | s, SemOp.acquire :: ops =>
      match s.acquire with
      | some s' => s'.runCalls ops
      | none => none
  | s, SemOp.release :: ops => s.release32.runCalls ops

/-- No `release()` of the sequence is called while the count is `INT_MAX`. -/
def Semaphore.noOverflow : Semaphore → List SemOp → Bool
  | _, [] => true
  | s, SemOp.acquire :: ops =>
      match s.acquire with
      | some s' => s'.noOverflow ops
      | none => true
  | s, SemOp.release :: ops => decide (s.count < INT_MAX) && s.release32.noOverflow ops

/-- Number of `acquire` calls in a sequence. -/
def acquires (ops : List SemOp) : Nat := ops.count SemOp.acquire

/-- Number of `release` calls in a sequence. -/
def releases (ops : List SemOp) : Nat := ops.count SemOp.release

/-! ## `class Semaphore`, statement by statement

The member functions with their `mtx` and `cv`: one step is one statement of one
thread, `cv.wait(lock, pred)` being the loop `while (!pred()) wait(lock);` whose
`wait` frees `mtx`, blocks, and takes `mtx` again once unblocked. -/

/-- Where a thread stands inside a call of `Semaphore::acquire` (lines 21-28) or
`Semaphore::release` (lines 33-40); `idle` is outside any call. -/
inductive CallPc
  /-- Outside any call on this semaphore. -/
  | idle
  /-- Line 23, `std::unique_lock<std::mutex> lock(mtx);`: waits for `mtx`. -/
  | acquireLock
  /-- Line 25, `cv.wait(lock, pred)` evaluating `count > 0` with `mtx` held. -/
  | acquireTest
  /-- Line 25, blocked inside `cv.wait` with `mtx` released. -/
  | acquireWaiting
  /-- Line 25, unblocked inside `cv.wait`: waits for `mtx` again. -/
  | acquireRelock
  /-- Line 27, `count--;` with `mtx` held. -/
  | acquireDecrement
  /-- Line 28, the `unique_lock` destructor frees `mtx` and the call returns. -/
  | acquireUnlock
  /-- Line 35, `std::lock_guard<std::mutex> lock(mtx);`: waits for `mtx`. -/
  | releaseLock
  /-- Line 37, `count++;` with `mtx` held. -/
  | releaseIncrement
  /-- Line 39, `cv.notify_one();` with `mtx` held. -/
  | releaseNotify
  /-- Line 40, the `lock_guard` destructor frees `mtx` and the call returns. -/
  | releaseUnlock
  deriving DecidableEq, Repr

/-- The thread holds `mtx` at this point of its call. -/
def CallPc.holdsMtx : CallPc → Bool
  | acquireTest | acquireDecrement | acquireUnlock => true
  | releaseIncrement | releaseNotify | releaseUnlock => true
  | _ => false

/-- The thread is inside a call of `release()`. -/
def CallPc.inRelease : CallPc → Bool
  | releaseLock | releaseIncrement | releaseNotify | releaseUnlock => true
  | _ => false

/-- One `Semaphore` object shared by the threads `0, ..., pcs.length - 1`: the
`int count`, the owner of `mtx` if it is locked, and where each thread stands.
The threads blocked on `cv` are those at `acquireWaiting`. -/
structure Monitor where
  sem : Semaphore
  mtx : Option Nat
  pcs : List CallPc
  deriving DecidableEq, Repr

/-- `Semaphore(initial_count)` shared by `n` threads, none of them in a call. -/
def Monitor.init (initial_count : Int) (n : Nat) : Monitor :=
  { sem := Semaphore.mk' initial_count, mtx := none, pcs := List.replicate n CallPc.idle }

/-- What can happen next at the semaphore: thread `t` calls `acquire()` or
`release()`; thread `t` executes the statement it stands at, where `w` is the
blocked thread that `cv.notify_one()` unblocks (read at line 39 only); the
blocked thread `t` wakes up spuriously. -/
inductive MonAction
  | call (t : Nat) (op : SemOp)
  | run (t : Nat) (w : Nat)
  | spurious (t : Nat)
  deriving DecidableEq, Repr

/-- The action is a statement of a call already under way. -/
def MonAction.isRun : MonAction → Bool
  | run _ _ => true
  | _ => false

/-- One action on the semaphore; `none` when the action cannot happen in this
state (the thread is blocked, or does not stand where the action needs it). -/
def Monitor.step (m : Monitor) : MonAction → Option Monitor
  | MonAction.call t op =>
      match m.pcs[t]? with
      | some CallPc.idle =>
          match op with
          | SemOp.acquire => some { m with pcs := m.pcs.set t CallPc.acquireLock }
          | SemOp.release => some { m with pcs := m.pcs.set t CallPc.releaseLock }
      | _ => none
  | MonAction.spurious t =>
      match m.pcs[t]? with
      | some CallPc.acquireWaiting => some { m with pcs := m.pcs.set t CallPc.acquireRelock }
      | _ => none
  | MonAction.run t w =>
      match m.pcs[t]? with
      | some CallPc.acquireLock =>
          if m.mtx = none then
            some { m with mtx := some t, pcs := m.pcs.set t CallPc.acquireTest }
          else none
      | some CallPc.acquireTest =>
          if 0 < m.sem.count then
            some { m with pcs := m.pcs.set t CallPc.acquireDecrement }
          else
            some { m with mtx := none, pcs := m.pcs.set t CallPc.acquireWaiting }
      | some CallPc.acquireRelock =>
          if m.mtx = none then
            some { m with mtx := some t, pcs := m.pcs.set t CallPc.acquireTest }
          else none
      | some CallPc.acquireDecrement =>
          some { m with sem := { count := wrapInt32 (m.sem.count - 1) },
                        pcs := m.pcs.set t CallPc.acquireUnlock }
      | some CallPc.acquireUnlock =>
          some { m with mtx := none, pcs := m.pcs.set t CallPc.idle }
      | some CallPc.releaseLock =>
          if m.mtx = none then
            some { m with mtx := some t, pcs := m.pcs.set t CallPc.releaseIncrement }
          else none
      | some CallPc.releaseIncrement =>
          some { m with sem := m.sem.release32, pcs := m.pcs.set t CallPc.releaseNotify }
      | some CallPc.releaseNotify =>
          if m.pcs[w]? = some CallPc.acquireWaiting then
            some { m with pcs := (m.pcs.set w CallPc.acquireRelock).set t CallPc.releaseUnlock }
          else if CallPc.acquireWaiting ∈ m.pcs then none
          else some { m with pcs := m.pcs.set t CallPc.releaseUnlock }
      | some CallPc.releaseUnlock =>
          some { m with mtx := none, pcs := m.pcs.set t CallPc.idle }
      | _ => none

/-- The states the semaphore can be in: any interleaving of actions from
`Semaphore(initial_count)` with `n` threads outside any call. -/
inductive Monitor.Reachable (initial_count : Int) (n : Nat) : Monitor → Prop
  | init : Monitor.Reachable initial_count n (Monitor.init initial_count n)
  | step {m m' : Monitor} (a : MonAction) :
      Monitor.Reachable initial_count n m → m.step a = some m' →
      Monitor.Reachable initial_count n m'

/-- Run a list of actions in order; `none` when one of them cannot happen. -/
def Monitor.runActions : Monitor → List MonAction → Option Monitor
  | m, [] => some m
  | m, a :: as =>
      match m.step a with
      | some m' => m'.runActions as
      | none => none

/-- Statements a thread holding `mtx` executes before it frees `mtx`. -/
def Monitor.holderSteps (m : Monitor) : CallPc → Nat
  | CallPc.acquireTest => if 0 < m.sem.count then 3 else 1
  | CallPc.acquireDecrement => 2
  | CallPc.acquireUnlock => 1
  | CallPc.releaseIncrement => 3
  | CallPc.releaseNotify => 2
  | CallPc.releaseUnlock => 1
  | _ => 0

/-- Statements left before thread `t` returns from `release()`, counting those
of the thread that holds `mtx` while `t` stands at line 35; 0 outside
`release()`. -/
def Monitor.releaseDistance (m : Monitor) (t : Nat) : Nat :=
  match m.pcs[t]? with
  | some CallPc.releaseLock =>
      4 + (match m.mtx with
           | some h =>
               match m.pcs[h]? with
               | some pc => m.holderSteps pc
               | none => 0
           | none => 0)
  | some CallPc.releaseIncrement => 3
  | some CallPc.releaseNotify => 2
  | some CallPc.releaseUnlock => 1
  | _ => 0

/-- The statement that brings thread `t` nearer to returning from `release()`:
its own, or at line 35 with `mtx` taken the next statement of the thread that
holds `mtx`; `cv.notify_one()` unblocks the blocked thread of lowest index. -/
def Monitor.releaseNext (m : Monitor) (t : Nat) : MonAction :=
  match m.pcs[t]?, m.mtx with
  | some CallPc.releaseLock, some h => MonAction.run h (m.pcs.indexOf CallPc.acquireWaiting)
  | _, _ => MonAction.run t (m.pcs.indexOf CallPc.acquireWaiting)

/-- Thread 0 alone calls `release()` and then `acquire()`, each to its return. -/
def releaseThenAcquire : List MonAction :=
  [MonAction.call 0 SemOp.release, MonAction.run 0 0, MonAction.run 0 0, MonAction.run 0 0,
   MonAction.run 0 0,
   MonAction.call 0 SemOp.acquire, MonAction.run 0 0, MonAction.run 0 0, MonAction.run 0 0,
   MonAction.run 0 0]

/-- The call that takes effect on `count` when the action is executed: the
`count--` of line 27 is the `acquire`, the `count++` of line 37 the `release`. -/
def Monitor.effect (m : Monitor) : MonAction → Option SemOp
  | MonAction.run t _ =>
      match m.pcs[t]? with
      | some CallPc.acquireDecrement => some SemOp.acquire
      | some CallPc.releaseIncrement => some SemOp.release
      | _ => none
  | _ => none

/-- What holds of the monitor in every reachable state. -/
structure Monitor.Inv (m : Monitor) : Prop where
  owner : ∀ (t : Nat) (pc : CallPc), m.pcs[t]? = some pc → (pc.holdsMtx = true ↔ m.mtx = some t)
  holder : ∀ h : Nat, m.mtx = some h → h < m.pcs.length
  range : IsInt32 m.sem.count
  tested : ∀ t : Nat, m.pcs[t]? = some CallPc.acquireDecrement → 0 < m.sem.count

/-- Thread 1 is blocked in `acquire()` on `Semaphore(0)` and thread 0 has just
called `release()`. -/
def blockedWaiterState : Monitor :=
  { sem := Semaphore.mk' 0, mtx := none, pcs := [CallPc.releaseLock, CallPc.acquireWaiting] }

/-! ## Globals -/

/-- The two constants `BUFFER_SIZE` and `ITEMS_TO_PRODUCE`, kept as parameters. -/
structure Config where
  BUFFER_SIZE : Int
  ITEMS_TO_PRODUCE : Int
deriving DecidableEq, Repr

/-- The values the source fixes: `BUFFER_SIZE = 5`, `ITEMS_TO_PRODUCE = 20`. -/
def sourceConfig : Config := { BUFFER_SIZE := 5, ITEMS_TO_PRODUCE := 20 }

/-- `const int POISON_PILL = -1`. -/
def POISON_PILL : Int := -1

/-- A `std::mutex` (used for `cout_mutex`). -/
structure StdMutex where
  locked : Bool
deriving DecidableEq, Repr

/-- `std::mutex::lock`, `none` when the caller has to wait. -/
def StdMutex.lock (m : StdMutex) : Option StdMutex :=
  if m.locked then none else some { locked := true }

/-- `std::mutex::unlock`. -/
def StdMutex.unlock (_m : StdMutex) : StdMutex := { locked := false }

/-- Observable buffer events (ghost history, not program state). -/
inductive Event where
  | push (v : Int)
  | pop (v : Int)
deriving DecidableEq, Repr

/-- Control points of `produce()`; each names the statement executed next. -/
inductive ProducerPc where
  /-- line 89: `item <= ITEMS_TO_PRODUCE` -/
  | loopTest
  /-- line 91: `empty_slots.acquire()` -/
  | acquireEmpty
  /-- line 94: `buffer_mutex.acquire()` -/
  | acquireMutex
  /-- line 97: `buffer.push(item)` -/
  | push
  /-- line 100: `lock_guard lock(cout_mutex)` -/
  | coutLock
  /-- lines 101-102: print, end of the guard's scope -/
  | coutUnlock
  /-- line 106: `buffer_mutex.release()` -/
  | releaseMutex
  /-- line 109: `filled_slots.release()`, then the sleep and `++item` -/
  | releaseFilled
  /-- line 118: `lock_guard lock(cout_mutex)` -/
  | finishedCoutLock
  /-- lines 119-120: print, end of the guard's scope -/
  | finishedCoutUnlock
  /-- line 121: `empty_slots.acquire()` -/
  | pillAcquireEmpty
  /-- line 122: `buffer_mutex.acquire()` -/
  | pillAcquireMutex
  /-- line 123: `buffer.push(POISON_PILL)` -/
  | pillPush
  /-- line 124: `buffer_mutex.release()` -/
  | pillReleaseMutex
  /-- line 125: `filled_slots.release()` -/
  | pillReleaseFilled
  /-- line 126: `produce()` has returned -/
  | returned
deriving DecidableEq, Repr

/-- Control points of `consume()`; each names the statement executed next. -/
inductive ConsumerPc where
  /-- line 135: `filled_slots.acquire()` -/
  | acquireFilled
  /-- line 138: `buffer_mutex.acquire()` -/
  | acquireMutex
  /-- line 141: `consumed_item = buffer.front()` -/
  | front
  /-- line 142: `buffer.pop()` -/
  | pop
  /-- line 145: `consumed_item == POISON_PILL` -/
  | testPill
  /-- line 147: `lock_guard lock(cout_mutex)` -/
  | pillCoutLock
  /-- lines 148-149: print, end of the guard's scope -/
  | pillCoutUnlock
  /-- line 151: `buffer_mutex.release()` -/
  | pillReleaseMutex
  /-- lines 152-153: `empty_slots.release(); break;` -/
  | pillReleaseEmpty
  /-- line 158: `lock_guard lock(cout_mutex)` -/
  | coutLock
  /-- lines 159-160: print, end of the guard's scope -/
  | coutUnlock
  /-- line 164: `buffer_mutex.release()` -/
  | releaseMutex
  /-- line 167: `empty_slots.release()`, then the sleep and the next iteration -/
  | releaseEmpty
  /-- line 172: `consume()` has returned -/
  | returned
deriving DecidableEq, Repr

/-- The globals of the translation unit, the locals of the two threads and
their control points.  `events` is a ghost history of queue operations. -/
structure State where
  buffer : List Int
  buffer_mutex : Semaphore
  empty_slots : Semaphore
  filled_slots : Semaphore
  cout_mutex : StdMutex
  producerPc : ProducerPc
  item : Int
  consumerPc : ConsumerPc
  consumed_item : Int
  events : List Event
deriving DecidableEq, Repr

/-- State when `main` has started both threads: `buffer_mutex(1)`,
`empty_slots(BUFFER_SIZE)`, `filled_slots(0)`, empty queue, `item = 1`. -/
def initState (cfg : Config) : State :=
  { buffer := []
    buffer_mutex := Semaphore.mk' 1
    empty_slots := Semaphore.mk' cfg.BUFFER_SIZE
    filled_slots := Semaphore.mk' 0
    cout_mutex := { locked := false }
    producerPc := ProducerPc.loopTest
    item := 1
    consumerPc := ConsumerPc.acquireFilled
    consumed_item := 0
    events := [] }

/-- What happens when a thread is scheduled. -/
inductive StepResult where
  /-- the statement ran -/
  | next (s : State)
  /-- the thread waits in `acquire()` or `lock()` -/
  | blocked
  /-- the thread function has returned -/
  | returned
  /-- `front()` or `pop()` on an empty queue -/
  | undefinedBehaviour
deriving DecidableEq, Repr

/-- One statement of `produce()`. -/
def stepProducer (cfg : Config) (s : State) : StepResult :=
  match s.producerPc with
  | ProducerPc.loopTest =>
      if s.item ≤ cfg.ITEMS_TO_PRODUCE then
        StepResult.next { s with producerPc := ProducerPc.acquireEmpty }
      else
        StepResult.next { s with producerPc := ProducerPc.finishedCoutLock }
  | ProducerPc.acquireEmpty =>
      match s.empty_slots.acquire with
      | some sem => StepResult.next { s with empty_slots := sem, producerPc := ProducerPc.acquireMutex }
      | none => StepResult.blocked
  | ProducerPc.acquireMutex =>
      match s.buffer_mutex.acquire with
      | some sem => StepResult.next { s with buffer_mutex := sem, producerPc := ProducerPc.push }
      | none => StepResult.blocked
  | ProducerPc.push =>
      StepResult.next { s with
        buffer := s.buffer ++ [s.item]
        events := s.events ++ [Event.push s.item]
        producerPc := ProducerPc.coutLock }
  | ProducerPc.coutLock =>
      match s.cout_mutex.lock with
      | some m => StepResult.next { s with cout_mutex := m, producerPc := ProducerPc.coutUnlock }
      | none => StepResult.blocked
  | ProducerPc.coutUnlock =>
      StepResult.next { s with cout_mutex := s.cout_mutex.unlock, producerPc := ProducerPc.releaseMutex }
  | ProducerPc.releaseMutex =>
      StepResult.next { s with buffer_mutex := s.buffer_mutex.release, producerPc := ProducerPc.releaseFilled }
  | ProducerPc.releaseFilled =>
      StepResult.next { s with
        filled_slots := s.filled_slots.release
        item := s.item + 1
        producerPc := ProducerPc.loopTest }
  | ProducerPc.finishedCoutLock =>
      match s.cout_mutex.lock with
      | some m => StepResult.next { s with cout_mutex := m, producerPc := ProducerPc.finishedCoutUnlock }
      | none => StepResult.blocked
  | ProducerPc.finishedCoutUnlock =>
      StepResult.next { s with cout_mutex := s.cout_mutex.unlock, producerPc := ProducerPc.pillAcquireEmpty }
  | ProducerPc.pillAcquireEmpty =>
      match s.empty_slots.acquire with
      | some sem => StepResult.next { s with empty_slots := sem, producerPc := ProducerPc.pillAcquireMutex }
      | none => StepResult.blocked
  | ProducerPc.pillAcquireMutex =>
      match s.buffer_mutex.acquire with
      | some sem => StepResult.next { s with buffer_mutex := sem, producerPc := ProducerPc.pillPush }
      | none => StepResult.blocked
  | ProducerPc.pillPush =>
      StepResult.next { s with
        buffer := s.buffer ++ [POISON_PILL]
        events := s.events ++ [Event.push POISON_PILL]
        producerPc := ProducerPc.pillReleaseMutex }
  | ProducerPc.pillReleaseMutex =>
      StepResult.next { s with buffer_mutex := s.buffer_mutex.release, producerPc := ProducerPc.pillReleaseFilled }
  | ProducerPc.pillReleaseFilled =>
      StepResult.next { s with filled_slots := s.filled_slots.release, producerPc := ProducerPc.returned }
  | ProducerPc.returned => StepResult.returned

/-- One statement of `consume()`. -/
def stepConsumer (_cfg : Config) (s : State) : StepResult :=
  match s.consumerPc with
  | ConsumerPc.acquireFilled =>
      match s.filled_slots.acquire with
      | some sem => StepResult.next { s with filled_slots := sem, consumerPc := ConsumerPc.acquireMutex }
      | none => StepResult.blocked
  | ConsumerPc.acquireMutex =>
      match s.buffer_mutex.acquire with
      | some sem => StepResult.next { s with buffer_mutex := sem, consumerPc := ConsumerPc.front }
      | none => StepResult.blocked
  | ConsumerPc.front =>
      match s.buffer with
      | v :: _ => StepResult.next { s with consumed_item := v, consumerPc := ConsumerPc.pop }
      | [] => StepResult.undefinedBehaviour
  | ConsumerPc.pop =>
      match s.buffer with
      | v :: rest =>
          StepResult.next { s with
            buffer := rest
            events := s.events ++ [Event.pop v]
            consumerPc := ConsumerPc.testPill }
      | [] => StepResult.undefinedBehaviour
  | ConsumerPc.testPill =>
      if s.consumed_item = POISON_PILL then
        StepResult.next { s with consumerPc := ConsumerPc.pillCoutLock }
      else
        StepResult.next { s with consumerPc := ConsumerPc.coutLock }
  | ConsumerPc.pillCoutLock =>
      match s.cout_mutex.lock with
      | some m => StepResult.next { s with cout_mutex := m, consumerPc := ConsumerPc.pillCoutUnlock }
      | none => StepResult.blocked
  | ConsumerPc.pillCoutUnlock =>
      StepResult.next { s with cout_mutex := s.cout_mutex.unlock, consumerPc := ConsumerPc.pillReleaseMutex }
  | ConsumerPc.pillReleaseMutex =>
      StepResult.next { s with buffer_mutex := s.buffer_mutex.release, consumerPc := ConsumerPc.pillReleaseEmpty }
  | ConsumerPc.pillReleaseEmpty =>
      StepResult.next { s with empty_slots := s.empty_slots.release, consumerPc := ConsumerPc.returned }
  | ConsumerPc.coutLock =>
      match s.cout_mutex.lock with
      | some m => StepResult.next { s with cout_mutex := m, consumerPc := ConsumerPc.coutUnlock }
      | none => StepResult.blocked
  | ConsumerPc.coutUnlock =>
      StepResult.next { s with cout_mutex := s.cout_mutex.unlock, consumerPc := ConsumerPc.releaseMutex }
  | ConsumerPc.releaseMutex =>
      StepResult.next { s with buffer_mutex := s.buffer_mutex.release, consumerPc := ConsumerPc.releaseEmpty }
  | ConsumerPc.releaseEmpty =>
      StepResult.next { s with empty_slots := s.empty_slots.release, consumerPc := ConsumerPc.acquireFilled }
  | ConsumerPc.returned => StepResult.returned

/-- The two threads `main` starts. -/
inductive Task where
  | producer
  | consumer
deriving DecidableEq, Repr

/-- Schedule one thread for one statement. -/
def step (cfg : Config) : Task → State → StepResult
  | Task.producer, s => stepProducer cfg s
  | Task.consumer, s => stepConsumer cfg s

/-- States reachable from `initState` under any interleaving. -/
inductive Reachable (cfg : Config) : State → Prop where
  | init : Reachable cfg (initState cfg)
  | step {s s' : State} (t : Task) : Reachable cfg s → step cfg t s = StepResult.next s' →
      Reachable cfg s'

/-- Follow a schedule; `none` if a scheduled thread cannot run its statement. -/
def runSchedule (cfg : Config) : State → List Task → Option State
  | s, [] => some s
  | s, t :: ts =>
      match step cfg t s with
      | StepResult.next s' => runSchedule cfg s' ts
      | _ => none

/-! ## Observations on a state -/

/-- Values pushed so far, in order. -/
def pushed (es : List Event) : List Int :=
  es.filterMap fun e => match e with
    | Event.push v => some v
    | Event.pop _ => none

/-- Values popped so far, in order. -/
def popped (es : List Event) : List Int :=
  es.filterMap fun e => match e with
    | Event.push _ => none
    | Event.pop v => some v

/-- The sequence of items the consumer has dequeued so far. -/
def State.dequeued (s : State) : List Int := popped s.events

/-- The payload values `1, 2, ..., n`. -/
def payload (n : Int) : List Int := (List.range n.toNat).map fun (i : Nat) => (i : Int) + 1

/-- Everything `produce()` pushes: `1, ..., n`, then the sentinel. -/
def stream (n : Int) : List Int := payload n ++ [POISON_PILL]

/-- The producer is between `buffer_mutex.acquire()` and the matching release. -/
def ProducerPc.inCritical : ProducerPc → Bool
  | ProducerPc.push | ProducerPc.coutLock | ProducerPc.coutUnlock | ProducerPc.releaseMutex
  | ProducerPc.pillPush | ProducerPc.pillReleaseMutex => true
  | _ => false

/-- The consumer is between `buffer_mutex.acquire()` and the matching release. -/
def ConsumerPc.inCritical : ConsumerPc → Bool
  | ConsumerPc.front | ConsumerPc.pop | ConsumerPc.testPill | ConsumerPc.pillCoutLock
  | ConsumerPc.pillCoutUnlock | ConsumerPc.pillReleaseMutex | ConsumerPc.coutLock
  | ConsumerPc.coutUnlock | ConsumerPc.releaseMutex => true
  | _ => false

/-- Number of threads inside the `buffer_mutex` section. -/
def State.insideCount (s : State) : Nat :=
  s.producerPc.inCritical.toNat + s.consumerPc.inCritical.toNat

/-! ## Invariants -/

/-- The producer has completed `empty_slots.acquire()` and not yet the
`filled_slots.release()` that follows it. -/
def ProducerPc.holdsSlot : ProducerPc → Bool
  | ProducerPc.acquireMutex | ProducerPc.push | ProducerPc.coutLock | ProducerPc.coutUnlock
  | ProducerPc.releaseMutex | ProducerPc.releaseFilled | ProducerPc.pillAcquireMutex
  | ProducerPc.pillPush | ProducerPc.pillReleaseMutex | ProducerPc.pillReleaseFilled => true
  | _ => false

/-- The consumer has completed `filled_slots.acquire()` and not yet the
`empty_slots.release()` that follows it. -/
def ConsumerPc.holdsSlot : ConsumerPc → Bool
  | ConsumerPc.acquireFilled | ConsumerPc.returned => false
  | _ => true

/-- The producer has pushed and not yet called `filled_slots.release()`. -/
def ProducerPc.pushedUnsignalled : ProducerPc → Bool
  | ProducerPc.coutLock | ProducerPc.coutUnlock | ProducerPc.releaseMutex
  | ProducerPc.releaseFilled | ProducerPc.pillReleaseMutex | ProducerPc.pillReleaseFilled => true
  | _ => false

/-- The consumer has completed `filled_slots.acquire()` and not yet popped. -/
def ConsumerPc.claimedUnpopped : ConsumerPc → Bool
  | ConsumerPc.acquireMutex | ConsumerPc.front | ConsumerPc.pop => true
  | _ => false

/-- The producer holds `cout_mutex`. -/
def ProducerPc.holdsCout : ProducerPc → Bool
  | ProducerPc.coutUnlock | ProducerPc.finishedCoutUnlock => true
  | _ => false

/-- The consumer holds `cout_mutex`. -/
def ConsumerPc.holdsCout : ConsumerPc → Bool
  | ConsumerPc.coutUnlock | ConsumerPc.pillCoutUnlock => true
  | _ => false

/-- The counting invariant tying the semaphore counts, the queue length and
the two control points together. -/
structure CountInv (cfg : Config) (s : State) : Prop where
  mutex_eq : s.buffer_mutex.count
      = 1 - ((s.producerPc.inCritical.toNat : Int) + (s.consumerPc.inCritical.toNat : Int))
  mutex_nonneg : 0 ≤ s.buffer_mutex.count
  slots_eq : s.empty_slots.count + s.filled_slots.count
      + ((s.producerPc.holdsSlot.toNat : Int) + (s.consumerPc.holdsSlot.toNat : Int))
      = cfg.BUFFER_SIZE
  empty_nonneg : 0 ≤ s.empty_slots.count ∨ cfg.BUFFER_SIZE < 0
  filled_nonneg : 0 ≤ s.filled_slots.count
  length_eq : (s.buffer.length : Int) = s.filled_slots.count
      + ((s.producerPc.pushedUnsignalled.toNat : Int) + (s.consumerPc.claimedUnpopped.toNat : Int))
  cout_eq : s.cout_mutex.locked.toNat = s.producerPc.holdsCout.toNat + s.consumerPc.holdsCout.toNat

/-- Number of pushes `produce()` has performed, read off its control point. -/
def pushedCount (cfg : Config) (pc : ProducerPc) (item : Int) : Nat :=
  match pc with
  | ProducerPc.loopTest | ProducerPc.acquireEmpty | ProducerPc.acquireMutex
  | ProducerPc.push => (item - 1).toNat
  | ProducerPc.coutLock | ProducerPc.coutUnlock | ProducerPc.releaseMutex
  | ProducerPc.releaseFilled => item.toNat
  | ProducerPc.finishedCoutLock | ProducerPc.finishedCoutUnlock | ProducerPc.pillAcquireEmpty
  | ProducerPc.pillAcquireMutex | ProducerPc.pillPush => cfg.ITEMS_TO_PRODUCE.toNat
  | ProducerPc.pillReleaseMutex | ProducerPc.pillReleaseFilled
  | ProducerPc.returned => cfg.ITEMS_TO_PRODUCE.toNat + 1

/-- Range of the loop variable `item` at each control point of `produce()`. -/
def producerOk (cfg : Config) (pc : ProducerPc) (item : Int) : Prop :=
  match pc with
  | ProducerPc.loopTest => 1 ≤ item ∧ item ≤ (cfg.ITEMS_TO_PRODUCE.toNat : Int) + 1
  | ProducerPc.acquireEmpty | ProducerPc.acquireMutex | ProducerPc.push
  | ProducerPc.coutLock | ProducerPc.coutUnlock | ProducerPc.releaseMutex
  | ProducerPc.releaseFilled => 1 ≤ item ∧ item ≤ cfg.ITEMS_TO_PRODUCE
  | _ => True

/-- What holds of `consumed_item`, the queue and the dequeued items at each
control point of `consume()`. -/
def consumerOk (cfg : Config) (pc : ConsumerPc) (consumed_item : Int) (buffer dequeued : List Int) :
    Prop :=
  match pc with
  | ConsumerPc.pop =>
      dequeued.length ≤ cfg.ITEMS_TO_PRODUCE.toNat ∧ buffer.head? = some consumed_item
  | ConsumerPc.testPill => dequeued.getLast? = some consumed_item
  | ConsumerPc.pillCoutLock | ConsumerPc.pillCoutUnlock | ConsumerPc.pillReleaseMutex
  | ConsumerPc.pillReleaseEmpty | ConsumerPc.returned =>
      dequeued = stream cfg.ITEMS_TO_PRODUCE
  | _ => dequeued.length ≤ cfg.ITEMS_TO_PRODUCE.toNat

/-- The data invariant: what has been pushed, in which order, and where it is. -/
structure DataInv (cfg : Config) (s : State) : Prop where
  pushed_eq : pushed s.events
      = (stream cfg.ITEMS_TO_PRODUCE).take (pushedCount cfg s.producerPc s.item)
  fifo : pushed s.events = popped s.events ++ s.buffer
  producer_ok : producerOk cfg s.producerPc s.item
  consumer_ok : consumerOk cfg s.consumerPc s.consumed_item s.buffer (popped s.events)

/-- The consumer has taken the `if (consumed_item == POISON_PILL)` branch that
ends in `break` (lines 146-153), or has returned. -/
def ConsumerPc.stopping : ConsumerPc → Bool
  | ConsumerPc.pillCoutLock | ConsumerPc.pillCoutUnlock | ConsumerPc.pillReleaseMutex
  | ConsumerPc.pillReleaseEmpty | ConsumerPc.returned => true
  | _ => false

/-- The event is a `buffer.push`. -/
def Event.isPush : Event → Bool
  | Event.push _ => true
  | Event.pop _ => false

/-- Pushes and pops strictly alternate, starting with a push: the event at
position `i` (from 0) is a push exactly when `i` is even. -/
def strictlyAlternates (es : List Event) : Prop :=
  ∀ (i : Nat) (hi : i < es.length), (es.get ⟨i, hi⟩).isPush = decide (i % 2 = 0)

/-! ## Progress measure -/

/-- Statements `produce()` still has to run, from its control point and `item`
(`n` is the number of payload items). -/
def producerLeft (n : Int) (pc : ProducerPc) (item : Int) : Int :=
  match pc with
  | ProducerPc.loopTest => 8 * (n + 1 - item) + 8
  | ProducerPc.acquireEmpty => 8 * (n - item) + 15
  | ProducerPc.acquireMutex => 8 * (n - item) + 14
  | ProducerPc.push => 8 * (n - item) + 13
  | ProducerPc.coutLock => 8 * (n - item) + 12
  | ProducerPc.coutUnlock => 8 * (n - item) + 11
  | ProducerPc.releaseMutex => 8 * (n - item) + 10
  | ProducerPc.releaseFilled => 8 * (n - item) + 9
  | ProducerPc.finishedCoutLock => 7
  | ProducerPc.finishedCoutUnlock => 6
  | ProducerPc.pillAcquireEmpty => 5
  | ProducerPc.pillAcquireMutex => 4
  | ProducerPc.pillPush => 3
  | ProducerPc.pillReleaseMutex => 2
  | ProducerPc.pillReleaseFilled => 1
  | ProducerPc.returned => 0

/-- Statements `consume()` still has to run, from its control point and the
number of items dequeued so far. -/
def consumerLeft (n : Int) (pc : ConsumerPc) (dequeued : Int) : Int :=
  match pc with
  | ConsumerPc.acquireFilled => 9 * (n + 1 - dequeued)
  | ConsumerPc.acquireMutex => 9 * (n + 1 - dequeued) - 1
  | ConsumerPc.front => 9 * (n + 1 - dequeued) - 2
  | ConsumerPc.pop => 9 * (n + 1 - dequeued) - 3
  | ConsumerPc.testPill => 9 * (n + 1 - dequeued) + 5
  | ConsumerPc.pillCoutLock | ConsumerPc.coutLock => 9 * (n + 1 - dequeued) + 4
  | ConsumerPc.pillCoutUnlock | ConsumerPc.coutUnlock => 9 * (n + 1 - dequeued) + 3
  | ConsumerPc.pillReleaseMutex | ConsumerPc.releaseMutex => 9 * (n + 1 - dequeued) + 2
  | ConsumerPc.pillReleaseEmpty | ConsumerPc.releaseEmpty => 9 * (n + 1 - dequeued) + 1
  | ConsumerPc.returned => 0

/-- Statements the two threads still have to run before both have returned. -/
def stepsLeft (cfg : Config) (s : State) : Int :=
  producerLeft cfg.ITEMS_TO_PRODUCE.toNat s.producerPc s.item
    + consumerLeft cfg.ITEMS_TO_PRODUCE.toNat s.consumerPc (popped s.events).length

/-! ## Concrete runs -/

/-- The schedule that lets the producer run one whole iteration (8 statements),
then the consumer one whole iteration (9 statements), `rounds` times. -/
def sequentialSchedule : Nat → List Task
  | 0 => []
  | k + 1 => List.replicate 8 Task.producer ++ List.replicate 9 Task.consumer
      ++ sequentialSchedule k

/-- The state after a complete run of the program as written
(`BUFFER_SIZE = 5`, `ITEMS_TO_PRODUCE = 20`) under `sequentialSchedule 21`. -/
def sourceFinalState : State :=
  { buffer := []
    buffer_mutex := { count := 1 }
    empty_slots := { count := 5 }
    filled_slots := { count := 0 }
    cout_mutex := { locked := false }
    producerPc := ProducerPc.returned
    item := 21
    consumerPc := ConsumerPc.returned
    consumed_item := -1
    events := (stream 20).flatMap fun v => [Event.push v, Event.pop v] }

/-- The spec's second scenario: capacity 1, three items. -/
def tightConfig : Config := { BUFFER_SIZE := 1, ITEMS_TO_PRODUCE := 3 }

/-- The state after a complete run of `tightConfig` under `sequentialSchedule 4`. -/
def tightFinalState : State :=
  { buffer := []
    buffer_mutex := { count := 1 }
    empty_slots := { count := 1 }
    filled_slots := { count := 0 }
    cout_mutex := { locked := false }
    producerPc := ProducerPc.returned
    item := 4
    consumerPc := ConsumerPc.returned
    consumed_item := -1
    events := (stream 3).flatMap fun v => [Event.push v, Event.pop v] }

/-- The program as written, after the producer has filled the queue: five items
pushed, the producer at `empty_slots.acquire()` for the sixth, the consumer not
yet run. -/
def sourceFullState : State :=
  { buffer := [1, 2, 3, 4, 5]
    buffer_mutex := { count := 1 }
    empty_slots := { count := 0 }
    filled_slots := { count := 5 }
    cout_mutex := { locked := false }
    producerPc := ProducerPc.acquireEmpty
    item := 6
    consumerPc := ConsumerPc.acquireFilled
    consumed_item := 0
    events := [Event.push 1, Event.push 2, Event.push 3, Event.push 4, Event.push 5] }

/-- The program as written, with the producer about to push its first item and
the consumer waiting for it. -/
def sourceInsideState : State :=
  { buffer := []
    buffer_mutex := { count := 0 }
    empty_slots := { count := 4 }
    filled_slots := { count := 0 }
    cout_mutex := { locked := false }
    producerPc := ProducerPc.push
    item := 1
    consumerPc := ConsumerPc.acquireFilled
    consumed_item := 0
    events := [] }

/-- The program as written, with the consumer at the sentinel test just after
dequeuing the sentinel. -/
def sourcePillTestState : State :=
  { buffer := []
    buffer_mutex := { count := 0 }
    empty_slots := { count := 4 }
    filled_slots := { count := 0 }
    cout_mutex := { locked := false }
    producerPc := ProducerPc.returned
    item := 21
    consumerPc := ConsumerPc.testPill
    consumed_item := -1
    events := (stream 20).flatMap fun v => [Event.push v, Event.pop v] }

/-! ## Per-thread views of a state -/

/-- Number of threads that hold a slot permit: they completed their slot
acquire and have not yet released the opposite slot semaphore. -/
def State.slotHolders (s : State) : Nat :=
  s.producerPc.holdsSlot.toNat + s.consumerPc.holdsSlot.toNat

/-- The thread is between its `buffer_mutex.acquire()` and the matching release. -/
def State.inCritical (s : State) : Task → Bool
  | Task.producer => s.producerPc.inCritical
  | Task.consumer => s.consumerPc.inCritical

/-- The thread holds a slot permit. -/
def State.holdsSlot (s : State) : Task → Bool
  | Task.producer => s.producerPc.holdsSlot
  | Task.consumer => s.consumerPc.holdsSlot

/-- The thread's next statement is the `acquire()` of its slot semaphore. -/
def State.atSlotAcquire (s : State) : Task → Bool
  | Task.producer =>
      decide (s.producerPc = ProducerPc.acquireEmpty ∨ s.producerPc = ProducerPc.pillAcquireEmpty)
  | Task.consumer => decide (s.consumerPc = ConsumerPc.acquireFilled)

/-- The program as written, with the first item in the queue and the consumer
about to read it. -/
def sourceFrontState : State :=
  { buffer := [1]
    buffer_mutex := { count := 0 }
    empty_slots := { count := 4 }
    filled_slots := { count := 0 }
    cout_mutex := { locked := false }
    producerPc := ProducerPc.loopTest
    item := 2
    consumerPc := ConsumerPc.front
    consumed_item := 0
    events := [Event.push 1] }

/-- The program as written, with the producer holding a slot permit and about
to acquire `buffer_mutex`. -/
def sourceSlotHeldState : State :=
  { buffer := []
    buffer_mutex := { count := 1 }
    empty_slots := { count := 4 }
    filled_slots := { count := 0 }
    cout_mutex := { locked := false }
    producerPc := ProducerPc.acquireMutex
    item := 1
    consumerPc := ConsumerPc.acquireFilled
    consumed_item := 0
    events := [] }

end MutexSemaphore

/-!
## Memory allocation (`assignment-6/memoryManagement.cpp`)

`firstfit`, `nextfit` and `bestfit` take the two vectors by reference and
update them in place; here each returns the two vectors as they are when the
loops have finished.  C++ `int` is modelled as `Int`; `firstfit32` is `firstfit`
with the two allocation statements wrapped around to 32 bits.  The lines
written to `cout` are modelled only for `displayMemory`.
-/

namespace MemoryManagement
open CppInt

/-- The `block` class. -/
structure block where
  size : Int
  startAddress : Int
  allocated : Bool
deriving DecidableEq, Repr

/-- Constructor `block(int s, int addr)`. -/
def block.new (s addr : Int) : block :=
  { size := s, startAddress := addr, allocated := false }

/-- The `process` class. -/
structure process where
  size : Int
  processId : Int
  isallocated : Bool
  blockStartAddr : Int
deriving DecidableEq, Repr

/-- Constructor `process(int id, int sz)`. -/
def process.new (id sz : Int) : process :=
  { size := sz, processId := id, isallocated := false, blockStartAddr := 0 }

/-- The test `b.size>=p.size && !b.allocated` of `firstfit`, `nextfit` and the
first loop of `bestfit`. -/
def fits (b : block) (p : process) : Bool :=
  decide (b.size ≥ p.size) && !b.allocated

/-- Effect on `p` of the allocation statements
`p.blockStartAddr = b.startAddress; p.isallocated = true;`. -/
def process.place (p : process) (b : block) : process :=
  { p with blockStartAddr := b.startAddress, isallocated := true }

/-- Effect on `b` of the allocation statements
`b.startAddress += p.size; b.size -= p.size;`, taken exactly, as they are
whenever both results are `int`s (`block.carve32` is their effect on any
`int` fields). -/
def block.carve (b : block) (p : process) : block :=
  { b with startAddress := b.startAddress + p.size, size := b.size - p.size }

/-- Inner loop of `firstfit` (lines 53-67): the first block that passes the
test is carved and the loop breaks. -/
def firstfitScan (p : process) : List block → process × List block
  | [] => (p, [])
  | b :: bs =>
      if fits b p then (p.place b, b.carve p :: bs)
      else
        let r := firstfitScan p bs
        (r.1, b :: r.2)

/-- The function `firstfit`, up to the report: the outer loop over `processes`. -/
def firstfit : List block → List process → List block × List process
  | blocks, [] => (blocks, [])
  | blocks, p :: ps =>
      let r := firstfitScan p blocks
      let rest := firstfit r.2 ps
      (rest.1, r.1 :: rest.2)

/-- Inner loop of `nextfit` (lines 80-95), `for (i = lastpos; i < blocks.size();
i++)`: `fuel` counts the iterations still possible.  The third component is
the index at which the loop allocated, if it did. -/
def nextfitLoop (p : process) (blocks : List block) : Nat → Nat → process × List block × Option Nat
  | 0, _ => (p, blocks, none)
  | fuel + 1, i =>
      match blocks[i]? with
      | none => (p, blocks, none)
      | some b =>
          if fits b p then (p.place b, blocks.set i (b.carve p), some i)
          else nextfitLoop p blocks fuel (i + 1)

/-- Inner loop of `nextfit` started at `lastpos`. -/
def nextfitScan (p : process) (blocks : List block) (lastpos : Nat) :
    process × List block × Option Nat :=
  nextfitLoop p blocks (blocks.length - lastpos) lastpos

/-- Outer loop of `nextfit` with the current value of `lastpos`
(`lastpos = i` on allocation). -/
def nextfitFrom : Nat → List block → List process → List block × List process
  | _, blocks, [] => (blocks, [])
  | lastpos, blocks, p :: ps =>
      let r := nextfitScan p blocks lastpos
      let rest := nextfitFrom (r.2.2.getD lastpos) r.2.1 ps
      (rest.1, r.1 :: rest.2)

/-- The function `nextfit`, up to the report: `int lastpos = 0`. -/
def nextfit (blocks : List block) (processes : List process) : List block × List process :=
  nextfitFrom 0 blocks processes

/-- The block index each process is placed at by `nextfit` (ghost output),
`none` for a process that is not placed. -/
def nextfitChoices : Nat → List block → List process → List (Option Nat)
  | _, _, [] => []
  | lastpos, blocks, p :: ps =>
      let r := nextfitScan p blocks lastpos
      r.2.2 :: nextfitChoices (r.2.2.getD lastpos) r.2.1 ps

/-- `int minBlockSize = 1e9`. -/
def minBlockSizeInit : Int := 1000000000

/-- First inner loop of `bestfit` (lines 108-122): the running `minBlockSize`. -/
def bestfitMin (p : process) : List block → Int → Int
  | [], minBlockSize => minBlockSize
  | b :: bs, minBlockSize =>
      if fits b p then
        if b.size < minBlockSize then bestfitMin p bs b.size
        else bestfitMin p bs minBlockSize
      else bestfitMin p bs minBlockSize

/-- Second inner loop of `bestfit` (lines 124-137): the first block with
`b.size == minBlockSize` is carved and the loop breaks. -/
def bestfitPlace (p : process) (minBlockSize : Int) : List block → process × List block
  | [] => (p, [])
  | b :: bs =>
      if b.size = minBlockSize then (p.place b, b.carve p :: bs)
      else
        let r := bestfitPlace p minBlockSize bs
        (r.1, b :: r.2)

/-- Body of the outer loop of `bestfit` for one process. -/
def bestfitScan (p : process) (blocks : List block) : process × List block :=
  bestfitPlace p (bestfitMin p blocks minBlockSizeInit) blocks

/-- The function `bestfit`, up to the report. -/
def bestfit : List block → List process → List block × List process
  | blocks, [] => (blocks, [])
  | blocks, p :: ps =>
      let r := bestfitScan p blocks
      let rest := bestfit r.2 ps
      (rest.1, r.1 :: rest.2)

/-- One line of `displayMemory`: `"Block" i+1 " startAddress : " … " size : " …`. -/
structure ReportLine where
  blockNumber : Nat
  startAddress : Int
  size : Int
deriving DecidableEq, Repr

/-- Loop of `displayMemory` from index `i` for `n` more iterations; `none` when
`blocks[i]` is read out of bounds. -/
def displayLoop (blocks : List block) : Nat → Nat → Option (List ReportLine)
  | 0, _ => some []
  | n + 1, i =>
      match blocks[i]? with
      | none => none
      | some b =>
          match displayLoop blocks n (i + 1) with
          | none => none
          | some ls =>
              some ({ blockNumber := i + 1, startAddress := b.startAddress, size := b.size } :: ls)

/-- The function `displayMemory`: `for (int i=0; i<processes.size(); i++)`
printing `blocks[i]`. -/
def displayMemory (blocks : List block) (processes : List process) : Option (List ReportLine) :=
  displayLoop blocks processes.length 0

/-- The report `firstfit` prints under "Updated Memory blocks" (lines 69-70). -/
def firstfitReport (blocks : List block) (processes : List process) : Option (List ReportLine) :=
  displayMemory (firstfit blocks processes).1 (firstfit blocks processes).2

/-! ### Notions used to state the properties -/

/-- End address of a block, `startAddress + size`. -/
def block.endAddress (b : block) : Int := b.startAddress + b.size

/-- Sum of the sizes of the blocks. -/
def totalSize (blocks : List block) : Int := (blocks.map fun b => b.size).sum

/-- Sum of the sizes of the processes marked `isallocated`. -/
def allocatedSize (processes : List process) : Int :=
  ((processes.filter fun p => p.isallocated).map fun p => p.size).sum

/-- The address `x` lies in `[start, start + size)`. -/
def inRange (start size x : Int) : Prop := start ≤ x ∧ x < start + size

/-- The ranges `[startAddress, startAddress + size)` of two blocks share no address. -/
def block.disjoint (b b' : block) : Prop :=
  ∀ x : Int, ¬ (inRange b.startAddress b.size x ∧ inRange b'.startAddress b'.size x)

/-- The ranges `[blockStartAddr, blockStartAddr + size)` of two processes share
no address. -/
def process.disjoint (p p' : process) : Prop :=
  ∀ x : Int, ¬ (inRange p.blockStartAddr p.size x ∧ inRange p'.blockStartAddr p'.size x)

/-- The range of the process lies inside the range of the block. -/
def process.within (p : process) (b : block) : Prop :=
  b.startAddress ≤ p.blockStartAddr ∧ p.blockStartAddr + p.size ≤ b.startAddress + b.size

/-- What one pass of an inner loop may do: nothing, or place `p` in the block
at some index and carve that block. -/
def Outcome (p : process) (blocks : List block) (r : process × List block) : Prop :=
  r = (p, blocks) ∨
  ∃ (i : Nat) (b : block), blocks[i]? = some b ∧ r = (p.place b, blocks.set i (b.carve p))

/-- What the three allocation functions leave unchanged. -/
structure Conserved (blocks : List block) (processes : List process)
    (r : List block × List process) : Prop where
  endAddress_eq : r.1.map block.endAddress = blocks.map block.endAddress
  allocated_eq : (r.1.map fun b => b.allocated) = blocks.map fun b => b.allocated
  processId_eq : (r.2.map fun p => p.processId) = processes.map fun p => p.processId
  size_eq : (r.2.map fun p => p.size) = processes.map fun p => p.size
  total_eq : totalSize r.1 + allocatedSize r.2 = totalSize blocks

/-- What a caller sees preserved by an allocation function that was given
`blocks` and `processes` and returned `r`: the end address of every block, the
number of blocks, their `allocated` flags (all false), the `processId` and
`size` of every process, the number of processes, and the total size, counting
the sizes of the processes marked `isallocated` with the block sizes. -/
def Preserved (blocks : List block) (processes : List process)
    (r : List block × List process) : Prop :=
  r.1.map block.endAddress = blocks.map block.endAddress ∧
  r.1.length = blocks.length ∧
  (∀ b ∈ r.1, b.allocated = false) ∧
  (r.2.map fun p => p.processId) = (processes.map fun p => p.processId) ∧
  (r.2.map fun p => p.size) = (processes.map fun p => p.size) ∧
  r.2.length = processes.length ∧
  totalSize r.1 + allocatedSize r.2 = totalSize blocks

/-- The current blocks are what is left of the original ones: same end
address, start not before the original start, size not negative. -/
def Remainder (orig cur : List block) : Prop :=
  orig.length = cur.length ∧
  ∀ (j : Nat) (o c : block), orig[j]? = some o → cur[j]? = some c →
    o.startAddress ≤ c.startAddress ∧
    c.startAddress + c.size = o.startAddress + o.size ∧ 0 ≤ c.size

/-- The range of `q` lies in the part of some original block that is still
free in the current blocks. -/
def FreeIn (orig cur : List block) (q : process) : Prop :=
  ∃ (j : Nat) (o c : block), orig[j]? = some o ∧ cur[j]? = some c ∧
    c.startAddress ≤ q.blockStartAddr ∧ q.blockStartAddr + q.size ≤ o.startAddress + o.size

/-! ### `firstfit` on 32-bit fields -/

/-- Effect on `b` of the allocation statements
`b.startAddress += p.size; b.size -= p.size;` on the 32-bit `int` fields. -/
def block.carve32 (b : block) (p : process) : block :=
  { b with startAddress := wrapInt32 (b.startAddress + p.size),
           size := wrapInt32 (b.size - p.size) }

/-- Inner loop of `firstfit` (lines 53-67) on 32-bit `int` fields: the first
block that passes the test is carved and the loop breaks. -/
def firstfitScan32 (p : process) : List block → process × List block
  | [] => (p, [])
  | b :: bs =>
      if fits b p then (p.place b, b.carve32 p :: bs)
      else
        let r := firstfitScan32 p bs
        (r.1, b :: r.2)

/-- The function `firstfit` on 32-bit `int` fields, up to the report: the outer
loop over `processes`. -/
def firstfit32 : List block → List process → List block × List process
  | blocks, [] => (blocks, [])
  | blocks, p :: ps =>
      let r := firstfitScan32 p blocks
      let rest := firstfit32 r.2 ps
      (rest.1, r.1 :: rest.2)

/-- Every address of the block is an `int`: the fields are in range, the size
is not negative and the end address `startAddress + size` is at most
`INT_MAX`. -/
def block.addressable (b : block) : Prop :=
  INT_MIN ≤ b.startAddress ∧ 0 ≤ b.size ∧ b.size ≤ INT_MAX ∧
  b.startAddress + b.size ≤ INT_MAX

/-! ### Sample inputs -/

/-- Five blocks such as `main` reads: sizes 100, 500, 200, 300, 600 laid out
one after the other from address 0. -/
def sampleBlocks : List block :=
  [block.new 100 0, block.new 500 100, block.new 200 600, block.new 300 800,
   block.new 600 1100]

/-- Four processes such as `main` reads: sizes 212, 417, 112, 426. -/
def sampleProcesses : List process :=
  [process.new 1 212, process.new 2 417, process.new 3 112, process.new 4 426]

/-- One block of size 2000000000 at address 2000000000. -/
def highBlocks : List block := [block.new 2000000000 2000000000]

/-- Two processes of size 1000000000. -/
def largeProcesses : List process := [process.new 1 1000000000, process.new 2 1000000000]

/-- Four processes with non-decreasing sizes. -/
def sortedProcesses : List process :=
  [process.new 1 112, process.new 2 212, process.new 3 417, process.new 4 426]

end MemoryManagement

/-! ## Lemmas on C++ `int` -/

namespace CppInt

theorem wrapInt32_eq (x : Int) (h : IsInt32 x) : wrapInt32 x = x := by
  obtain ⟨h1, h2⟩ := h
  simp only [INT_MIN, INT_MAX] at h1 h2
  unfold wrapInt32
  omega

theorem wrapInt32_isInt32 (x : Int) : IsInt32 (wrapInt32 x) := by
  unfold IsInt32 wrapInt32 INT_MIN INT_MAX
  omega

theorem wrapInt32_max_succ : wrapInt32 (INT_MAX + 1) = INT_MIN := by
  decide

end CppInt

namespace MutexSemaphore
open CppInt

/-! ## Lemmas on the semaphore and the counting invariant -/

theorem Semaphore.acquire_eq_some (s s' : Semaphore) :
    s.acquire = some s' ↔ 0 < s.count ∧ s' = { count := s.count - 1 } := by
  unfold Semaphore.acquire
  split
  · constructor
    · intro h; exact ⟨‹_›, (Option.some.inj h).symm⟩
    · rintro ⟨_, rfl⟩; rfl
  · constructor
    · intro h; cases h
    · rintro ⟨h, _⟩; exact absurd h ‹_›

theorem StdMutex.lock_eq_some (m m' : StdMutex) :
    m.lock = some m' ↔ m.locked = false ∧ m' = { locked := true } := by
  unfold StdMutex.lock
  split
  · constructor
    · intro h; cases h
    · rintro ⟨h, _⟩; simp_all
  · constructor
    · intro h; exact ⟨by simp_all, (Option.some.inj h).symm⟩
    · rintro ⟨_, rfl⟩; rfl

theorem countInv_init (cfg : Config) : CountInv cfg (initState cfg) := by
  constructor <;> simp [initState, le_or_lt, Semaphore.mk', ProducerPc.inCritical, ConsumerPc.inCritical,
    ProducerPc.holdsSlot, ConsumerPc.holdsSlot, ProducerPc.pushedUnsignalled,
    ConsumerPc.claimedUnpopped, ProducerPc.holdsCout, ConsumerPc.holdsCout]

theorem countInv_stepProducer (cfg : Config) (s s' : State) (h : CountInv cfg s)
    (hs : stepProducer cfg s = StepResult.next s') : CountInv cfg s' := by
  obtain ⟨h1, h2, h3, h4, h5, h6, h7⟩ := h
  rcases s with ⟨buf, ⟨m⟩, ⟨e⟩, ⟨f⟩, ⟨c⟩, ppc, item, cpc, ci, ev⟩
  have hc := Bool.toNat_le c
  cases ppc <;> simp only [stepProducer] at hs <;> (try split at hs) <;>
    simp only [StepResult.next.injEq, reduceCtorEq, Semaphore.acquire_eq_some,
      StdMutex.lock_eq_some] at * <;>
    (first
      | (obtain ⟨hpos, rfl⟩ := ‹_ ∧ _›; subst hs; try subst hpos)
      | subst hs) <;>
    (constructor <;>
      simp only [ProducerPc.inCritical,
        ProducerPc.holdsSlot, ProducerPc.pushedUnsignalled,
        ProducerPc.holdsCout, Semaphore.release, StdMutex.unlock, Bool.toNat_true,
        Bool.toNat_false, List.length_append, List.length_singleton, Nat.cast_add,
        Nat.cast_one, Nat.cast_zero] at * <;>
      omega)

theorem countInv_stepConsumer (cfg : Config) (s s' : State) (h : CountInv cfg s)
    (hs : stepConsumer cfg s = StepResult.next s') : CountInv cfg s' := by
  obtain ⟨h1, h2, h3, h4, h5, h6, h7⟩ := h
  rcases s with ⟨buf, ⟨m⟩, ⟨e⟩, ⟨f⟩, ⟨c⟩, ppc, item, cpc, ci, ev⟩
  have hc := Bool.toNat_le c
  cases cpc <;> simp only [stepConsumer] at hs <;> (try split at hs) <;>
    simp only [StepResult.next.injEq, reduceCtorEq, Semaphore.acquire_eq_some,
      StdMutex.lock_eq_some] at * <;>
    (first
      | (obtain ⟨hpos, rfl⟩ := ‹_ ∧ _›; subst hs; try subst hpos)
      | subst hs) <;>
    (constructor <;>
      simp only [ConsumerPc.inCritical,
        ConsumerPc.holdsSlot, ConsumerPc.claimedUnpopped,
        ConsumerPc.holdsCout, Semaphore.release, StdMutex.unlock, Bool.toNat_true,
        Bool.toNat_false, List.length_cons, Nat.cast_add,
        Nat.cast_one, Nat.cast_zero] at * <;>
      omega)

theorem countInv_step (cfg : Config) (t : Task) (s s' : State) (h : CountInv cfg s)
    (hs : step cfg t s = StepResult.next s') : CountInv cfg s' := by
  cases t
  · exact countInv_stepProducer cfg s s' h hs
  · exact countInv_stepConsumer cfg s s' h hs

theorem countInv_of_reachable (cfg : Config) (s : State) (h : Reachable cfg s) :
    CountInv cfg s := by
  induction h with
  | init => exact countInv_init cfg
  | step t _ hs ih => exact countInv_step cfg t _ _ ih hs

/-! ## The produced stream -/

theorem payload_length (n : Int) : (payload n).length = n.toNat := by
  simp [payload]

theorem stream_length (n : Int) : (stream n).length = n.toNat + 1 := by
  simp [stream, payload_length]

theorem payload_pos (n v : Int) (h : v ∈ payload n) : 1 ≤ v := by
  simp only [payload, List.mem_map, List.mem_range] at h
  obtain ⟨i, _, rfl⟩ := h
  omega

theorem pill_not_mem_payload (n : Int) : POISON_PILL ∉ payload n := by
  intro h
  have := payload_pos n _ h
  simp [POISON_PILL] at this

theorem payload_getElem (n : Int) (k : Nat) (hk : k < (payload n).length) :
    (payload n)[k] = (k : Int) + 1 := by
  simp [payload]

theorem stream_take_toNat (n : Int) : (stream n).take n.toNat = payload n := by
  have := payload_length n
  simp [stream, List.take_append_eq_append_take, this]

theorem stream_take_succ (n : Int) (k : Nat) (hk : k < n.toNat) :
    (stream n).take (k + 1) = (stream n).take k ++ [(k : Int) + 1] := by
  have hlen := payload_length n
  have hk' : k < (stream n).length := by rw [stream_length]; omega
  rw [List.take_succ, List.getElem?_eq_getElem hk']
  simp only [Option.toList_some, List.append_cancel_left_eq, List.cons.injEq, and_true]
  unfold stream
  rw [List.getElem_append_left (by omega)]
  exact payload_getElem n k (by omega)

theorem stream_take_pill (n : Int) :
    (stream n).take (n.toNat + 1) = (stream n).take n.toNat ++ [POISON_PILL] := by
  rw [stream_take_toNat]
  have : (stream n).length ≤ n.toNat + 1 := by rw [stream_length]
  rw [List.take_of_length_le this]
  rfl

theorem pushed_append (es : List Event) (e : Event) :
    pushed (es ++ [e]) = pushed es ++ (match e with | Event.push v => [v] | Event.pop _ => []) := by
  cases e <;> simp [pushed, List.filterMap_append]

theorem popped_append (es : List Event) (e : Event) :
    popped (es ++ [e]) = popped es ++ (match e with | Event.push _ => [] | Event.pop v => [v]) := by
  cases e <;> simp [popped, List.filterMap_append]

/-! ## The data invariant -/

theorem dataInv_init (cfg : Config) : DataInv cfg (initState cfg) := by
  constructor <;> simp [initState, pushed, popped, pushedCount, producerOk, consumerOk]

theorem consumerOk_push (cfg : Config) (pc : ConsumerPc) (ci v : Int) (buf deq : List Int)
    (h : consumerOk cfg pc ci buf deq) : consumerOk cfg pc ci (buf ++ [v]) deq := by
  cases pc <;> simp only [consumerOk] at * <;> try exact h
  obtain ⟨h1, h2⟩ := h
  refine ⟨h1, ?_⟩
  cases buf <;> simp_all

theorem dataInv_stepProducer (cfg : Config) (s s' : State) (h : DataInv cfg s)
    (hs : stepProducer cfg s = StepResult.next s') : DataInv cfg s' := by
  obtain ⟨h1, h2, h3, h4⟩ := h
  rcases s with ⟨buf, ⟨m⟩, ⟨e⟩, ⟨f⟩, ⟨c⟩, ppc, item, cpc, ci, ev⟩
  dsimp only at h1 h2 h3 h4
  cases ppc <;> simp only [stepProducer] at hs <;> (try split at hs) <;>
    simp only [StepResult.next.injEq, reduceCtorEq] at hs <;> subst hs <;>
    simp only [pushedCount, producerOk] at h1 h3
  case loopTest.isTrue h =>
    exact ⟨h1, h2, ⟨h3.1, h⟩, h4⟩
  case loopTest.isFalse h =>
    refine ⟨?_, h2, trivial, h4⟩
    have : (item - 1).toNat = cfg.ITEMS_TO_PRODUCE.toNat := by omega
    simpa only [pushedCount, this] using h1
  case push =>
    have hk : (item - 1).toNat < cfg.ITEMS_TO_PRODUCE.toNat := by omega
    have hi : item.toNat = (item - 1).toNat + 1 := by omega
    have hv : (((item - 1).toNat : Nat) : Int) + 1 = item := by omega
    refine ⟨?_, ?_, h3, consumerOk_push cfg _ _ _ _ _ (by simpa [popped_append] using h4)⟩
    · simp only [pushedCount, pushed_append, hi, stream_take_succ _ _ hk, hv, h1]
    · simp only [pushed_append, popped_append, h2, List.append_nil, List.append_assoc]
  case releaseFilled =>
    refine ⟨?_, h2, ?_, h4⟩
    · simpa only [pushedCount, add_sub_cancel_right] using h1
    · simp only [producerOk]; omega
  case pillPush =>
    refine ⟨?_, ?_, trivial, consumerOk_push cfg _ _ _ _ _ (by simpa [popped_append] using h4)⟩
    · simp only [pushedCount, pushed_append, stream_take_pill, h1]
    · simp only [pushed_append, popped_append, h2, List.append_nil, List.append_assoc]
  all_goals exact ⟨h1, h2, h3, h4⟩

theorem popped_isPrefix_stream (cfg : Config) (s : State) (h : DataInv cfg s) :
    popped s.events <+: stream cfg.ITEMS_TO_PRODUCE := by
  have h1 : popped s.events <+: pushed s.events := ⟨s.buffer, h.fifo.symm⟩
  rw [h.pushed_eq] at h1
  exact h1.trans (List.take_prefix _ _)

theorem stream_last_pill (n : Int) (l : List Int) (h : l <+: stream n)
    (hl : l.getLast? = some POISON_PILL) : l = stream n := by
  rcases List.prefix_concat_iff.mp h with h | h
  · exact h
  · exact absurd (h.mem (List.mem_of_getLast?_eq_some hl)) (pill_not_mem_payload n)

theorem stream_last_payload (n v : Int) (l : List Int) (h : l <+: stream n)
    (hl : l.getLast? = some v) (hv : v ≠ POISON_PILL) : l.length ≤ n.toNat := by
  rcases List.prefix_concat_iff.mp h with h | h
  · subst h
    rw [List.getLast?_concat] at hl
    exact absurd (Option.some.inj hl).symm hv
  · simpa [payload_length] using h.length_le

theorem dataInv_stepConsumer (cfg : Config) (s s' : State) (h : DataInv cfg s)
    (hs : stepConsumer cfg s = StepResult.next s') : DataInv cfg s' := by
  have hpre := popped_isPrefix_stream cfg s h
  obtain ⟨h1, h2, h3, h4⟩ := h
  rcases s with ⟨buf, ⟨m⟩, ⟨e⟩, ⟨f⟩, ⟨c⟩, ppc, item, cpc, ci, ev⟩
  dsimp only at h1 h2 h3 h4 hpre
  cases cpc <;> simp only [stepConsumer] at hs <;> (try split at hs) <;>
    simp only [StepResult.next.injEq, reduceCtorEq] at hs <;> subst hs <;>
    simp only [consumerOk] at h4
  case front.h_1 _ v rest =>
    exact ⟨h1, h2, h3, ⟨h4, rfl⟩⟩
  case pop.h_1 _ v rest =>
    refine ⟨?_, ?_, h3, ?_⟩
    · simpa only [pushed_append, List.append_nil] using h1
    · simp only [pushed_append, popped_append, h2, List.append_nil, List.append_assoc,
        List.singleton_append]
    · have hv : v = ci := by simpa using h4.2
      simp only [consumerOk, popped_append, List.getLast?_concat, hv]
  case testPill.isTrue hci =>
    exact ⟨h1, h2, h3, stream_last_pill _ _ hpre (hci ▸ h4)⟩
  case testPill.isFalse hci =>
    exact ⟨h1, h2, h3, stream_last_payload _ _ _ hpre h4 hci⟩
  all_goals exact ⟨h1, h2, h3, h4⟩

theorem dataInv_step (cfg : Config) (t : Task) (s s' : State) (h : DataInv cfg s)
    (hs : step cfg t s = StepResult.next s') : DataInv cfg s' := by
  cases t
  · exact dataInv_stepProducer cfg s s' h hs
  · exact dataInv_stepConsumer cfg s s' h hs

theorem dataInv_of_reachable (cfg : Config) (s : State) (h : Reachable cfg s) :
    DataInv cfg s := by
  induction h with
  | init => exact dataInv_init cfg
  | step t _ hs ih => exact dataInv_step cfg t _ _ ih hs

/-! ## Concrete runs are reachable -/

theorem reachable_of_runSchedule (cfg : Config) (ts : List Task) :
    ∀ s s' : State, Reachable cfg s → runSchedule cfg s ts = some s' → Reachable cfg s' := by
  induction ts with
  | nil =>
    intro s s' hs h
    simp only [runSchedule, Option.some.injEq] at h
    exact h ▸ hs
  | cons t ts ih =>
    intro s s' hs h
    simp only [runSchedule] at h
    split at h
    · next s1 h1 => exact ih s1 s' (Reachable.step t hs h1) h
    · cases h

set_option maxRecDepth 100000 in
theorem sourceFinalState_run :
    runSchedule sourceConfig (initState sourceConfig) (sequentialSchedule 21)
      = some sourceFinalState := by
  decide

theorem sourceFinalState_reachable : Reachable sourceConfig sourceFinalState :=
  reachable_of_runSchedule _ _ _ _ Reachable.init sourceFinalState_run

set_option maxRecDepth 100000 in
theorem tightFinalState_run :
    runSchedule tightConfig (initState tightConfig) (sequentialSchedule 4)
      = some tightFinalState := by
  decide

theorem tightFinalState_reachable : Reachable tightConfig tightFinalState :=
  reachable_of_runSchedule _ _ _ _ Reachable.init tightFinalState_run

/-! ## More reachable states -/

set_option maxRecDepth 100000 in
theorem sourceFullState_run :
    runSchedule sourceConfig (initState sourceConfig) (List.replicate 41 Task.producer)
      = some sourceFullState := by
  decide

theorem sourceFullState_reachable : Reachable sourceConfig sourceFullState :=
  reachable_of_runSchedule _ _ _ _ Reachable.init sourceFullState_run

theorem sourceInsideState_run :
    runSchedule sourceConfig (initState sourceConfig) (List.replicate 3 Task.producer)
      = some sourceInsideState := by
  decide

theorem sourceInsideState_reachable : Reachable sourceConfig sourceInsideState :=
  reachable_of_runSchedule _ _ _ _ Reachable.init sourceInsideState_run

set_option maxRecDepth 100000 in
theorem sourcePillTestState_run :
    runSchedule sourceConfig (initState sourceConfig)
      (sequentialSchedule 20 ++ List.replicate 8 Task.producer
        ++ List.replicate 4 Task.consumer)
      = some sourcePillTestState := by
  decide

theorem sourcePillTestState_reachable : Reachable sourceConfig sourcePillTestState :=
  reachable_of_runSchedule _ _ _ _ Reachable.init sourcePillTestState_run

/-! ## Blocked threads -/

theorem Semaphore.acquire_eq_none (s : Semaphore) : s.acquire = none ↔ s.count ≤ 0 := by
  unfold Semaphore.acquire
  split
  · simp only [reduceCtorEq, false_iff]; omega
  · simp only [true_iff]; omega

theorem StdMutex.lock_eq_none (m : StdMutex) : m.lock = none ↔ m.locked = true := by
  unfold StdMutex.lock
  split <;> simp_all

/-- Why `produce()` cannot run its next statement. -/
theorem stepProducer_stuck (cfg : Config) (s : State)
    (h : ∀ s', stepProducer cfg s ≠ StepResult.next s') :
    s.producerPc = ProducerPc.returned ∨
    ((s.producerPc = ProducerPc.acquireEmpty ∨ s.producerPc = ProducerPc.pillAcquireEmpty) ∧
      s.empty_slots.count ≤ 0) ∨
    ((s.producerPc = ProducerPc.acquireMutex ∨ s.producerPc = ProducerPc.pillAcquireMutex) ∧
      s.buffer_mutex.count ≤ 0) ∨
    ((s.producerPc = ProducerPc.coutLock ∨ s.producerPc = ProducerPc.finishedCoutLock) ∧
      s.cout_mutex.locked = true) := by
  rcases s with ⟨buf, m, e, f, c, ppc, item, cpc, ci, ev⟩
  cases ppc <;> simp only [stepProducer] at h <;> (try split at h) <;>
    simp only [ne_eq, StepResult.next.injEq, forall_eq', not_true_eq_false, reduceCtorEq,
      not_false_eq_true, implies_true] at h <;>
    simp_all [Semaphore.acquire_eq_none, StdMutex.lock_eq_none]

/-- Why `consume()` cannot run its next statement. -/
theorem stepConsumer_stuck (cfg : Config) (s : State)
    (h : ∀ s', stepConsumer cfg s ≠ StepResult.next s') :
    s.consumerPc = ConsumerPc.returned ∨
    (s.consumerPc = ConsumerPc.acquireFilled ∧ s.filled_slots.count ≤ 0) ∨
    (s.consumerPc = ConsumerPc.acquireMutex ∧ s.buffer_mutex.count ≤ 0) ∨
    ((s.consumerPc = ConsumerPc.coutLock ∨ s.consumerPc = ConsumerPc.pillCoutLock) ∧
      s.cout_mutex.locked = true) ∨
    ((s.consumerPc = ConsumerPc.front ∨ s.consumerPc = ConsumerPc.pop) ∧ s.buffer = []) := by
  rcases s with ⟨buf, m, e, f, c, ppc, item, cpc, ci, ev⟩
  cases cpc <;> simp only [stepConsumer] at h <;> (try split at h) <;>
    simp only [ne_eq, StepResult.next.injEq, forall_eq', not_true_eq_false, reduceCtorEq,
      not_false_eq_true, implies_true] at h <;>
    simp_all [Semaphore.acquire_eq_none, StdMutex.lock_eq_none]

theorem dataInv_lengths (cfg : Config) (s : State) (h : DataInv cfg s) :
    (popped s.events).length + s.buffer.length
      = min (pushedCount cfg s.producerPc s.item) (cfg.ITEMS_TO_PRODUCE.toNat + 1) := by
  have := congrArg List.length h.fifo
  rw [h.pushed_eq, List.length_take, stream_length, List.length_append] at this
  exact this.symm

/-- With capacity at least 1, a reachable state in which no thread can run is
one where both threads have returned. -/
theorem stuck_is_finished (cfg : Config) (s : State) (hC : 1 ≤ cfg.BUFFER_SIZE)
    (h : Reachable cfg s) (hstuck : ∀ t s', step cfg t s ≠ StepResult.next s') :
    s.producerPc = ProducerPc.returned ∧ s.consumerPc = ConsumerPc.returned := by
  have hP := stepProducer_stuck cfg s (hstuck Task.producer)
  have hQ := stepConsumer_stuck cfg s (hstuck Task.consumer)
  have hd := dataInv_of_reachable cfg s h
  have hlen := dataInv_lengths cfg s hd
  obtain ⟨-, -, d3, d4⟩ := hd
  obtain ⟨h1, h2, h3, h4, h5, h6, h7⟩ := countInv_of_reachable cfg s h
  rcases s with ⟨buf, ⟨m⟩, ⟨e⟩, ⟨f⟩, ⟨c⟩, ppc, item, cpc, ci, ev⟩
  dsimp only at *
  rcases hP with rfl | ⟨rfl | rfl, he⟩ | ⟨rfl | rfl, hm⟩ | ⟨rfl | rfl, hc⟩ <;>
    rcases hQ with rfl | ⟨rfl, hf⟩ | ⟨rfl, hm'⟩ | ⟨rfl | rfl, hc'⟩ | ⟨rfl | rfl, hb⟩ <;>
    (try subst hc) <;> (try subst hc') <;> (try subst hb) <;>
    simp only [ProducerPc.inCritical, ConsumerPc.inCritical, ProducerPc.holdsSlot,
      ConsumerPc.holdsSlot, ProducerPc.pushedUnsignalled, ConsumerPc.claimedUnpopped,
      ProducerPc.holdsCout, ConsumerPc.holdsCout, Bool.toNat_true, Bool.toNat_false,
      Nat.cast_one, Nat.cast_zero, pushedCount, producerOk, consumerOk, List.length_nil,
      and_self, reduceCtorEq, and_false, false_and] at * <;>
    (try (rw [d4, stream_length] at hlen)) <;>
    omega

theorem finished_is_stuck (cfg : Config) (s : State)
    (hp : s.producerPc = ProducerPc.returned) (hc : s.consumerPc = ConsumerPc.returned)
    (t : Task) : step cfg t s = StepResult.returned := by
  cases t
  · simp only [step, stepProducer, hp]
  · simp only [step, stepConsumer, hc]

/-! ## The sentinel and the payload -/

theorem filter_stream (n : Int) :
    (stream n).filter (fun v => decide (v ≠ POISON_PILL)) = payload n := by
  have h : ∀ v ∈ payload n, decide (v ≠ POISON_PILL) = true := by
    intro v hv
    have := payload_pos n v hv
    simp only [POISON_PILL, ne_eq, decide_not, Bool.not_eq_eq_eq_not, Bool.not_true,
      decide_eq_false_iff_not]
    omega
  simp only [stream, List.filter_append, List.filter_eq_self.mpr h]
  simp

theorem stream_getLast (n : Int) : (stream n).getLast? = some POISON_PILL := by
  simp [stream]

theorem isPrefix_stream_cases (n : Int) (l : List Int) (h : l <+: stream n) :
    l = stream n ∨ (l.length ≤ n.toNat ∧ POISON_PILL ∉ l) := by
  rcases List.prefix_concat_iff.mp h with h | h
  · exact Or.inl h
  · refine Or.inr ⟨by simpa [payload_length] using h.length_le, fun hm => ?_⟩
    exact pill_not_mem_payload n (h.mem hm)

theorem count_pill_stream (n : Int) : (stream n).count POISON_PILL = 1 := by
  simp [stream, List.count_append, List.count_eq_zero_of_not_mem (pill_not_mem_payload n)]

/-! ## Sequences of semaphore calls -/

theorem Semaphore.release_count (s : Semaphore) : s.release.count = s.count + 1 := rfl

theorem Semaphore.release32_count (s : Semaphore) :
    s.release32.count = wrapInt32 (s.count + 1) := rfl

/-- Below `INT_MAX` the 32-bit `count++` is the exact one. -/
theorem Semaphore.release32_eq_release (s : Semaphore) (h : IsInt32 s.count)
    (hlt : s.count < INT_MAX) : s.release32 = s.release := by
  unfold Semaphore.release32 Semaphore.release
  rw [wrapInt32_eq]
  exact ⟨by have := h.1; omega, by omega⟩

theorem Semaphore.runCalls_count (ops : List SemOp) :
    ∀ s s' : Semaphore, IsInt32 s.count → s.noOverflow ops = true → s.runCalls ops = some s' →
      IsInt32 s'.count ∧
      s'.count = s.count + (releases ops : Int) - (acquires ops : Int) ∧
      (0 ≤ s.count → 0 ≤ s'.count) := by
  induction ops with
  | nil =>
    intro s s' hr _ h
    simp only [Semaphore.runCalls, Option.some.injEq] at h
    subst h
    exact ⟨hr, by simp [releases, acquires], fun h0 => h0⟩
  | cons op ops ih =>
    intro s s' hr hno h
    cases op with
    | acquire =>
      simp only [Semaphore.runCalls] at h
      simp only [Semaphore.noOverflow] at hno
      split at h
      · next s1 h1 =>
        rw [h1] at hno
        obtain ⟨hpos, rfl⟩ := (Semaphore.acquire_eq_some s s1).mp h1
        have hr1 : IsInt32 (s.count - 1) := ⟨by have := hr.1; simp only [INT_MIN] at *; omega,
          by have := hr.2; omega⟩
        obtain ⟨i1, i2, i3⟩ := ih _ _ hr1 hno h
        refine ⟨i1, ?_, fun _ => i3 (by simp only; omega)⟩
        simp only [releases, acquires, List.count_cons_self, List.count_cons_of_ne, ne_eq,
          reduceCtorEq, not_false_eq_true, Nat.cast_add, Nat.cast_one] at i2 ⊢
        omega
      · cases h
    | release =>
      simp only [Semaphore.runCalls] at h
      simp only [Semaphore.noOverflow, Bool.and_eq_true, decide_eq_true_eq] at hno
      obtain ⟨hlt, hno⟩ := hno
      have heq := Semaphore.release32_eq_release s hr hlt
      have hr1 : IsInt32 s.release32.count := wrapInt32_isInt32 _
      obtain ⟨i1, i2, i3⟩ := ih _ _ hr1 hno h
      rw [heq] at i2 i3
      refine ⟨i1, ?_, fun h0 => i3 (by simp only [Semaphore.release]; omega)⟩
      simp only [releases, acquires, List.count_cons_self, List.count_cons_of_ne, ne_eq,
        reduceCtorEq, not_false_eq_true, Nat.cast_add, Nat.cast_one, Semaphore.release] at i2 ⊢
      omega

/-! ## The semaphore statement by statement -/

theorem Monitor.inv_init (c : Int) (n : Nat) (hc : IsInt32 c) : (Monitor.init c n).Inv := by
  refine ⟨?_, ?_, hc, ?_⟩
  · intro t pc h
    simp only [Monitor.init, List.getElem?_replicate] at h
    split at h
    · cases h; simp [CallPc.holdsMtx, Monitor.init]
    · cases h
  · intro h hh; simp [Monitor.init] at hh
  · intro t h
    simp only [Monitor.init, List.getElem?_replicate] at h
    split at h <;> cases h

theorem Monitor.getElem?_lt {l : List CallPc} {t : Nat} {pc : CallPc} (h : l[t]? = some pc) :
    t < l.length := by
  by_contra hlt
  rw [List.getElem?_eq_none (by omega)] at h
  cases h

theorem Monitor.getElem?_set_self {l : List CallPc} {t : Nat} {p q : CallPc}
    (h : l[t]? = some p) : (l.set t q)[t]? = some q := by
  rw [List.getElem?_set]
  simp [Monitor.getElem?_lt h]

/-- Moving one thread keeps `mtx` with the thread whose statement holds it. -/
theorem Monitor.owner_set (mtx mtx' : Option Nat) (pcs : List CallPc) (t : Nat) (p q : CallPc)
    (h : ∀ (u : Nat) (pc : CallPc), pcs[u]? = some pc → (pc.holdsMtx = true ↔ mtx = some u))
    (hp : pcs[t]? = some p)
    (hq : q.holdsMtx = true ↔ mtx' = some t)
    (hm : mtx' = mtx ∨ (mtx = none ∧ mtx' = some t) ∨ (mtx = some t ∧ mtx' = none)) :
    ∀ (u : Nat) (pc : CallPc), (pcs.set t q)[u]? = some pc →
      (pc.holdsMtx = true ↔ mtx' = some u) := by
  intro u pc hu
  rw [List.getElem?_set] at hu
  split at hu
  · next htu =>
    subst htu
    simp only [Monitor.getElem?_lt hp, if_true, Option.some.injEq] at hu
    subst hu
    exact hq
  · next htu =>
    have := h u pc hu
    rcases hm with rfl | ⟨h1, h2⟩ | ⟨h1, h2⟩
    · exact this
    · subst h1 h2
      simp only [reduceCtorEq, iff_false, Bool.not_eq_true] at this
      simp [this, htu]
    · subst h1 h2
      simp only [Option.some.injEq] at this
      simp only [reduceCtorEq, iff_false, Bool.not_eq_true]
      by_contra hc
      exact htu (this.mp (by simpa using hc))

/-- A thread that keeps away from line 27 leaves the tested count in place. -/
theorem Monitor.tested_set (c : Int) (pcs : List CallPc) (t : Nat) (q : CallPc)
    (h : ∀ u : Nat, pcs[u]? = some CallPc.acquireDecrement → 0 < c)
    (hq : q = CallPc.acquireDecrement → 0 < c) :
    ∀ u : Nat, (pcs.set t q)[u]? = some CallPc.acquireDecrement → 0 < c := by
  intro u hu
  rw [List.getElem?_set] at hu
  split at hu
  · split at hu
    · exact hq (by simpa using hu)
    · cases hu
  · exact h u hu

/-- While one thread holds `mtx` no other thread stands at line 27. -/
theorem Monitor.tested_set_held (c : Int) (mtx : Option Nat) (pcs : List CallPc) (t : Nat)
    (q : CallPc)
    (h : ∀ (u : Nat) (pc : CallPc), pcs[u]? = some pc → (pc.holdsMtx = true ↔ mtx = some u))
    (hm : mtx = some t) (hq : q ≠ CallPc.acquireDecrement) :
    ∀ u : Nat, (pcs.set t q)[u]? = some CallPc.acquireDecrement → 0 < c := by
  intro u hu
  rw [List.getElem?_set] at hu
  split at hu
  · split at hu
    · exact absurd (by simpa using hu) hq
    · cases hu
  · next htu =>
    have := (h u _ hu).mp rfl
    rw [hm] at this
    exact absurd (by simpa using this) htu

theorem Monitor.inv_step (m m' : Monitor) (a : MonAction) (hi : m.Inv)
    (hs : m.step a = some m') : m'.Inv := by
  obtain ⟨i1, i2, i3, i4⟩ := hi
  rcases m with ⟨⟨c⟩, mtx, pcs⟩
  simp only at i1 i2 i3 i4
  cases a with
  | call t op =>
    simp only [Monitor.step] at hs
    split at hs
    · next hpc =>
      have h1 := i1 t _ hpc
      cases op <;> simp only [Option.some.injEq] at hs <;> subst hs
      · exact ⟨Monitor.owner_set _ _ _ _ _ _ i1 hpc (by simpa [CallPc.holdsMtx] using h1)
          (Or.inl rfl), by simpa using i2, i3, Monitor.tested_set _ _ _ _ i4 (by simp)⟩
      · exact ⟨Monitor.owner_set _ _ _ _ _ _ i1 hpc (by simpa [CallPc.holdsMtx] using h1)
          (Or.inl rfl), by simpa using i2, i3, Monitor.tested_set _ _ _ _ i4 (by simp)⟩
    · cases hs
  | spurious t =>
    simp only [Monitor.step] at hs
    split at hs
    · next hpc =>
      have h1 := i1 t _ hpc
      simp only [Option.some.injEq] at hs
      subst hs
      exact ⟨Monitor.owner_set _ _ _ _ _ _ i1 hpc (by simpa [CallPc.holdsMtx] using h1)
          (Or.inl rfl), by simpa using i2, i3, Monitor.tested_set _ _ _ _ i4 (by simp)⟩
    · cases hs
  | run t w =>
    simp only [Monitor.step] at hs
    split at hs
    · -- line 23
      next hpc =>
      split at hs
      · next hm =>
        subst hm
        simp only [Option.some.injEq] at hs
        subst hs
        exact ⟨Monitor.owner_set _ _ _ _ _ _ i1 hpc (by simp [CallPc.holdsMtx])
          (Or.inr (Or.inl ⟨rfl, rfl⟩)),
          (by intro h hh; simp only [Option.some.injEq] at hh; subst hh
              simpa using Monitor.getElem?_lt hpc),
          i3, Monitor.tested_set _ _ _ _ i4 (by simp)⟩
      · cases hs
    · -- line 25, the test
      next hpc =>
      have h1 := (i1 t _ hpc).mp rfl
      split at hs
      · next hpos =>
        simp only [Option.some.injEq] at hs
        subst hs
        exact ⟨Monitor.owner_set _ _ _ _ _ _ i1 hpc (by simpa [CallPc.holdsMtx] using h1)
          (Or.inl rfl), by simpa using i2, i3, Monitor.tested_set _ _ _ _ i4 (fun _ => hpos)⟩
      · simp only [Option.some.injEq] at hs
        subst hs
        exact ⟨Monitor.owner_set _ _ _ _ _ _ i1 hpc (by simp [CallPc.holdsMtx])
          (Or.inr (Or.inr ⟨h1, rfl⟩)), (by intro h hh; cases hh), i3,
          Monitor.tested_set _ _ _ _ i4 (by simp)⟩
    · -- line 25, locking again
      next hpc =>
      split at hs
      · next hm =>
        subst hm
        simp only [Option.some.injEq] at hs
        subst hs
        exact ⟨Monitor.owner_set _ _ _ _ _ _ i1 hpc (by simp [CallPc.holdsMtx])
          (Or.inr (Or.inl ⟨rfl, rfl⟩)),
          (by intro h hh; simp only [Option.some.injEq] at hh; subst hh
              simpa using Monitor.getElem?_lt hpc),
          i3, Monitor.tested_set _ _ _ _ i4 (by simp)⟩
      · cases hs
    · -- line 27
      next hpc =>
      have h1 := (i1 t _ hpc).mp rfl
      simp only [Option.some.injEq] at hs
      subst hs
      exact ⟨Monitor.owner_set _ _ _ _ _ _ i1 hpc (by simpa [CallPc.holdsMtx] using h1)
        (Or.inl rfl), by simpa using i2, wrapInt32_isInt32 _,
        Monitor.tested_set_held _ _ _ _ _ i1 h1 (by simp)⟩
    · -- line 28
      next hpc =>
      have h1 := (i1 t _ hpc).mp rfl
      simp only [Option.some.injEq] at hs
      subst hs
      exact ⟨Monitor.owner_set _ _ _ _ _ _ i1 hpc (by simp [CallPc.holdsMtx])
        (Or.inr (Or.inr ⟨h1, rfl⟩)), (by intro h hh; cases hh), i3,
        Monitor.tested_set _ _ _ _ i4 (by simp)⟩
    · -- line 35
      next hpc =>
      split at hs
      · next hm =>
        subst hm
        simp only [Option.some.injEq] at hs
        subst hs
        exact ⟨Monitor.owner_set _ _ _ _ _ _ i1 hpc (by simp [CallPc.holdsMtx])
          (Or.inr (Or.inl ⟨rfl, rfl⟩)),
          (by intro h hh; simp only [Option.some.injEq] at hh; subst hh
              simpa using Monitor.getElem?_lt hpc),
          i3, Monitor.tested_set _ _ _ _ i4 (by simp)⟩
      · cases hs
    · -- line 37
      next hpc =>
      have h1 := (i1 t _ hpc).mp rfl
      simp only [Option.some.injEq] at hs
      subst hs
      exact ⟨Monitor.owner_set _ _ _ _ _ _ i1 hpc (by simpa [CallPc.holdsMtx] using h1)
        (Or.inl rfl), by simpa using i2, wrapInt32_isInt32 _,
        Monitor.tested_set_held _ _ _ _ _ i1 h1 (by simp)⟩
    · -- line 39
      next hpc =>
      have h1 := (i1 t _ hpc).mp rfl
      split at hs
      · next hw =>
        simp only [Option.some.injEq] at hs
        subst hs
        have hwt : w ≠ t := by
          rintro rfl
          rw [hpc] at hw
          cases hw
        have hpc' : (pcs.set w CallPc.acquireRelock)[t]? = some CallPc.releaseNotify := by
          rw [List.getElem?_set, if_neg hwt]
          exact hpc
        have o1 := Monitor.owner_set mtx mtx pcs w _ CallPc.acquireRelock i1 hw
          (by simpa [CallPc.holdsMtx] using i1 w _ hw) (Or.inl rfl)
        exact ⟨Monitor.owner_set _ _ _ _ _ _ o1 hpc'
          (by simpa [CallPc.holdsMtx] using h1) (Or.inl rfl), by simpa using i2, i3,
          Monitor.tested_set _ _ _ _ (Monitor.tested_set _ _ _ _ i4 (by simp)) (by simp)⟩
      · split at hs
        · cases hs
        · simp only [Option.some.injEq] at hs
          subst hs
          exact ⟨Monitor.owner_set _ _ _ _ _ _ i1 hpc (by simpa [CallPc.holdsMtx] using h1)
            (Or.inl rfl), by simpa using i2, i3, Monitor.tested_set _ _ _ _ i4 (by simp)⟩
    · -- line 40
      next hpc =>
      have h1 := (i1 t _ hpc).mp rfl
      simp only [Option.some.injEq] at hs
      subst hs
      exact ⟨Monitor.owner_set _ _ _ _ _ _ i1 hpc (by simp [CallPc.holdsMtx])
        (Or.inr (Or.inr ⟨h1, rfl⟩)), (by intro h hh; cases hh), i3,
        Monitor.tested_set _ _ _ _ i4 (by simp)⟩
    · cases hs

theorem Monitor.inv_of_reachable (c : Int) (n : Nat) (hc : IsInt32 c) (m : Monitor)
    (h : Monitor.Reachable c n m) : m.Inv := by
  induction h with
  | init => exact Monitor.inv_init c n hc
  | step a _ hs ih => exact Monitor.inv_step _ _ a ih hs

theorem Monitor.getElem?_set_ne {l : List CallPc} {t u : Nat} {q : CallPc} (h : t ≠ u) :
    (l.set t q)[u]? = l[u]? := by
  rw [List.getElem?_set, if_neg h]

/-- Line 39 with the blocked thread of lowest index can always be executed. -/
theorem Monitor.step_notify (m : Monitor) (t : Nat)
    (hpc : m.pcs[t]? = some CallPc.releaseNotify) :
    ∃ m', m.step (MonAction.run t (m.pcs.indexOf CallPc.acquireWaiting)) = some m' ∧
      m'.mtx = m.mtx ∧ m'.sem = m.sem ∧ m'.pcs[t]? = some CallPc.releaseUnlock ∧
      ∀ (u : Nat) (pc : CallPc), u ≠ t → pc ≠ CallPc.acquireWaiting → m.pcs[u]? = some pc →
        m'.pcs[u]? = some pc := by
  simp only [Monitor.step, hpc]
  by_cases hw : CallPc.acquireWaiting ∈ m.pcs
  · have hw' := List.getElem?_indexOf hw
    rw [if_pos hw']
    have hwt : m.pcs.indexOf CallPc.acquireWaiting ≠ t := by
      intro h
      rw [h, hpc] at hw'
      cases hw'
    refine ⟨_, rfl, rfl, rfl, ?_, ?_⟩
    · exact Monitor.getElem?_set_self (p := CallPc.releaseNotify)
        (by rw [Monitor.getElem?_set_ne hwt]; exact hpc)
    · intro u pc hut hpcw hu
      simp only
      rw [Monitor.getElem?_set_ne (Ne.symm hut), List.getElem?_set]
      split
      · next h => rw [h, hu] at hw'; exact absurd (by simpa using hw') hpcw
      · exact hu
  · have hn : ¬ m.pcs[m.pcs.indexOf CallPc.acquireWaiting]? = some CallPc.acquireWaiting := by
      intro h
      exact hw (List.getElem?_mem h)
    rw [if_neg hn, if_neg hw]
    refine ⟨_, rfl, rfl, rfl, Monitor.getElem?_set_self hpc, ?_⟩
    intro u pc hut _ hu
    simp only
    rw [Monitor.getElem?_set_ne (Ne.symm hut)]
    exact hu

theorem Monitor.releaseDistance_le (m : Monitor) (t : Nat) : m.releaseDistance t ≤ 7 := by
  unfold Monitor.releaseDistance
  split
  · split
    · split
      · next pc _ => cases pc <;> simp only [Monitor.holderSteps] <;> (try split) <;> omega
      · omega
    · omega
  all_goals omega

theorem Monitor.releaseDistance_pos (m : Monitor) (t : Nat) (pc : CallPc)
    (h : m.pcs[t]? = some pc) (hr : pc.inRelease = true) : 0 < m.releaseDistance t := by
  unfold Monitor.releaseDistance
  cases pc <;> simp only [CallPc.inRelease, reduceCtorEq] at hr <;> rw [h] <;> simp only <;> omega

/-- A thread inside `release()` is never held up for good: its own next
statement, or the next statement of the thread that holds `mtx`, can be
executed and brings the return of `release()` one statement nearer. -/
theorem Monitor.release_progress (m : Monitor) (t : Nat) (hi : m.Inv)
    (hpos : 0 < m.releaseDistance t) :
    ∃ (u w : Nat) (m' : Monitor), m.releaseNext t = MonAction.run u w ∧
      (u = t ∨ m.mtx = some u) ∧ m.step (MonAction.run u w) = some m' ∧
      m'.releaseDistance t + 1 = m.releaseDistance t ∧
      (m'.releaseDistance t = 0 → m'.pcs[t]? = some CallPc.idle) ∧
      (m'.mtx = m.mtx ∨ m'.mtx = none ∨ m'.mtx = some t) := by
  obtain ⟨i1, i2, i3, i4⟩ := hi
  rcases m with ⟨⟨c⟩, mtx, pcs⟩
  simp only at i1 i2 i3 i4
  unfold Monitor.releaseDistance at hpos
  simp only at hpos
  split at hpos
  · -- line 35
    next hpc =>
    cases mtx with
    | none =>
      refine ⟨t, pcs.indexOf CallPc.acquireWaiting,
        ⟨⟨c⟩, some t, pcs.set t CallPc.releaseIncrement⟩,
        by simp only [Monitor.releaseNext, hpc], Or.inl rfl,
        by simp only [Monitor.step, hpc, if_true], ?_, ?_, Or.inr (Or.inr rfl)⟩
      · simp only [Monitor.releaseDistance, hpc, Monitor.getElem?_set_self hpc]
      · simp only [Monitor.releaseDistance, Monitor.getElem?_set_self hpc]
        intro h; cases h
    | some h =>
      have hlt := i2 h rfl
      obtain ⟨pc, hh⟩ : ∃ pc, pcs[h]? = some pc := ⟨pcs[h], List.getElem?_eq_getElem hlt⟩
      have hold := (i1 h pc hh).mpr rfl
      have hht : h ≠ t := by
        rintro rfl
        rw [hpc] at hh
        cases hh
        cases hold
      have hnext : Monitor.releaseNext ⟨⟨c⟩, some h, pcs⟩ t
          = MonAction.run h (pcs.indexOf CallPc.acquireWaiting) := by
        simp only [Monitor.releaseNext, hpc]
      have hkeep : ∀ q : CallPc, (pcs.set h q)[t]? = some CallPc.releaseLock := by
        intro q
        rw [Monitor.getElem?_set_ne hht]
        exact hpc
      cases pc <;> simp only [CallPc.holdsMtx, reduceCtorEq] at hold
      · -- the holder at the test of line 25
        by_cases hc : 0 < c
        · refine ⟨h, _, ⟨⟨c⟩, some h, pcs.set h CallPc.acquireDecrement⟩, hnext, Or.inr rfl,
            by simp only [Monitor.step, hh, if_pos hc], ?_, ?_, Or.inl rfl⟩
          · simp only [Monitor.releaseDistance, hpc, hkeep, hh, Monitor.getElem?_set_self hh,
              Monitor.holderSteps, if_pos hc]
          · simp only [Monitor.releaseDistance, hkeep]
            intro h0; omega
        · refine ⟨h, _, ⟨⟨c⟩, none, pcs.set h CallPc.acquireWaiting⟩, hnext, Or.inr rfl,
            by simp only [Monitor.step, hh, if_neg hc], ?_, ?_, Or.inr (Or.inl rfl)⟩
          · simp only [Monitor.releaseDistance, hpc, hkeep, hh, Monitor.holderSteps, if_neg hc]
          · simp only [Monitor.releaseDistance, hkeep]
            intro h0; omega
      · -- line 27
        refine ⟨h, _, ⟨⟨wrapInt32 (c - 1)⟩, some h, pcs.set h CallPc.acquireUnlock⟩, hnext,
          Or.inr rfl, by simp only [Monitor.step, hh], ?_, ?_, Or.inl rfl⟩
        · simp only [Monitor.releaseDistance, hpc, hkeep, hh, Monitor.getElem?_set_self hh,
            Monitor.holderSteps]
        · simp only [Monitor.releaseDistance, hkeep]
          intro h0; omega
      · -- line 28
        refine ⟨h, _, ⟨⟨c⟩, none, pcs.set h CallPc.idle⟩, hnext,
          Or.inr rfl, by simp only [Monitor.step, hh], ?_, ?_, Or.inr (Or.inl rfl)⟩
        · simp only [Monitor.releaseDistance, hpc, hkeep, hh, Monitor.holderSteps]
        · simp only [Monitor.releaseDistance, hkeep]
          intro h0; omega
      · -- line 37
        refine ⟨h, _, ⟨Semaphore.release32 ⟨c⟩, some h, pcs.set h CallPc.releaseNotify⟩, hnext,
          Or.inr rfl, by simp only [Monitor.step, hh], ?_, ?_, Or.inl rfl⟩
        · simp only [Monitor.releaseDistance, hpc, hkeep, hh, Monitor.getElem?_set_self hh,
            Monitor.holderSteps]
        · simp only [Monitor.releaseDistance, hkeep]
          intro h0; omega
      · -- line 39
        obtain ⟨m', hs, hm, -, hpc', hothers⟩ := Monitor.step_notify ⟨⟨c⟩, some h, pcs⟩ h hh
        have ht' := hothers t _ (Ne.symm hht) (by simp) hpc
        simp only at hm
        refine ⟨h, _, m', hnext, Or.inr rfl, hs, ?_, ?_, Or.inl hm⟩
        · simp only [Monitor.releaseDistance, hpc, ht', hm, hpc', hh, Monitor.holderSteps]
        · simp only [Monitor.releaseDistance, ht', hm, hpc']
          intro h0; omega
      · -- line 40
        refine ⟨h, _, ⟨⟨c⟩, none, pcs.set h CallPc.idle⟩, hnext,
          Or.inr rfl, by simp only [Monitor.step, hh], ?_, ?_, Or.inr (Or.inl rfl)⟩
        · simp only [Monitor.releaseDistance, hpc, hkeep, hh, Monitor.holderSteps]
        · simp only [Monitor.releaseDistance, hkeep]
          intro h0; omega
  · -- line 37
    next hpc =>
    have hm := (i1 t _ hpc).mp rfl
    refine ⟨t, pcs.indexOf CallPc.acquireWaiting,
      ⟨Semaphore.release32 ⟨c⟩, mtx, pcs.set t CallPc.releaseNotify⟩,
      by simp only [Monitor.releaseNext, hpc], Or.inl rfl,
      by simp only [Monitor.step, hpc], ?_, ?_, Or.inl rfl⟩
    · simp only [Monitor.releaseDistance, hpc, Monitor.getElem?_set_self hpc]
    · simp only [Monitor.releaseDistance, Monitor.getElem?_set_self hpc]
      intro h; cases h
  · -- line 39
    next hpc =>
    obtain ⟨m', hs, hm, -, hpc', -⟩ := Monitor.step_notify ⟨⟨c⟩, mtx, pcs⟩ t hpc
    refine ⟨t, pcs.indexOf CallPc.acquireWaiting, m',
      by simp only [Monitor.releaseNext, hpc], Or.inl rfl, hs, ?_, ?_, Or.inl hm⟩
    · simp only [Monitor.releaseDistance, hpc, hpc']
    · simp only [Monitor.releaseDistance, hpc']
      intro h; cases h
  · -- line 40
    next hpc =>
    refine ⟨t, pcs.indexOf CallPc.acquireWaiting, ⟨⟨c⟩, none, pcs.set t CallPc.idle⟩,
      by simp only [Monitor.releaseNext, hpc], Or.inl rfl,
      by simp only [Monitor.step, hpc], ?_, ?_, Or.inr (Or.inl rfl)⟩
    · simp only [Monitor.releaseDistance, hpc, Monitor.getElem?_set_self hpc]
    · intro _
      exact Monitor.getElem?_set_self hpc
  · omega

/-- Every action leaves `count` alone, except line 27 which takes a permit as
`Semaphore.acquire` does and line 37 which adds one as `Semaphore.release32`. -/
theorem Monitor.step_effect (m m' : Monitor) (a : MonAction) (hi : m.Inv)
    (hs : m.step a = some m') :
    (m.effect a = none → m'.sem = m.sem) ∧
    (m.effect a = some SemOp.acquire → m.sem.acquire = some m'.sem) ∧
    (m.effect a = some SemOp.release → m'.sem = m.sem.release32) := by
  cases a with
  | call t op =>
    simp only [Monitor.step] at hs
    split at hs
    · cases op <;> simp only [Option.some.injEq] at hs <;> subst hs <;>
        simp [Monitor.effect]
    · cases hs
  | spurious t =>
    simp only [Monitor.step] at hs
    split at hs
    · simp only [Option.some.injEq] at hs
      subst hs
      simp [Monitor.effect]
    · cases hs
  | run t w =>
    simp only [Monitor.step] at hs
    split at hs
    case h_4 hpc =>
      have hpos := hi.tested t hpc
      have hr := hi.range
      simp only [Option.some.injEq] at hs
      subst hs
      simp only [Monitor.effect, hpc, reduceCtorEq, false_implies, true_implies, true_and,
        and_true, Option.some.injEq]
      rw [Semaphore.acquire_eq_some, wrapInt32_eq]
      · exact ⟨hpos, rfl⟩
      · exact ⟨by have := hr.1; simp only [INT_MIN] at *; omega, by have := hr.2; omega⟩
    all_goals
      first
        | (next hpc =>
            (try split at hs) <;> (try split at hs) <;>
            first
              | (simp only [Option.some.injEq] at hs
                 subst hs
                 simp only [Monitor.effect, hpc]
                 simp)
              | cases hs)

/-- At the test of line 25 the thread goes on to `count--` exactly when
`count > 0` and blocks otherwise; a blocked thread has no statement to
execute. -/
theorem Monitor.acquire_test (m : Monitor) (t w : Nat) :
    (m.pcs[t]? = some CallPc.acquireTest →
      ∃ m', m.step (MonAction.run t w) = some m' ∧
        (m'.pcs[t]? = some CallPc.acquireDecrement ↔ 0 < m.sem.count) ∧
        (m'.pcs[t]? = some CallPc.acquireWaiting ↔ ¬ 0 < m.sem.count)) ∧
    (m.pcs[t]? = some CallPc.acquireWaiting → m.step (MonAction.run t w) = none) := by
  constructor
  · intro hpc
    by_cases hc : 0 < m.sem.count
    · refine ⟨_, by simp only [Monitor.step, hpc, if_pos hc]; rfl, ?_, ?_⟩
      · simp [Monitor.getElem?_set_self hpc, hc]
      · simp [Monitor.getElem?_set_self hpc, hc]
    · refine ⟨_, by simp only [Monitor.step, hpc, if_neg hc]; rfl, ?_, ?_⟩
      · simp [Monitor.getElem?_set_self hpc, hc]
      · simp [Monitor.getElem?_set_self hpc, hc]
  · intro hpc
    simp only [Monitor.step, hpc]

theorem Monitor.release_completes (t : Nat) :
    ∀ (d : Nat) (m : Monitor), m.Inv → m.releaseDistance t = d + 1 →
      ∃ (acts : List MonAction) (m' : Monitor), acts.length = d + 1 ∧
        (∀ a ∈ acts, ∃ u w : Nat, a = MonAction.run u w ∧ (u = t ∨ m.mtx = some u)) ∧
        m.runActions acts = some m' ∧ m'.pcs[t]? = some CallPc.idle := by
  intro d
  induction d with
  | zero =>
    intro m hi hd
    obtain ⟨u, w, m1, -, hu, hs, hdist, hidle, -⟩ := Monitor.release_progress m t hi (by omega)
    refine ⟨[MonAction.run u w], m1, rfl, ?_, by simp only [Monitor.runActions, hs],
      hidle (by omega)⟩
    intro a ha
    simp only [List.mem_singleton] at ha
    exact ⟨u, w, ha, hu⟩
  | succ d ih =>
    intro m hi hd
    obtain ⟨u, w, m1, -, hu, hs, hdist, -, hmtx⟩ := Monitor.release_progress m t hi (by omega)
    obtain ⟨acts, m', hlen, hruns, hrun, hidle⟩ :=
      ih m1 (Monitor.inv_step m m1 _ hi hs) (by omega)
    refine ⟨MonAction.run u w :: acts, m', by simp only [List.length_cons, hlen], ?_,
      by simp only [Monitor.runActions, hs, hrun], hidle⟩
    intro a ha
    simp only [List.mem_cons] at ha
    rcases ha with rfl | ha
    · exact ⟨u, w, rfl, hu⟩
    · obtain ⟨u', w', rfl, hu'⟩ := hruns a ha
      refine ⟨u', w', rfl, ?_⟩
      rcases hu' with h | h
      · exact Or.inl h
      · rcases hmtx with h1 | h1 | h1
        · exact Or.inr (h1 ▸ h)
        · rw [h1] at h; cases h
        · rw [h1] at h; exact Or.inl (Option.some.inj h).symm

/-- One thread alone: `release()` and then `acquire()`, each run to its return,
give back the semaphore as it was when the count is in `[0, INT_MAX)`. -/
theorem Monitor.releaseThenAcquire_restores (c : Int) (h0 : 0 ≤ c) (hmax : c < INT_MAX) :
    (Monitor.init c 1).runActions releaseThenAcquire = some (Monitor.init c 1) := by
  have h1 : 0 < wrapInt32 (c + 1) := by
    rw [wrapInt32_eq _ ⟨by simp only [INT_MIN]; omega, by omega⟩]
    omega
  have h2 : wrapInt32 (wrapInt32 (c + 1) - 1) = c := by
    rw [wrapInt32_eq (c + 1) ⟨by simp only [INT_MIN]; omega, by omega⟩]
    rw [wrapInt32_eq _ ⟨by simp only [INT_MIN]; omega, by omega⟩]
    omega
  simp [Monitor.init, releaseThenAcquire, Monitor.runActions, Monitor.step, Semaphore.mk',
    Semaphore.release32, h1, h2]

theorem Monitor.reachable_of_runActions (c : Int) (n : Nat) (acts : List MonAction) :
    ∀ m m' : Monitor, Monitor.Reachable c n m → m.runActions acts = some m' →
      Monitor.Reachable c n m' := by
  induction acts with
  | nil =>
    intro m m' hm h
    simp only [Monitor.runActions, Option.some.injEq] at h
    exact h ▸ hm
  | cons a acts ih =>
    intro m m' hm h
    simp only [Monitor.runActions] at h
    split at h
    · next m1 h1 => exact ih m1 m' (Monitor.Reachable.step a hm h1) h
    · cases h

theorem blockedWaiterState_reachable : Monitor.Reachable 0 2 blockedWaiterState :=
  Monitor.reachable_of_runActions 0 2
    [MonAction.call 1 SemOp.acquire, MonAction.run 1 0, MonAction.run 1 0,
     MonAction.call 0 SemOp.release] _ _ Monitor.Reachable.init (by decide)

/-! ## Queue bound and alternation -/

theorem events_length (es : List Event) :
    es.length = (pushed es).length + (popped es).length := by
  induction es with
  | nil => rfl
  | cons e es ih =>
    cases e <;> simp only [pushed, popped, List.filterMap_cons, List.length_cons] at ih ⊢ <;> omega

theorem strictlyAlternates_concat (es : List Event) (e : Event) (h : strictlyAlternates es)
    (he : e.isPush = decide (es.length % 2 = 0)) : strictlyAlternates (es ++ [e]) := by
  intro i hi
  simp only [List.length_append, List.length_singleton] at hi
  by_cases hlt : i < es.length
  · simpa only [List.get_eq_getElem, List.getElem_append_left hlt] using h i hlt
  · have hi' : i = es.length := by omega
    subst hi'
    simpa only [List.get_eq_getElem, List.getElem_concat_length] using he

/-- A step leaves the history alone, or appends a push made at one of the two
push statements, or appends a pop from a non-empty queue. -/
theorem step_events (cfg : Config) (t : Task) (s s' : State)
    (hs : step cfg t s = StepResult.next s') :
    s'.events = s.events ∨
    (∃ v, s'.events = s.events ++ [Event.push v] ∧
      (s.producerPc = ProducerPc.push ∨ s.producerPc = ProducerPc.pillPush)) ∨
    (∃ v, s'.events = s.events ++ [Event.pop v] ∧ s.buffer ≠ []) := by
  rcases s with ⟨buf, m, e, f, c, ppc, item, cpc, ci, ev⟩
  cases t
  · cases ppc <;> simp only [step, stepProducer] at hs <;> (try split at hs) <;>
      simp only [StepResult.next.injEq, reduceCtorEq] at hs <;> subst hs <;> simp
  · cases cpc <;> simp only [step, stepConsumer] at hs <;> (try split at hs) <;>
      simp only [StepResult.next.injEq, reduceCtorEq] at hs <;> subst hs <;> simp

theorem ProducerPc.pushedUnsignalled_le (pc : ProducerPc) :
    pc.pushedUnsignalled.toNat ≤ pc.holdsSlot.toNat := by
  cases pc <;> decide

theorem ConsumerPc.claimedUnpopped_le (pc : ConsumerPc) :
    pc.claimedUnpopped.toNat ≤ pc.holdsSlot.toNat := by
  cases pc <;> decide

/-- The queue never exceeds a non-negative capacity, and is below it whenever
the producer stands at one of its two push statements. -/
theorem countInv_length_le (cfg : Config) (s : State) (hC : 0 ≤ cfg.BUFFER_SIZE)
    (h : CountInv cfg s) :
    (s.buffer.length : Int) ≤ cfg.BUFFER_SIZE ∧
    (s.producerPc = ProducerPc.push ∨ s.producerPc = ProducerPc.pillPush →
      (s.buffer.length : Int) < cfg.BUFFER_SIZE) := by
  obtain ⟨-, -, h3, h4, h5, h6, -⟩ := h
  have hp := ProducerPc.pushedUnsignalled_le s.producerPc
  have hc := ConsumerPc.claimedUnpopped_le s.consumerPc
  refine ⟨by omega, ?_⟩
  rintro (hpc | hpc) <;> rw [hpc] at h3 h6 <;>
    simp only [ProducerPc.holdsSlot, ProducerPc.pushedUnsignalled, Bool.toNat_true,
      Bool.toNat_false, Nat.cast_one, Nat.cast_zero] at h3 h6 <;> omega

theorem strictlyAlternates_of_reachable (cfg : Config) (s : State)
    (hC : cfg.BUFFER_SIZE = 1) (h : Reachable cfg s) : strictlyAlternates s.events := by
  induction h with
  | init => intro i hi; simp [initState] at hi
  | @step s s' t hr hs ih =>
    have hlen := countInv_length_le cfg s (by omega) (countInv_of_reachable cfg s hr)
    have hfifo := congrArg List.length (dataInv_of_reachable cfg s hr).fifo
    have hev := events_length s.events
    rw [List.length_append] at hfifo
    rcases step_events cfg t s s' hs with he | ⟨v, he, hpc⟩ | ⟨v, he, hb⟩
    · rw [he]; exact ih
    · rw [he]
      refine strictlyAlternates_concat _ _ ih ?_
      have := hlen.2 hpc
      simp only [Event.isPush, true_eq_decide_iff]
      omega
    · rw [he]
      refine strictlyAlternates_concat _ _ ih ?_
      have : s.buffer.length ≠ 0 := fun h0 => hb (List.length_eq_zero.mp h0)
      have := hlen.1
      simp only [Event.isPush, false_eq_decide_iff]
      omega

/-! ## Termination -/

theorem stepsLeft_stepProducer (cfg : Config) (s s' : State) (h : DataInv cfg s)
    (hs : stepProducer cfg s = StepResult.next s') : stepsLeft cfg s' + 1 = stepsLeft cfg s := by
  obtain ⟨-, -, h3, -⟩ := h
  rcases s with ⟨buf, ⟨m⟩, ⟨e⟩, ⟨f⟩, ⟨c⟩, ppc, item, cpc, ci, ev⟩
  dsimp only at h3
  cases ppc <;> simp only [stepProducer] at hs <;> (try split at hs) <;>
    simp only [StepResult.next.injEq, reduceCtorEq] at hs <;> subst hs <;>
    simp only [stepsLeft, producerLeft, producerOk, popped_append, List.append_nil] at h3 ⊢ <;>
    omega

theorem stepsLeft_stepConsumer (cfg : Config) (s s' : State) (h : DataInv cfg s)
    (hs : stepConsumer cfg s = StepResult.next s') : stepsLeft cfg s' + 1 = stepsLeft cfg s := by
  have hpre := (popped_isPrefix_stream cfg s h).length_le
  rw [stream_length] at hpre
  obtain ⟨-, -, -, h4⟩ := h
  rcases s with ⟨buf, ⟨m⟩, ⟨e⟩, ⟨f⟩, ⟨c⟩, ppc, item, cpc, ci, ev⟩
  dsimp only at h4 hpre
  cases cpc <;> simp only [stepConsumer] at hs <;> (try split at hs) <;>
    simp only [StepResult.next.injEq, reduceCtorEq] at hs <;> subst hs <;>
    simp only [stepsLeft, consumerLeft, consumerOk, popped_append, List.length_append,
      List.length_singleton, Nat.cast_add, Nat.cast_one] at h4 ⊢ <;>
    (try (rw [h4, stream_length])) <;> (try push_cast) <;>
    omega

theorem stepsLeft_step (cfg : Config) (t : Task) (s s' : State) (h : Reachable cfg s)
    (hs : step cfg t s = StepResult.next s') : stepsLeft cfg s' + 1 = stepsLeft cfg s := by
  cases t
  · exact stepsLeft_stepProducer cfg s s' (dataInv_of_reachable cfg s h) hs
  · exact stepsLeft_stepConsumer cfg s s' (dataInv_of_reachable cfg s h) hs

theorem stepsLeft_nonneg (cfg : Config) (s : State) (h : Reachable cfg s) :
    0 ≤ stepsLeft cfg s := by
  have hd := dataInv_of_reachable cfg s h
  have hpre := (popped_isPrefix_stream cfg s hd).length_le
  rw [stream_length] at hpre
  obtain ⟨-, -, h3, h4⟩ := hd
  rcases s with ⟨buf, ⟨m⟩, ⟨e⟩, ⟨f⟩, ⟨c⟩, ppc, item, cpc, ci, ev⟩
  dsimp only at h3 h4 hpre
  have hP : 0 ≤ producerLeft cfg.ITEMS_TO_PRODUCE.toNat ppc item := by
    cases ppc <;> simp only [producerLeft, producerOk] at h3 ⊢ <;> omega
  have hQ : 0 ≤ consumerLeft cfg.ITEMS_TO_PRODUCE.toNat cpc (popped ev).length := by
    cases cpc <;> simp only [consumerLeft, consumerOk] at h4 ⊢ <;> omega
  exact add_nonneg hP hQ

/-- Along any schedule that runs, the steps taken and the steps left add up. -/
theorem runSchedule_stepsLeft (cfg : Config) (ts : List Task) :
    ∀ s sf : State, Reachable cfg s → runSchedule cfg s ts = some sf →
      (ts.length : Int) + stepsLeft cfg sf = stepsLeft cfg s := by
  induction ts with
  | nil =>
    intro s sf _ h
    simp only [runSchedule, Option.some.injEq] at h
    simp [h]
  | cons t ts ih =>
    intro s sf hr h
    simp only [runSchedule] at h
    split at h
    · next s1 h1 =>
      have h2 := ih s1 sf (Reachable.step t hr h1) h
      have h3 := stepsLeft_step cfg t s s1 hr h1
      simp only [List.length_cons, Nat.cast_add, Nat.cast_one]
      omega
    · cases h

/-- Every schedule that runs from a reachable state is at most `stepsLeft` long. -/
theorem runSchedule_length_le (cfg : Config) (ts : List Task) (s sf : State)
    (hr : Reachable cfg s) (h : runSchedule cfg s ts = some sf) :
    (ts.length : Int) ≤ stepsLeft cfg s := by
  have h1 := runSchedule_stepsLeft cfg ts s sf hr h
  have h2 := stepsLeft_nonneg cfg sf (reachable_of_runSchedule cfg ts s sf hr h)
  omega

/-- With capacity at least 1, every reachable state can be run to the end. -/
theorem can_finish (cfg : Config) (hC : 1 ≤ cfg.BUFFER_SIZE) (k : Nat) :
    ∀ s : State, Reachable cfg s → stepsLeft cfg s ≤ k →
      ∃ ts sf, runSchedule cfg s ts = some sf ∧
        sf.producerPc = ProducerPc.returned ∧ sf.consumerPc = ConsumerPc.returned := by
  induction k with
  | zero =>
    intro s hr hk
    by_cases hfin : s.producerPc = ProducerPc.returned ∧ s.consumerPc = ConsumerPc.returned
    · exact ⟨[], s, rfl, hfin.1, hfin.2⟩
    · exfalso
      have hex : ∃ t s', step cfg t s = StepResult.next s' := by
        by_contra hne
        push_neg at hne
        exact hfin (stuck_is_finished cfg s hC hr hne)
      obtain ⟨t, s1, h1⟩ := hex
      have h3 := stepsLeft_step cfg t s s1 hr h1
      have h4 := stepsLeft_nonneg cfg s1 (Reachable.step t hr h1)
      simp only [Nat.cast_zero] at hk
      omega
  | succ k ih =>
    intro s hr hk
    by_cases hfin : s.producerPc = ProducerPc.returned ∧ s.consumerPc = ConsumerPc.returned
    · exact ⟨[], s, rfl, hfin.1, hfin.2⟩
    · have hex : ∃ t s', step cfg t s = StepResult.next s' := by
        by_contra hne
        push_neg at hne
        exact hfin (stuck_is_finished cfg s hC hr hne)
      obtain ⟨t, s1, h1⟩ := hex
      have h3 := stepsLeft_step cfg t s s1 hr h1
      obtain ⟨ts, sf, hrun, hp, hc⟩ := ih s1 (Reachable.step t hr h1) (by push_cast at hk; omega)
      refine ⟨t :: ts, sf, ?_, hp, hc⟩
      simp only [runSchedule, h1, hrun]

/-! ## The claims -/

/-- C1. In every reachable state the items dequeued so far are a prefix of
`[1, ..., N, POISON_PILL]`, and once `consume()` has left its loop the
non-sentinel items it dequeued are exactly `[1, ..., N]`, in order. -/
theorem consumed_is_produced_in_order (cfg : Config) (s : State)
    (_hC : 1 ≤ cfg.BUFFER_SIZE) (_hN : 0 ≤ cfg.ITEMS_TO_PRODUCE) (h : Reachable cfg s) :
    s.dequeued <+: stream cfg.ITEMS_TO_PRODUCE ∧
    (s.consumerPc = ConsumerPc.returned →
      s.dequeued.filter (fun v => decide (v ≠ POISON_PILL)) = payload cfg.ITEMS_TO_PRODUCE) := by
  have hd := dataInv_of_reachable cfg s h
  refine ⟨popped_isPrefix_stream cfg s hd, fun hpc => ?_⟩
  have hc := hd.consumer_ok
  rw [hpc] at hc
  simp only [consumerOk] at hc
  rw [State.dequeued, hc, filter_stream]

/-- C1 at the end of a complete run of the program as written. -/
theorem consumed_is_produced_in_order_witness :
    sourceFinalState.dequeued <+: stream 20 ∧
    (sourceFinalState.consumerPc = ConsumerPc.returned →
      sourceFinalState.dequeued.filter (fun v => decide (v ≠ POISON_PILL)) = payload 20) :=
  consumed_is_produced_in_order sourceConfig sourceFinalState (by decide) (by decide)
    sourceFinalState_reachable

/-- C2. For a capacity `C ≥ 0` and an item count `N ≥ 0`, in every reachable
state the length of `buffer` is between 0 and `C`, and whenever the producer
stands at one of its two `buffer.push` statements the queue holds fewer than
`C` items. -/
theorem buffer_length_le_capacity (cfg : Config) (s : State)
    (hC : 0 ≤ cfg.BUFFER_SIZE) (_hN : 0 ≤ cfg.ITEMS_TO_PRODUCE) (h : Reachable cfg s) :
    (0 : Int) ≤ s.buffer.length ∧ (s.buffer.length : Int) ≤ cfg.BUFFER_SIZE ∧
    (s.producerPc = ProducerPc.push ∨ s.producerPc = ProducerPc.pillPush →
      (s.buffer.length : Int) < cfg.BUFFER_SIZE) := by
  have hlen := countInv_length_le cfg s hC (countInv_of_reachable cfg s h)
  exact ⟨Int.natCast_nonneg _, hlen.1, hlen.2⟩

/-- C2 at the state of the program as written in which the queue is full. -/
theorem buffer_length_le_capacity_witness :
    (0 : Int) ≤ sourceFullState.buffer.length ∧ (sourceFullState.buffer.length : Int) ≤ 5 ∧
    (sourceFullState.producerPc = ProducerPc.push ∨
        sourceFullState.producerPc = ProducerPc.pillPush →
      (sourceFullState.buffer.length : Int) < 5) :=
  buffer_length_le_capacity sourceConfig sourceFullState (by decide) (by decide)
    sourceFullState_reachable

/-- C3. In every reachable state at most one thread is between its
`buffer_mutex.acquire()` and the matching release, and the count of
`buffer_mutex` is one minus the number of threads inside, hence 0 or 1. -/
theorem mutual_exclusion (cfg : Config) (s : State) (h : Reachable cfg s) :
    s.insideCount ≤ 1 ∧
    ¬ (s.producerPc.inCritical = true ∧ s.consumerPc.inCritical = true) ∧
    s.buffer_mutex.count = 1 - (s.insideCount : Int) ∧
    (s.buffer_mutex.count = 0 ∨ s.buffer_mutex.count = 1) := by
  obtain ⟨h1, h2, -⟩ := countInv_of_reachable cfg s h
  have hp := Bool.toNat_le s.producerPc.inCritical
  have hc := Bool.toNat_le s.consumerPc.inCritical
  refine ⟨?_, ?_, ?_, ?_⟩
  · unfold State.insideCount; omega
  · rintro ⟨hp1, hc1⟩
    rw [hp1, hc1] at h1
    simp only [Bool.toNat_true, Nat.cast_one] at h1
    omega
  · unfold State.insideCount; push_cast; exact h1
  · omega

/-- C3 at a state in which the producer is inside the section. -/
theorem mutual_exclusion_witness :
    sourceInsideState.insideCount ≤ 1 ∧
    ¬ (sourceInsideState.producerPc.inCritical = true ∧
        sourceInsideState.consumerPc.inCritical = true) ∧
    sourceInsideState.buffer_mutex.count = 1 - (sourceInsideState.insideCount : Int) ∧
    (sourceInsideState.buffer_mutex.count = 0 ∨ sourceInsideState.buffer_mutex.count = 1) :=
  mutual_exclusion sourceConfig sourceInsideState sourceInsideState_reachable

/-- C4. With capacity at least 1 the protocol never deadlocks: a reachable state
in which `produce()` or `consume()` has not returned has a thread that can run
its next statement, and the reachable states in which no thread can run are
exactly those where both have returned.  Moreover every schedule that runs from
the state is finite (at most `stepsLeft` long) and some schedule runs it to the
state where both have returned. -/
theorem no_deadlock (cfg : Config) (s : State)
    (hC : 1 ≤ cfg.BUFFER_SIZE) (_hN : 0 ≤ cfg.ITEMS_TO_PRODUCE) (h : Reachable cfg s) :
    (¬ (s.producerPc = ProducerPc.returned ∧ s.consumerPc = ConsumerPc.returned) →
      ∃ t s', step cfg t s = StepResult.next s') ∧
    ((∀ t s', step cfg t s ≠ StepResult.next s') ↔
      (s.producerPc = ProducerPc.returned ∧ s.consumerPc = ConsumerPc.returned)) ∧
    (∀ ts sf, runSchedule cfg s ts = some sf → (ts.length : Int) ≤ stepsLeft cfg s) ∧
    (∃ ts sf, runSchedule cfg s ts = some sf ∧
      sf.producerPc = ProducerPc.returned ∧ sf.consumerPc = ConsumerPc.returned) := by
  refine ⟨fun hnot => ?_, ⟨stuck_is_finished cfg s hC h, ?_⟩,
    fun ts sf hrun => runSchedule_length_le cfg ts s sf h hrun,
    can_finish cfg hC (stepsLeft cfg s).toNat s h (Int.self_le_toNat _)⟩
  · by_contra hne
    push_neg at hne
    exact hnot (stuck_is_finished cfg s hC h hne)
  · rintro ⟨hp, hc⟩ t s' hstep
    rw [finished_is_stuck cfg s hp hc t] at hstep
    cases hstep

/-- C4 at the state of the program as written in which the queue is full and
the producer waits in `empty_slots.acquire()`. -/
theorem no_deadlock_witness :
    (¬ (sourceFullState.producerPc = ProducerPc.returned ∧
        sourceFullState.consumerPc = ConsumerPc.returned) →
      ∃ t s', step sourceConfig t sourceFullState = StepResult.next s') ∧
    ((∀ t s', step sourceConfig t sourceFullState ≠ StepResult.next s') ↔
      (sourceFullState.producerPc = ProducerPc.returned ∧
        sourceFullState.consumerPc = ConsumerPc.returned)) ∧
    (∀ ts sf, runSchedule sourceConfig sourceFullState ts = some sf →
      (ts.length : Int) ≤ stepsLeft sourceConfig sourceFullState) ∧
    (∃ ts sf, runSchedule sourceConfig sourceFullState ts = some sf ∧
      sf.producerPc = ProducerPc.returned ∧ sf.consumerPc = ConsumerPc.returned) :=
  no_deadlock sourceConfig sourceFullState (by decide) (by decide) sourceFullState_reachable

/-- C5. Once both `produce()` and `consume()` have returned, `empty_slots` is
back at the capacity, `filled_slots` is at 0 and the queue is empty. -/
theorem rebalanced_after_full_run (cfg : Config) (s : State) (h : Reachable cfg s)
    (hp : s.producerPc = ProducerPc.returned) (hc : s.consumerPc = ConsumerPc.returned) :
    s.empty_slots.count = cfg.BUFFER_SIZE ∧ s.filled_slots.count = 0 ∧ s.buffer = [] := by
  obtain ⟨d1, d2, -, d4⟩ := dataInv_of_reachable cfg s h
  obtain ⟨-, -, h3, -, -, h6, -⟩ := countInv_of_reachable cfg s h
  rw [hp] at d1 h3 h6
  rw [hc] at d4 h3 h6
  simp only [consumerOk] at d4
  simp only [pushedCount, stream_take_pill, stream_take_toNat] at d1
  have hb : s.buffer = [] := by
    have : stream cfg.ITEMS_TO_PRODUCE = stream cfg.ITEMS_TO_PRODUCE ++ s.buffer := by
      rw [d1, d4] at d2
      exact d2
    simpa using this
  rw [hb] at h6
  simp only [ProducerPc.holdsSlot, ConsumerPc.holdsSlot, ProducerPc.pushedUnsignalled,
    ConsumerPc.claimedUnpopped, Bool.toNat_false, Nat.cast_zero, List.length_nil] at h3 h6
  exact ⟨by omega, by omega, hb⟩

/-- C5 at the end of a complete run of the program as written. -/
theorem rebalanced_after_full_run_witness :
    sourceFinalState.empty_slots.count = 5 ∧ sourceFinalState.filled_slots.count = 0 ∧
      sourceFinalState.buffer = [] :=
  rebalanced_after_full_run sourceConfig sourceFinalState sourceFinalState_reachable rfl rfl

/-- C6. The sentinel is dequeued at most once and is then the last item
dequeued; no payload value equals it; the test at line 145 is made on the item
just dequeued and takes the `break` branch exactly when that item is the
sentinel; the consumer is on the `break` branch or returned only after
dequeuing the sentinel, and after dequeuing it is nowhere else. -/
theorem sentinel_stops_consumer (cfg : Config) (s : State) (h : Reachable cfg s) :
    s.dequeued.count POISON_PILL ≤ 1 ∧
    (POISON_PILL ∈ s.dequeued → s.dequeued.getLast? = some POISON_PILL) ∧
    (∀ v ∈ payload cfg.ITEMS_TO_PRODUCE, v ≠ POISON_PILL) ∧
    (s.consumerPc = ConsumerPc.testPill →
      s.dequeued.getLast? = some s.consumed_item ∧
      ∃ s', stepConsumer cfg s = StepResult.next s' ∧ s'.dequeued = s.dequeued ∧
        (s'.consumerPc.stopping = true ↔ s.consumed_item = POISON_PILL)) ∧
    (s.consumerPc.stopping = true → s.dequeued.getLast? = some POISON_PILL) ∧
    (POISON_PILL ∈ s.dequeued →
      s.consumerPc = ConsumerPc.testPill ∨ s.consumerPc.stopping = true) := by
  have hd := dataInv_of_reachable cfg s h
  have hpre := popped_isPrefix_stream cfg s hd
  have hc := hd.consumer_ok
  have hcases := isPrefix_stream_cases _ _ hpre
  refine ⟨?_, ?_, ?_, ?_, ?_, ?_⟩
  · rcases hcases with h1 | ⟨-, h1⟩
    · rw [State.dequeued, h1, count_pill_stream]
    · rw [State.dequeued, List.count_eq_zero_of_not_mem h1]; exact Nat.zero_le _
  · intro hm
    rcases hcases with h1 | ⟨-, h1⟩
    · rw [State.dequeued, h1, stream_getLast]
    · exact absurd hm h1
  · intro v hv heq
    exact pill_not_mem_payload _ (heq ▸ hv)
  · intro hpc
    rw [hpc] at hc
    refine ⟨hc, ?_⟩
    rcases s with ⟨buf, m, e, f, c, ppc, item, cpc, ci, ev⟩
    dsimp only at hpc
    subst hpc
    simp only [stepConsumer]
    split
    · exact ⟨_, rfl, rfl, by simpa [ConsumerPc.stopping] using ‹ci = POISON_PILL›⟩
    · exact ⟨_, rfl, rfl, by simpa [ConsumerPc.stopping] using ‹¬ ci = POISON_PILL›⟩
  · intro hst
    have : s.dequeued = stream cfg.ITEMS_TO_PRODUCE := by
      cases hpc : s.consumerPc <;> rw [hpc] at hst hc <;>
        simp only [ConsumerPc.stopping, consumerOk, reduceCtorEq] at hst hc <;> exact hc
    rw [this, stream_getLast]
  · intro hm
    rcases hcases with h1 | ⟨-, h1⟩
    · have hlen : (popped s.events).length = cfg.ITEMS_TO_PRODUCE.toNat + 1 := by
        rw [h1, stream_length]
      cases hpc : s.consumerPc <;> rw [hpc] at hc <;>
        simp only [ConsumerPc.stopping, consumerOk, reduceCtorEq, or_true, or_false,
          true_or] at hc ⊢ <;> omega
    · exact absurd hm h1

/-- C6 at the state of the program as written in which the consumer has just
dequeued the sentinel and stands at the test. -/
theorem sentinel_stops_consumer_witness :
    sourcePillTestState.dequeued.count POISON_PILL ≤ 1 ∧
    (POISON_PILL ∈ sourcePillTestState.dequeued →
      sourcePillTestState.dequeued.getLast? = some POISON_PILL) ∧
    (∀ v ∈ payload sourceConfig.ITEMS_TO_PRODUCE, v ≠ POISON_PILL) ∧
    (sourcePillTestState.consumerPc = ConsumerPc.testPill →
      sourcePillTestState.dequeued.getLast? = some sourcePillTestState.consumed_item ∧
      ∃ s', stepConsumer sourceConfig sourcePillTestState = StepResult.next s' ∧
        s'.dequeued = sourcePillTestState.dequeued ∧
        (s'.consumerPc.stopping = true ↔ sourcePillTestState.consumed_item = POISON_PILL)) ∧
    (sourcePillTestState.consumerPc.stopping = true →
      sourcePillTestState.dequeued.getLast? = some POISON_PILL) ∧
    (POISON_PILL ∈ sourcePillTestState.dequeued →
      sourcePillTestState.consumerPc = ConsumerPc.testPill ∨
        sourcePillTestState.consumerPc.stopping = true) :=
  sentinel_stops_consumer sourceConfig sourcePillTestState sourcePillTestState_reachable

/-- C7 as stated fails on the 32-bit count: `Semaphore(2147483647)` has a
non-negative initial count, its `release()` completes, and the count is then
-2147483648. -/
theorem permit_count_negative_past_int_max :
    (0 : Int) ≤ 2147483647 ∧ IsInt32 2147483647 ∧
    (Semaphore.mk' 2147483647).runCalls [SemOp.release] = some { count := -2147483648 } ∧
    ¬ (∀ (initial_count : Int) (ops : List SemOp) (s' : Semaphore), 0 ≤ initial_count →
        IsInt32 initial_count → (Semaphore.mk' initial_count).runCalls ops = some s' →
        0 ≤ s'.count) := by
  refine ⟨by decide, by decide, by decide, fun h => ?_⟩
  have := h 2147483647 [SemOp.release] { count := -2147483648 } (by decide) (by decide)
    (by decide)
  exact absurd this (by decide)

/-- C7 (amended). A semaphore constructed with a non-negative `int` count has a
non-negative count after any sequence of completed `acquire()` and `release()`
calls in which no `release()` is called while the count is `INT_MAX`; and in
every reachable state of the protocol (capacity at least 0) the counts of
`buffer_mutex`, `empty_slots` and `filled_slots` are non-negative, and at most
1, `BUFFER_SIZE` and `BUFFER_SIZE`, so that the protocol calls no `release()`
at `INT_MAX`. -/
theorem permit_count_nonneg_below_int_max :
    (∀ (initial_count : Int) (ops : List SemOp) (s' : Semaphore), 0 ≤ initial_count →
      IsInt32 initial_count → (Semaphore.mk' initial_count).noOverflow ops = true →
      (Semaphore.mk' initial_count).runCalls ops = some s' → 0 ≤ s'.count) ∧
    (∀ (cfg : Config) (s : State), 0 ≤ cfg.BUFFER_SIZE → Reachable cfg s →
      (0 ≤ s.buffer_mutex.count ∧ 0 ≤ s.empty_slots.count ∧ 0 ≤ s.filled_slots.count) ∧
      (s.buffer_mutex.count ≤ 1 ∧ s.empty_slots.count ≤ cfg.BUFFER_SIZE ∧
        s.filled_slots.count ≤ cfg.BUFFER_SIZE)) := by
  refine ⟨fun c ops s' h0 hr hno h => ?_, fun cfg s hC h => ?_⟩
  · exact (Semaphore.runCalls_count ops (Semaphore.mk' c) s' hr hno h).2.2 h0
  · obtain ⟨h1, h2, h3, h4, h5, -, -⟩ := countInv_of_reachable cfg s h
    exact ⟨⟨h2, by omega, h5⟩, by omega, by omega, by omega⟩

/-- C7 (amended) for `Semaphore(1)` after release, acquire, acquire, and at the
full queue of the program as written. -/
theorem permit_count_nonneg_below_int_max_witness :
    (0 : Int) ≤ (Semaphore.mk' 0).count ∧
    ((0 ≤ sourceFullState.buffer_mutex.count ∧ 0 ≤ sourceFullState.empty_slots.count ∧
        0 ≤ sourceFullState.filled_slots.count) ∧
      (sourceFullState.buffer_mutex.count ≤ 1 ∧
        sourceFullState.empty_slots.count ≤ sourceConfig.BUFFER_SIZE ∧
        sourceFullState.filled_slots.count ≤ sourceConfig.BUFFER_SIZE)) :=
  ⟨permit_count_nonneg_below_int_max.1 1 [SemOp.release, SemOp.acquire, SemOp.acquire] _
      (by decide) (by decide) (by decide) (by decide),
   permit_count_nonneg_below_int_max.2 sourceConfig sourceFullState (by decide)
      sourceFullState_reachable⟩

/-- C8 as stated fails on the code at count `INT_MAX`: `release()` completes
and leaves the count at -2147483648, not one larger, and the `acquire()` that
follows blocks, so the original count is not restored. -/
theorem release_wraps_at_int_max :
    IsInt32 (Semaphore.mk' 2147483647).count ∧
    (Semaphore.mk' 2147483647).release32.count = -2147483648 ∧
    (Semaphore.mk' 2147483647).release32.count ≠ (Semaphore.mk' 2147483647).count + 1 ∧
    (Semaphore.mk' 2147483647).release32.acquire = none ∧
    (Monitor.init 2147483647 1).runActions (releaseThenAcquire.take 5) =
      some (Monitor.init (-2147483648) 1) ∧
    (Monitor.init 2147483647 1).runActions (releaseThenAcquire.take 8) =
      some { sem := Semaphore.mk' (-2147483648), mtx := none,
             pcs := [CallPc.acquireWaiting] } ∧
    (Monitor.init 2147483647 1).runActions (releaseThenAcquire.take 9) = none := by
  refine ⟨by decide, by decide, by decide, by decide, by decide, by decide, by decide⟩

/-- C8 (amended). On the `int` count: `acquire()` completes exactly when the
count is positive and then leaves it one smaller; `release()` leaves it one
larger, except at `INT_MAX` where `count++` wraps to `INT_MIN`; `release()`
followed by `acquire()` gives back the semaphore it started from whenever that
`acquire()` completes, which it does for every count in `[0, INT_MAX)`.
Statement by statement, with `mtx` and the threads blocked on `cv`, in every
reachable state: every statement leaves the count alone except `count--`, which
acts as `acquire` on a positive count, and `count++`, which acts as `release`;
the test of line 25 lets a thread through exactly when the count is positive,
and a blocked thread has no statement to execute; a thread inside `release()`
returns after at most 7 statements, all of them its own or of the thread that
holds `mtx`, whatever the count and however many threads are blocked; and one
thread alone that runs `release()` and then `acquire()` on a count in
`[0, INT_MAX)` is back in the state it started from. -/
theorem acquire_release_monitor_contract :
    (∀ s : Semaphore, IsInt32 s.count →
      (s.acquire.isSome = true ↔ 0 < s.count) ∧
      (∀ s', s.acquire = some s' → s'.count = s.count - 1) ∧
      (s.count < INT_MAX → s.release32.count = s.count + 1) ∧
      (s.count = INT_MAX → s.release32.count = INT_MIN) ∧
      (∀ s', s.release32.acquire = some s' → s' = s) ∧
      (0 ≤ s.count → s.count < INT_MAX → s.release32.acquire = some s)) ∧
    (∀ (c : Int) (n : Nat) (m : Monitor), IsInt32 c → Monitor.Reachable c n m →
      (∀ (a : MonAction) (m' : Monitor), m.step a = some m' →
        (m.effect a = none → m'.sem = m.sem) ∧
        (m.effect a = some SemOp.acquire → m.sem.acquire = some m'.sem) ∧
        (m.effect a = some SemOp.release → m'.sem = m.sem.release32)) ∧
      (∀ t w : Nat, m.pcs[t]? = some CallPc.acquireTest →
        ∃ m', m.step (MonAction.run t w) = some m' ∧
          (m'.pcs[t]? = some CallPc.acquireDecrement ↔ 0 < m.sem.count) ∧
          (m'.pcs[t]? = some CallPc.acquireWaiting ↔ ¬ 0 < m.sem.count)) ∧
      (∀ t w : Nat, m.pcs[t]? = some CallPc.acquireWaiting →
        m.step (MonAction.run t w) = none) ∧
      (∀ (t : Nat) (pc : CallPc), m.pcs[t]? = some pc → pc.inRelease = true →
        ∃ (acts : List MonAction) (m' : Monitor), acts.length ≤ 7 ∧
          (∀ a ∈ acts, ∃ u w : Nat, a = MonAction.run u w ∧ (u = t ∨ m.mtx = some u)) ∧
          m.runActions acts = some m' ∧ m'.pcs[t]? = some CallPc.idle)) ∧
    (∀ c : Int, 0 ≤ c → c < INT_MAX →
      (Monitor.init c 1).runActions releaseThenAcquire = some (Monitor.init c 1)) := by
  refine ⟨fun s hr => ⟨?_, ?_, ?_, ?_, ?_, ?_⟩, fun c n m hc hm => ⟨?_, ?_, ?_, ?_⟩,
    Monitor.releaseThenAcquire_restores⟩
  · unfold Semaphore.acquire
    split <;> simp_all
  · intro s' h
    obtain ⟨-, rfl⟩ := (Semaphore.acquire_eq_some s s').mp h
    rfl
  · intro hlt
    rw [Semaphore.release32_eq_release s hr hlt]
    rfl
  · intro h
    rw [Semaphore.release32_count, h]
    decide
  · intro s' h
    obtain ⟨hpos, rfl⟩ := (Semaphore.acquire_eq_some _ s').mp h
    have hlt : s.count < INT_MAX := by
      by_contra hge
      have : s.count = INT_MAX := le_antisymm hr.2 (not_lt.mp hge)
      rw [Semaphore.release32_count, this] at hpos
      exact absurd hpos (by decide)
    rw [Semaphore.release32_eq_release s hr hlt]
    cases s
    simp [Semaphore.release]
  · intro h0 hlt
    rw [Semaphore.release32_eq_release s hr hlt, Semaphore.acquire_eq_some]
    refine ⟨by rw [Semaphore.release_count]; omega, ?_⟩
    cases s
    simp [Semaphore.release]
  · exact fun a m' hs => Monitor.step_effect m m' a (Monitor.inv_of_reachable c n hc m hm) hs
  · exact fun t w => (Monitor.acquire_test m t w).1
  · exact fun t w => (Monitor.acquire_test m t w).2
  · intro t pc hpc hrel
    have hi := Monitor.inv_of_reachable c n hc m hm
    have hpos := Monitor.releaseDistance_pos m t pc hpc hrel
    have hle := Monitor.releaseDistance_le m t
    obtain ⟨acts, m', hlen, hruns, hrun, hidle⟩ :=
      Monitor.release_completes t (m.releaseDistance t - 1) m hi (by omega)
    exact ⟨acts, m', by omega, hruns, hrun, hidle⟩

/-- C8 (amended) for `Semaphore(0)`: the round trip, and thread 0 returning
from `release()` while thread 1 is blocked in `acquire()`. -/
theorem acquire_release_monitor_contract_witness :
    (Semaphore.mk' 0).release32.acquire = some (Semaphore.mk' 0) ∧
    (∃ (acts : List MonAction) (m' : Monitor), acts.length ≤ 7 ∧
      (∀ a ∈ acts, ∃ u w : Nat, a = MonAction.run u w ∧
        (u = 0 ∨ blockedWaiterState.mtx = some u)) ∧
      blockedWaiterState.runActions acts = some m' ∧ m'.pcs[0]? = some CallPc.idle) ∧
    (Monitor.init 0 1).runActions releaseThenAcquire = some (Monitor.init 0 1) :=
  ⟨(acquire_release_monitor_contract.1 (Semaphore.mk' 0) (by decide)).2.2.2.2.2
      (by decide) (by decide),
   (acquire_release_monitor_contract.2.1 0 2 blockedWaiterState (by decide)
      blockedWaiterState_reachable).2.2.2 0 CallPc.releaseLock rfl rfl,
   acquire_release_monitor_contract.2.2 0 (by decide) (by decide)⟩

/-- C9 as stated fails twice: `Semaphore(1)` after no call has count 1 while
releases minus acquires is 0; and `Semaphore(2147483647)` after one `release()`
has count -2147483648, which is not 2147483647 + 1 either. -/
theorem count_balance_fails :
    (Semaphore.mk' 1).runCalls [] = some { count := 1 } ∧
    (1 : Int) ≠ (releases [] : Int) - (acquires [] : Int) ∧
    (Semaphore.mk' 2147483647).runCalls [SemOp.release] = some { count := -2147483648 } ∧
    (-2147483648 : Int) ≠
      2147483647 + (releases [SemOp.release] : Int) - (acquires [SemOp.release] : Int) ∧
    ¬ (∀ (initial_count : Int) (ops : List SemOp) (s' : Semaphore), IsInt32 initial_count →
        (Semaphore.mk' initial_count).runCalls ops = some s' →
        s'.count = (releases ops : Int) - (acquires ops : Int)) := by
  refine ⟨rfl, by decide, by decide, by decide, fun h => ?_⟩
  have := h 1 [] (Semaphore.mk' 1) (by decide) rfl
  exact absurd this (by decide)

/-- C9 (amended). After any sequence of completed calls in which no `release()`
is called while the count is `INT_MAX`, the count equals the `int` the
semaphore was constructed with, plus the number of completed releases, minus
the number of completed acquires. -/
theorem count_balance_below_int_max (initial_count : Int) (ops : List SemOp)
    (s' : Semaphore) (hr : IsInt32 initial_count)
    (hno : (Semaphore.mk' initial_count).noOverflow ops = true)
    (h : (Semaphore.mk' initial_count).runCalls ops = some s') :
    s'.count = initial_count + (releases ops : Int) - (acquires ops : Int) :=
  (Semaphore.runCalls_count ops (Semaphore.mk' initial_count) s' hr hno h).2.1

/-- C9 (amended) for `Semaphore(1)` after acquire, release, release. -/
theorem count_balance_below_int_max_witness :
    (Semaphore.mk' 2).count
      = 1 + (releases [SemOp.acquire, SemOp.release, SemOp.release] : Int)
          - (acquires [SemOp.acquire, SemOp.release, SemOp.release] : Int) :=
  count_balance_below_int_max 1 [SemOp.acquire, SemOp.release, SemOp.release]
    (Semaphore.mk' 2) (by decide) (by decide) (by decide)

/-- C10. With capacity 1, in every reachable state the pushes and pops so far
strictly alternate starting with a push, the queue holds at most one item, the
items dequeued so far are a prefix of `[1, ..., N, POISON_PILL]`, and once
`consume()` has returned the non-sentinel items it dequeued are `[1, ..., N]`
(`[1, 2, 3]` for `N = 3`).  Every execution is finite, and one that cannot
continue has consumed exactly `[1, ..., N]`. -/
theorem capacity_one_alternates (cfg : Config) (s : State)
    (hC : cfg.BUFFER_SIZE = 1) (h : Reachable cfg s) :
    strictlyAlternates s.events ∧ s.buffer.length ≤ 1 ∧
    s.dequeued <+: stream cfg.ITEMS_TO_PRODUCE ∧
    (s.consumerPc = ConsumerPc.returned →
      s.dequeued.filter (fun v => decide (v ≠ POISON_PILL)) = payload cfg.ITEMS_TO_PRODUCE) ∧
    (s.consumerPc = ConsumerPc.returned → cfg.ITEMS_TO_PRODUCE = 3 →
      s.dequeued.filter (fun v => decide (v ≠ POISON_PILL)) = [1, 2, 3]) ∧
    (∀ ts sf, runSchedule cfg s ts = some sf → (ts.length : Int) ≤ stepsLeft cfg s) ∧
    ((∀ t s', step cfg t s ≠ StepResult.next s') →
      s.dequeued.filter (fun v => decide (v ≠ POISON_PILL)) = payload cfg.ITEMS_TO_PRODUCE) := by
  have hd := dataInv_of_reachable cfg s h
  have hlen := (countInv_length_le cfg s (by omega) (countInv_of_reachable cfg s h)).1
  have hfin : s.consumerPc = ConsumerPc.returned →
      s.dequeued.filter (fun v => decide (v ≠ POISON_PILL)) = payload cfg.ITEMS_TO_PRODUCE := by
    intro hpc
    have hc := hd.consumer_ok
    rw [hpc] at hc
    simp only [consumerOk] at hc
    rw [State.dequeued, hc, filter_stream]
  refine ⟨strictlyAlternates_of_reachable cfg s hC h, by omega,
    popped_isPrefix_stream cfg s hd, hfin, fun hpc hN => ?_,
    fun ts sf hrun => runSchedule_length_le cfg ts s sf h hrun,
    fun hstuck => hfin (stuck_is_finished cfg s (by omega) h hstuck).2⟩
  rw [hfin hpc, hN]
  decide

/-- C10 at the end of a complete run with capacity 1 and three items. -/
theorem capacity_one_alternates_witness :
    strictlyAlternates tightFinalState.events ∧ tightFinalState.buffer.length ≤ 1 ∧
    tightFinalState.dequeued <+: stream 3 ∧
    (tightFinalState.consumerPc = ConsumerPc.returned →
      tightFinalState.dequeued.filter (fun v => decide (v ≠ POISON_PILL)) = payload 3) ∧
    (tightFinalState.consumerPc = ConsumerPc.returned → tightConfig.ITEMS_TO_PRODUCE = 3 →
      tightFinalState.dequeued.filter (fun v => decide (v ≠ POISON_PILL)) = [1, 2, 3]) ∧
    (∀ ts sf, runSchedule tightConfig tightFinalState ts = some sf →
      (ts.length : Int) ≤ stepsLeft tightConfig tightFinalState) ∧
    ((∀ t s', step tightConfig t tightFinalState ≠ StepResult.next s') →
      tightFinalState.dequeued.filter (fun v => decide (v ≠ POISON_PILL))
        = payload tightConfig.ITEMS_TO_PRODUCE) :=
  capacity_one_alternates tightConfig tightFinalState rfl tightFinalState_reachable

/-! ## Slot permits and lock order -/

theorem sourceFrontState_run :
    runSchedule sourceConfig (initState sourceConfig)
      (List.replicate 8 Task.producer ++ List.replicate 2 Task.consumer)
      = some sourceFrontState := by
  decide

theorem sourceFrontState_reachable : Reachable sourceConfig sourceFrontState :=
  reachable_of_runSchedule _ _ _ _ Reachable.init sourceFrontState_run

theorem sourceSlotHeldState_run :
    runSchedule sourceConfig (initState sourceConfig) (List.replicate 2 Task.producer)
      = some sourceSlotHeldState := by
  decide

theorem sourceSlotHeldState_reachable : Reachable sourceConfig sourceSlotHeldState :=
  reachable_of_runSchedule _ _ _ _ Reachable.init sourceSlotHeldState_run

/-- A statement of one thread leaves the other thread where it is. -/
theorem step_other_thread (cfg : Config) (t t' : Task) (s s' : State)
    (hs : step cfg t s = StepResult.next s') (ht : t' ≠ t) :
    s'.inCritical t' = s.inCritical t' ∧ s'.holdsSlot t' = s.holdsSlot t' := by
  rcases s with ⟨buf, m, e, f, c, ppc, item, cpc, ci, ev⟩
  cases t <;> cases t' <;> first | exact absurd rfl ht | skip
  · cases ppc <;> simp only [step, stepProducer] at hs <;> (try split at hs) <;>
      simp only [StepResult.next.injEq, reduceCtorEq] at hs <;> subst hs <;> exact ⟨rfl, rfl⟩
  · cases cpc <;> simp only [step, stepConsumer] at hs <;> (try split at hs) <;>
      simp only [StepResult.next.injEq, reduceCtorEq] at hs <;> subst hs <;> exact ⟨rfl, rfl⟩

theorem atSlotAcquire_not_inCritical (s : State) (t : Task) (h : s.atSlotAcquire t = true) :
    s.inCritical t = false := by
  cases t
  · simp only [State.atSlotAcquire, decide_eq_true_eq] at h
    rcases h with h | h <;> simp only [State.inCritical, h, ProducerPc.inCritical]
  · simp only [State.atSlotAcquire, decide_eq_true_eq] at h
    simp only [State.inCritical, h, ConsumerPc.inCritical]

/-- How one statement of a thread moves the semaphore counts and that thread's
two flags: `inCritical` rises with an acquire of `buffer_mutex` and falls with
its release, `holdsSlot` rises with the thread's slot acquire and falls with
its release of the opposite slot semaphore. -/
theorem step_tracks_flags (cfg : Config) (t : Task) (s s' : State)
    (hs : step cfg t s = StepResult.next s') :
    ((s'.inCritical t).toNat : Int) - (s.inCritical t).toNat
      = s.buffer_mutex.count - s'.buffer_mutex.count ∧
    ((s'.holdsSlot t).toNat : Int) - (s.holdsSlot t).toNat
      = (s.empty_slots.count + s.filled_slots.count)
        - (s'.empty_slots.count + s'.filled_slots.count) ∧
    (s'.empty_slots.count < s.empty_slots.count ∨ s'.filled_slots.count < s.filled_slots.count →
      s.atSlotAcquire t = true ∧ s.inCritical t = false ∧ s'.holdsSlot t = true) ∧
    (s'.buffer_mutex.count < s.buffer_mutex.count →
      s.holdsSlot t = true ∧ s.inCritical t = false ∧ s'.inCritical t = true) ∧
    (s.buffer_mutex.count < s'.buffer_mutex.count →
      s.inCritical t = true ∧ s'.inCritical t = false) := by
  rcases s with ⟨buf, ⟨m⟩, ⟨e⟩, ⟨f⟩, ⟨c⟩, ppc, item, cpc, ci, ev⟩
  cases t
  · cases ppc <;> simp only [step, stepProducer] at hs <;> (try split at hs) <;>
      simp only [StepResult.next.injEq, reduceCtorEq, Semaphore.acquire_eq_some,
        StdMutex.lock_eq_some] at * <;>
      (first
        | (obtain ⟨hpos, rfl⟩ := ‹_ ∧ _›; subst hs)
        | subst hs) <;>
      simp only [State.inCritical, State.holdsSlot, State.atSlotAcquire,
        ProducerPc.inCritical, ProducerPc.holdsSlot, Semaphore.release, Bool.toNat_true,
        Bool.toNat_false, Nat.cast_one, Nat.cast_zero, reduceCtorEq, or_false, or_true,
        decide_True, decide_False, and_self, and_true, true_and, Bool.false_eq_true,
        and_false, false_and, imp_false, not_or, not_lt, implies_true] <;>
      omega
  · cases cpc <;> simp only [step, stepConsumer] at hs <;> (try split at hs) <;>
      simp only [StepResult.next.injEq, reduceCtorEq, Semaphore.acquire_eq_some,
        StdMutex.lock_eq_some] at * <;>
      (first
        | (obtain ⟨hpos, rfl⟩ := ‹_ ∧ _›; subst hs)
        | subst hs) <;>
      simp only [State.inCritical, State.holdsSlot, State.atSlotAcquire,
        ConsumerPc.inCritical, ConsumerPc.holdsSlot, Semaphore.release, Bool.toNat_true,
        Bool.toNat_false, Nat.cast_one, Nat.cast_zero, reduceCtorEq, or_false, or_true,
        decide_True, decide_False, and_self, and_true, true_and, Bool.false_eq_true,
        and_false, false_and, imp_false, not_or, not_lt, implies_true] <;>
      omega

/-- Only the producer takes permits from `empty_slots` and only the consumer
takes permits from `filled_slots`. -/
theorem slot_acquire_owner (cfg : Config) (t : Task) (s s' : State)
    (hs : step cfg t s = StepResult.next s') :
    (s'.empty_slots.count < s.empty_slots.count → t = Task.producer) ∧
    (s'.filled_slots.count < s.filled_slots.count → t = Task.consumer) := by
  rcases s with ⟨buf, ⟨m⟩, ⟨e⟩, ⟨f⟩, ⟨c⟩, ppc, item, cpc, ci, ev⟩
  cases t
  · cases ppc <;> simp only [step, stepProducer] at hs <;> (try split at hs) <;>
      simp only [StepResult.next.injEq, reduceCtorEq, Semaphore.acquire_eq_some,
        StdMutex.lock_eq_some] at * <;>
      (first
        | (obtain ⟨hpos, rfl⟩ := ‹_ ∧ _›; subst hs)
        | subst hs) <;>
      simp only [Semaphore.release, reduceCtorEq, imp_false, not_lt, implies_true,
        true_and, and_true] <;>
      omega
  · cases cpc <;> simp only [step, stepConsumer] at hs <;> (try split at hs) <;>
      simp only [StepResult.next.injEq, reduceCtorEq, Semaphore.acquire_eq_some,
        StdMutex.lock_eq_some] at * <;>
      (first
        | (obtain ⟨hpos, rfl⟩ := ‹_ ∧ _›; subst hs)
        | subst hs) <;>
      simp only [Semaphore.release, reduceCtorEq, imp_false, not_lt, implies_true,
        true_and, and_true] <;>
      omega

/-- C11. In every reachable state `empty_slots.count + filled_slots.count` plus
the number of threads holding a slot permit equals the capacity; for a
non-negative capacity neither count exceeds it. -/
theorem slot_permits_conserved (cfg : Config) (s : State) (h : Reachable cfg s) :
    s.empty_slots.count + s.filled_slots.count + (s.slotHolders : Int) = cfg.BUFFER_SIZE ∧
    (0 ≤ cfg.BUFFER_SIZE →
      s.empty_slots.count ≤ cfg.BUFFER_SIZE ∧ s.filled_slots.count ≤ cfg.BUFFER_SIZE) := by
  obtain ⟨-, -, h3, h4, h5, -, -⟩ := countInv_of_reachable cfg s h
  refine ⟨?_, fun hC => ?_⟩
  · unfold State.slotHolders; push_cast; omega
  · omega

/-- C11 at the state of the program as written in which the consumer holds a
slot permit and stands at `buffer.front()`. -/
theorem slot_permits_conserved_witness :
    sourceFrontState.empty_slots.count + sourceFrontState.filled_slots.count
        + (sourceFrontState.slotHolders : Int) = 5 ∧
    ((0 : Int) ≤ 5 →
      sourceFrontState.empty_slots.count ≤ 5 ∧ sourceFrontState.filled_slots.count ≤ 5) :=
  slot_permits_conserved sourceConfig sourceFrontState sourceFrontState_reachable

/-- C12. In every reachable state the count of `filled_slots` plus the
consumer's acquired-but-unpopped permit is at most the queue length; hence the
queue is non-empty when the consumer stands at `buffer.front()` or
`buffer.pop()`, and no step of either thread reads or pops an empty queue. -/
theorem front_and_pop_see_an_item (cfg : Config) (s : State) (h : Reachable cfg s) :
    s.filled_slots.count + (s.consumerPc.claimedUnpopped.toNat : Int) ≤ s.buffer.length ∧
    (s.consumerPc = ConsumerPc.front ∨ s.consumerPc = ConsumerPc.pop → s.buffer ≠ []) ∧
    (∀ t, step cfg t s ≠ StepResult.undefinedBehaviour) := by
  obtain ⟨-, -, -, -, h5, h6, -⟩ := countInv_of_reachable cfg s h
  have hne : s.consumerPc = ConsumerPc.front ∨ s.consumerPc = ConsumerPc.pop → s.buffer ≠ [] := by
    rintro (hpc | hpc) hb <;> rw [hpc, hb] at h6 <;>
      simp only [ConsumerPc.claimedUnpopped, Bool.toNat_true, Nat.cast_one, List.length_nil,
        Nat.cast_zero] at h6 <;> omega
  refine ⟨by omega, hne, ?_⟩
  intro t
  rcases s with ⟨buf, m, e, f, c, ppc, item, cpc, ci, ev⟩
  cases t
  · cases ppc <;> simp only [step, stepProducer] <;> (try split) <;> simp
  · cases cpc <;> simp only [step, stepConsumer] <;> (try split) <;>
      simp_all

/-- C12 at the state of the program as written in which the consumer stands at
`buffer.front()`. -/
theorem front_and_pop_see_an_item_witness :
    sourceFrontState.filled_slots.count
        + (sourceFrontState.consumerPc.claimedUnpopped.toNat : Int)
      ≤ sourceFrontState.buffer.length ∧
    (sourceFrontState.consumerPc = ConsumerPc.front ∨
        sourceFrontState.consumerPc = ConsumerPc.pop → sourceFrontState.buffer ≠ []) ∧
    (∀ t, step sourceConfig t sourceFrontState ≠ StepResult.undefinedBehaviour) :=
  front_and_pop_see_an_item sourceConfig sourceFrontState sourceFrontState_reachable

/-- C13. In every reachable state a thread about to call `acquire()` on its
slot semaphore does not hold `buffer_mutex`.  For every statement a thread runs
from there: a slot semaphore is acquired only at the thread's slot-acquire
statement, outside the `buffer_mutex` section (`empty_slots` only by the
producer, `filled_slots` only by the consumer); `buffer_mutex` is acquired only
by a thread that already holds its slot permit and is outside the section, and
puts it inside; a release of `buffer_mutex` takes the thread out of the
section; any other statement leaves the thread on the side it was; and the
other thread is not moved.  Both threads start outside the section without a
slot permit. -/
theorem slot_acquired_before_mutex (cfg : Config) (s : State) (_h : Reachable cfg s) :
    (∀ t, s.atSlotAcquire t = true → s.inCritical t = false) ∧
    (∀ t s', step cfg t s = StepResult.next s' →
      (s'.empty_slots.count < s.empty_slots.count ∨
          s'.filled_slots.count < s.filled_slots.count →
        s.atSlotAcquire t = true ∧ s.inCritical t = false ∧ s'.holdsSlot t = true) ∧
      (s'.buffer_mutex.count < s.buffer_mutex.count →
        s.holdsSlot t = true ∧ s.inCritical t = false ∧ s'.inCritical t = true) ∧
      (s.buffer_mutex.count < s'.buffer_mutex.count →
        s.inCritical t = true ∧ s'.inCritical t = false) ∧
      (s'.buffer_mutex.count = s.buffer_mutex.count → s'.inCritical t = s.inCritical t) ∧
      (s'.empty_slots.count < s.empty_slots.count → t = Task.producer) ∧
      (s'.filled_slots.count < s.filled_slots.count → t = Task.consumer) ∧
      (∀ t', t' ≠ t → s'.inCritical t' = s.inCritical t' ∧ s'.holdsSlot t' = s.holdsSlot t')) ∧
    (∀ t, (initState cfg).inCritical t = false ∧ (initState cfg).holdsSlot t = false) := by
  refine ⟨fun t => atSlotAcquire_not_inCritical s t, fun t s' hs => ?_, fun t => ?_⟩
  · obtain ⟨h1, -, h3, h4, h5⟩ := step_tracks_flags cfg t s s' hs
    obtain ⟨ho1, ho2⟩ := slot_acquire_owner cfg t s s' hs
    refine ⟨h3, h4, h5, fun heq => ?_, ho1, ho2,
      fun t' ht' => step_other_thread cfg t t' s s' hs ht'⟩
    rw [heq, sub_self] at h1
    have := Bool.toNat_le (s'.inCritical t)
    have := Bool.toNat_le (s.inCritical t)
    cases h' : s'.inCritical t <;> cases h'' : s.inCritical t <;>
      simp only [h', h'', Bool.toNat_true, Bool.toNat_false, Nat.cast_one, Nat.cast_zero] at h1 <;>
      first | rfl | omega
  · cases t <;> exact ⟨rfl, rfl⟩

/-- C13 at the state of the program as written in which the producer holds its
slot permit and acquires `buffer_mutex` next. -/
theorem slot_acquired_before_mutex_witness :
    (∀ t, sourceSlotHeldState.atSlotAcquire t = true →
      sourceSlotHeldState.inCritical t = false) ∧
    (∀ t s', step sourceConfig t sourceSlotHeldState = StepResult.next s' →
      (s'.empty_slots.count < sourceSlotHeldState.empty_slots.count ∨
          s'.filled_slots.count < sourceSlotHeldState.filled_slots.count →
        sourceSlotHeldState.atSlotAcquire t = true ∧
          sourceSlotHeldState.inCritical t = false ∧ s'.holdsSlot t = true) ∧
      (s'.buffer_mutex.count < sourceSlotHeldState.buffer_mutex.count →
        sourceSlotHeldState.holdsSlot t = true ∧ sourceSlotHeldState.inCritical t = false ∧
          s'.inCritical t = true) ∧
      (sourceSlotHeldState.buffer_mutex.count < s'.buffer_mutex.count →
        sourceSlotHeldState.inCritical t = true ∧ s'.inCritical t = false) ∧
      (s'.buffer_mutex.count = sourceSlotHeldState.buffer_mutex.count →
        s'.inCritical t = sourceSlotHeldState.inCritical t) ∧
      (s'.empty_slots.count < sourceSlotHeldState.empty_slots.count → t = Task.producer) ∧
      (s'.filled_slots.count < sourceSlotHeldState.filled_slots.count → t = Task.consumer) ∧
      (∀ t', t' ≠ t → s'.inCritical t' = sourceSlotHeldState.inCritical t' ∧
        s'.holdsSlot t' = sourceSlotHeldState.holdsSlot t')) ∧
    (∀ t, (initState sourceConfig).inCritical t = false ∧
      (initState sourceConfig).holdsSlot t = false) :=
  slot_acquired_before_mutex sourceConfig sourceSlotHeldState sourceSlotHeldState_reachable

end MutexSemaphore

namespace MemoryManagement
open CppInt

/-! ## Scanning loops -/

theorem fits_iff (b : block) (p : process) :
    fits b p = true ↔ p.size ≤ b.size ∧ b.allocated = false := by
  simp [fits]

theorem fits_eq_false_iff (b : block) (p : process) (hb : b.allocated = false) :
    fits b p = false ↔ b.size < p.size := by
  simp [fits, hb]

/-- Splitting a list at an index that holds `b`. -/
theorem split_at_index (blocks : List block) (i : Nat) (b : block) (h : blocks[i]? = some b) :
    ∃ pre post, blocks = pre ++ b :: post ∧ pre.length = i ∧
      ∀ b', blocks.set i b' = pre ++ b' :: post := by
  obtain ⟨hi, hb⟩ := List.getElem?_eq_some.mp h
  refine ⟨blocks.take i, blocks.drop (i + 1), ?_, ?_, ?_⟩
  · rw [← hb, List.getElem_cons_drop, List.take_append_drop]
  · simp only [List.length_take]; omega
  · intro b'
    rw [List.set_eq_take_append_cons_drop, if_pos hi]

/-- The inner loop of `firstfit` places `p` at the lowest index whose block
passes the test, or changes nothing when no block passes. -/
theorem firstfitScan_cases (p : process) (blocks : List block) :
    (∃ (i : Nat) (b : block), blocks[i]? = some b ∧ fits b p = true ∧
        (∀ (j : Nat) (b' : block), j < i → blocks[j]? = some b' → fits b' p = false) ∧
        firstfitScan p blocks = (p.place b, blocks.set i (b.carve p))) ∨
    ((∀ b ∈ blocks, fits b p = false) ∧ firstfitScan p blocks = (p, blocks)) := by
  induction blocks with
  | nil => exact Or.inr ⟨by simp, rfl⟩
  | cons b bs ih =>
    by_cases hb : fits b p = true
    · refine Or.inl ⟨0, b, List.getElem?_cons_zero, hb, fun j _ hj => absurd hj (Nat.not_lt_zero j), ?_⟩
      simp only [firstfitScan, hb, if_true, List.set_cons_zero]
    · rcases ih with ⟨i, c, hi, hc, hlow, hres⟩ | ⟨hnone, hres⟩
      · refine Or.inl ⟨i + 1, c, by simpa using hi, hc, ?_, ?_⟩
        · intro j b' hj hb'
          cases j with
          | zero =>
            simp only [List.getElem?_cons_zero, Option.some.injEq] at hb'
            subst hb'
            simpa using hb
          | succ j =>
            exact hlow j b' (by omega) (by simpa using hb')
        · simp only [firstfitScan, hb, if_false, hres, List.set_cons_succ, Bool.false_eq_true]
      · refine Or.inr ⟨?_, ?_⟩
        · intro x hx
          rcases List.mem_cons.mp hx with rfl | hx
          · simpa using hb
          · exact hnone x hx
        · simp only [firstfitScan, hb, if_false, hres, Bool.false_eq_true]

/-- The inner loop of `nextfit`, run from index `i` with enough fuel to reach
the end, places `p` at the lowest index from `i` on whose block passes the
test, or changes nothing when no such block passes. -/
theorem nextfitLoop_cases (p : process) (blocks : List block) :
    ∀ (fuel i : Nat), blocks.length ≤ i + fuel →
    (∃ (k : Nat) (b : block), i ≤ k ∧ blocks[k]? = some b ∧ fits b p = true ∧
        (∀ (j : Nat) (b' : block), i ≤ j → j < k → blocks[j]? = some b' → fits b' p = false) ∧
        nextfitLoop p blocks fuel i = (p.place b, blocks.set k (b.carve p), some k)) ∨
    ((∀ (j : Nat) (b' : block), i ≤ j → blocks[j]? = some b' → fits b' p = false) ∧
      nextfitLoop p blocks fuel i = (p, blocks, none)) := by
  intro fuel
  induction fuel with
  | zero =>
    intro i hlen
    refine Or.inr ⟨fun j b' hj hb' => ?_, rfl⟩
    rw [List.getElem?_eq_none (by omega)] at hb'
    cases hb'
  | succ fuel ih =>
    intro i hlen
    cases hget : blocks[i]? with
    | none =>
      refine Or.inr ⟨fun j b' hj hb' => ?_, by simp only [nextfitLoop, hget]⟩
      have := List.getElem?_eq_none_iff.mp hget
      rw [List.getElem?_eq_none (by omega)] at hb'
      cases hb'
    | some b =>
      by_cases hb : fits b p = true
      · refine Or.inl ⟨i, b, le_refl i, hget, hb, fun j _ h1 h2 => by omega, ?_⟩
        simp only [nextfitLoop, hget, hb, if_true]
      · have hstep : nextfitLoop p blocks (fuel + 1) i = nextfitLoop p blocks fuel (i + 1) := by
          simp only [nextfitLoop, hget, hb, if_false, Bool.false_eq_true]
        have hfalse : ∀ (j : Nat) (b' : block), i ≤ j → j < i + 1 → blocks[j]? = some b' →
            fits b' p = false := by
          intro j b' h1 h2 hb'
          have : j = i := by omega
          subst this
          rw [hget] at hb'
          cases hb'
          simpa using hb
        rcases ih (i + 1) (by omega) with ⟨k, c, hk, hc, hfit, hlow, hres⟩ | ⟨hnone, hres⟩
        · refine Or.inl ⟨k, c, by omega, hc, hfit, ?_, by rw [hstep, hres]⟩
          intro j b' h1 h2 hb'
          by_cases hj : j < i + 1
          · exact hfalse j b' h1 hj hb'
          · exact hlow j b' (by omega) h2 hb'
        · refine Or.inr ⟨?_, by rw [hstep, hres]⟩
          intro j b' h1 hb'
          by_cases hj : j < i + 1
          · exact hfalse j b' h1 hj hb'
          · exact hnone j b' (by omega) hb'

theorem nextfitScan_cases (p : process) (blocks : List block) (lastpos : Nat) :
    (∃ (k : Nat) (b : block), lastpos ≤ k ∧ blocks[k]? = some b ∧ fits b p = true ∧
        (∀ (j : Nat) (b' : block), lastpos ≤ j → j < k → blocks[j]? = some b' →
          fits b' p = false) ∧
        nextfitScan p blocks lastpos = (p.place b, blocks.set k (b.carve p), some k)) ∨
    ((∀ (j : Nat) (b' : block), lastpos ≤ j → blocks[j]? = some b' → fits b' p = false) ∧
      nextfitScan p blocks lastpos = (p, blocks, none)) :=
  nextfitLoop_cases p blocks (blocks.length - lastpos) lastpos (by omega)

/-! ## Conservation -/

theorem firstfitScan_outcome (p : process) (blocks : List block) :
    Outcome p blocks (firstfitScan p blocks) := by
  rcases firstfitScan_cases p blocks with ⟨i, b, hi, -, -, hres⟩ | ⟨-, hres⟩
  · exact Or.inr ⟨i, b, hi, hres⟩
  · exact Or.inl hres

theorem nextfitScan_outcome (p : process) (blocks : List block) (lastpos : Nat) :
    Outcome p blocks
      ((nextfitScan p blocks lastpos).1, (nextfitScan p blocks lastpos).2.1) := by
  rcases nextfitScan_cases p blocks lastpos with ⟨i, b, -, hi, -, -, hres⟩ | ⟨-, hres⟩
  · exact Or.inr ⟨i, b, hi, by rw [hres]⟩
  · exact Or.inl (by rw [hres])

theorem bestfitPlace_outcome (p : process) (m : Int) (blocks : List block) :
    Outcome p blocks (bestfitPlace p m blocks) := by
  induction blocks with
  | nil => exact Or.inl rfl
  | cons b bs ih =>
    by_cases hb : b.size = m
    · refine Or.inr ⟨0, b, List.getElem?_cons_zero, ?_⟩
      simp only [bestfitPlace, hb, if_true, List.set_cons_zero]
    · rcases ih with hres | ⟨i, c, hi, hres⟩
      · refine Or.inl ?_
        simp only [bestfitPlace, hb, if_false, hres]
      · refine Or.inr ⟨i + 1, c, by simpa using hi, ?_⟩
        simp only [bestfitPlace, hb, if_false, hres, List.set_cons_succ]

theorem bestfitScan_outcome (p : process) (blocks : List block) :
    Outcome p blocks (bestfitScan p blocks) :=
  bestfitPlace_outcome p _ blocks

theorem conserved_nil (blocks : List block) : Conserved blocks [] (blocks, []) := by
  constructor <;> simp [allocatedSize]

/-- One pass of an inner loop followed by a conserving run conserves. -/
theorem conserved_cons (p : process) (ps : List process) (blocks : List block)
    (r : process × List block) (rest : List block × List process)
    (hp : p.isallocated = false) (hr : Outcome p blocks r) (hrest : Conserved r.2 ps rest) :
    Conserved blocks (p :: ps) (rest.1, r.1 :: rest.2) := by
  obtain ⟨h1, h2, h3, h4, h5⟩ := hrest
  rcases hr with rfl | ⟨i, b, hi, rfl⟩
  · refine ⟨h1, h2, ?_, ?_, ?_⟩
    · simp only [List.map_cons, h3]
    · simp only [List.map_cons, h4]
    · simp only [allocatedSize, List.filter_cons, hp, Bool.false_eq_true, if_false] at h5 ⊢
      exact h5
  · obtain ⟨pre, post, hsplit, -, hset⟩ := split_at_index blocks i b hi
    simp only [hset] at h1 h2 h5
    subst hsplit
    refine ⟨?_, ?_, ?_, ?_, ?_⟩
    · simpa [block.endAddress, block.carve, add_assoc] using h1
    · simpa [block.carve] using h2
    · simp only [List.map_cons, h3, process.place]
    · simp only [List.map_cons, h4, process.place]
    · simp only [allocatedSize, totalSize, List.filter_cons, process.place, if_true,
        List.map_cons, List.sum_cons, List.map_append, List.sum_append, block.carve] at h5 ⊢
      omega

theorem firstfit_conserved (ps : List process) :
    ∀ blocks : List block, (∀ p ∈ ps, p.isallocated = false) →
      Conserved blocks ps (firstfit blocks ps) := by
  induction ps with
  | nil => intro blocks _; exact conserved_nil blocks
  | cons p ps ih =>
    intro blocks hps
    exact conserved_cons p ps blocks _ _ (hps p (List.mem_cons_self _ _))
      (firstfitScan_outcome p blocks)
      (ih _ fun q hq => hps q (List.mem_cons_of_mem _ hq))

theorem nextfitFrom_conserved (ps : List process) :
    ∀ (lastpos : Nat) (blocks : List block), (∀ p ∈ ps, p.isallocated = false) →
      Conserved blocks ps (nextfitFrom lastpos blocks ps) := by
  induction ps with
  | nil => intro _ blocks _; exact conserved_nil blocks
  | cons p ps ih =>
    intro lastpos blocks hps
    exact conserved_cons p ps blocks
      ((nextfitScan p blocks lastpos).1, (nextfitScan p blocks lastpos).2.1) _
      (hps p (List.mem_cons_self _ _)) (nextfitScan_outcome p blocks lastpos)
      (ih _ _ fun q hq => hps q (List.mem_cons_of_mem _ hq))

theorem bestfit_conserved (ps : List process) :
    ∀ blocks : List block, (∀ p ∈ ps, p.isallocated = false) →
      Conserved blocks ps (bestfit blocks ps) := by
  induction ps with
  | nil => intro blocks _; exact conserved_nil blocks
  | cons p ps ih =>
    intro blocks hps
    exact conserved_cons p ps blocks _ _ (hps p (List.mem_cons_self _ _))
      (bestfitScan_outcome p blocks)
      (ih _ fun q hq => hps q (List.mem_cons_of_mem _ hq))

/-! ## `nextfit` against `firstfit` -/

theorem fits_false_mono (b : block) (p q : process) (h : fits b p = false)
    (hpq : p.size ≤ q.size) : fits b q = false := by
  simp only [fits, ge_iff_le, Bool.and_eq_false_imp, decide_eq_true_eq, Bool.not_eq_eq_eq_not,
    Bool.not_false] at h ⊢
  intro hq
  exact h (le_trans hpq hq)

/-- When no block before `lastpos` passes the test for any process still to
come and the sizes of those processes do not decrease, the forward scan of
`nextfit` and the full scan of `firstfit` give the same result. -/
theorem nextfitFrom_eq_firstfit (ps : List process) :
    ∀ (lastpos : Nat) (blocks : List block),
      (ps.map fun p => p.size).Pairwise (fun a b => a ≤ b) →
      (∀ (j : Nat) (b : block) (q : process), j < lastpos → blocks[j]? = some b → q ∈ ps →
        fits b q = false) →
      nextfitFrom lastpos blocks ps = firstfit blocks ps := by
  induction ps with
  | nil => intro _ _ _ _; rfl
  | cons p ps ih =>
    intro lastpos blocks hsorted hinv
    have hsorted' := (List.pairwise_cons.mp hsorted).2
    have hle : ∀ q ∈ ps, p.size ≤ q.size := by
      intro q hq
      exact (List.pairwise_cons.mp hsorted).1 q.size (List.mem_map_of_mem _ hq)
    rcases firstfitScan_cases p blocks with ⟨i, b, hi, hb, hlow, hF⟩ | ⟨hnone, hF⟩ <;>
      rcases nextfitScan_cases p blocks lastpos with
        ⟨k, c, hk, hc, hcfit, hklow, hN⟩ | ⟨hknone, hN⟩
    · have hil : lastpos ≤ i := by
        by_contra hlt
        have := hinv i b p (by omega) hi (List.mem_cons_self _ _)
        rw [hb] at this
        cases this
      have hik : i = k := by
        rcases Nat.lt_trichotomy i k with h | h | h
        · have := hklow i b hil h hi
          rw [hb] at this
          cases this
        · exact h
        · have := hlow k c h hc
          rw [hcfit] at this
          cases this
      subst hik
      rw [hi] at hc
      cases hc
      have hrec := ih i (blocks.set i (b.carve p)) hsorted' (by
        intro j b' q hj hb' hq
        rw [List.getElem?_set_ne (by omega)] at hb'
        exact fits_false_mono b' p q (hlow j b' hj hb') (hle q hq))
      simp only [nextfitFrom, firstfit, hN, hF, Option.getD_some, hrec]
    · have hil : lastpos ≤ i := by
        by_contra hlt
        have := hinv i b p (by omega) hi (List.mem_cons_self _ _)
        rw [hb] at this
        cases this
      have := hknone i b hil hi
      rw [hb] at this
      cases this
    · have := hnone c (List.getElem?_mem hc)
      rw [hcfit] at this
      cases this
    · have hrec := ih lastpos blocks hsorted' (by
        intro j b' q hj hb' hq
        exact hinv j b' q hj hb' (List.mem_cons_of_mem _ hq))
      simp only [nextfitFrom, firstfit, hN, hF, Option.getD_none, hrec]

/-! ## Address ranges under `firstfit` -/

theorem block.disjoint_symm (b b' : block) (h : b.disjoint b') : b'.disjoint b :=
  fun x hx => h x ⟨hx.2, hx.1⟩

theorem disjoint_of_pairwise (blocks : List block) (h : blocks.Pairwise block.disjoint)
    (j k : Nat) (o o' : block) (hjk : j ≠ k) (hj : blocks[j]? = some o)
    (hk : blocks[k]? = some o') : o.disjoint o' := by
  obtain ⟨hj1, rfl⟩ := List.getElem?_eq_some.mp hj
  obtain ⟨hk1, rfl⟩ := List.getElem?_eq_some.mp hk
  rcases Nat.lt_or_gt_of_ne hjk with hlt | hgt
  · exact List.pairwise_iff_getElem.mp h j k hj1 hk1 hlt
  · exact block.disjoint_symm _ _ (List.pairwise_iff_getElem.mp h k j hk1 hj1 hgt)

theorem remainder_refl (blocks : List block) (h : ∀ b ∈ blocks, 0 ≤ b.size) :
    Remainder blocks blocks := by
  refine ⟨rfl, fun j o c ho hc => ?_⟩
  rw [ho] at hc
  cases hc
  exact ⟨le_refl _, rfl, h o (List.getElem?_mem ho)⟩

theorem remainder_carve (orig cur : List block) (p : process) (i : Nat) (c : block)
    (h : Remainder orig cur) (hi : cur[i]? = some c) (hfit : fits c p = true)
    (hp : 0 ≤ p.size) : Remainder orig (cur.set i (c.carve p)) := by
  obtain ⟨hlen, hrem⟩ := h
  have hsize := ((fits_iff c p).mp hfit).1
  refine ⟨by rw [List.length_set]; exact hlen, fun j o c' ho hc' => ?_⟩
  by_cases hji : i = j
  · subst hji
    have hlt := (List.getElem?_eq_some.mp hi).1
    rw [List.getElem?_set_self hlt] at hc'
    cases hc'
    obtain ⟨h1, h2, h3⟩ := hrem i o c ho hi
    simp only [block.carve]
    exact ⟨by omega, by omega, by omega⟩
  · rw [List.getElem?_set_ne hji] at hc'
    exact hrem j o c' ho hc'

theorem freeIn_of_carve (orig cur : List block) (p q : process) (i : Nat) (c : block)
    (hi : cur[i]? = some c) (hp : 0 ≤ p.size)
    (h : FreeIn orig (cur.set i (c.carve p)) q) : FreeIn orig cur q := by
  obtain ⟨j, o, c', ho, hc', h1, h2⟩ := h
  by_cases hji : i = j
  · subst hji
    have hlt := (List.getElem?_eq_some.mp hi).1
    rw [List.getElem?_set_self hlt] at hc'
    cases hc'
    simp only [block.carve] at h1
    exact ⟨i, o, c, ho, hi, by omega, h2⟩
  · rw [List.getElem?_set_ne hji] at hc'
    exact ⟨j, o, c', ho, hc', h1, h2⟩

/-- Processes placed by `firstfit` lie in what was free of the blocks it was
given, and no two of them share an address. -/
theorem firstfit_ranges (orig : List block) (hdis : orig.Pairwise block.disjoint)
    (ps : List process) :
    ∀ cur : List block, Remainder orig cur →
      (∀ p ∈ ps, 0 ≤ p.size ∧ p.isallocated = false) →
      (∀ q ∈ (firstfit cur ps).2, q.isallocated = true → FreeIn orig cur q) ∧
      (firstfit cur ps).2.Pairwise
        (fun q q' => q.isallocated = true → q'.isallocated = true → q.disjoint q') := by
  induction ps with
  | nil =>
    intro cur _ _
    exact ⟨fun q hq => by simp [firstfit] at hq, List.Pairwise.nil⟩
  | cons p ps ih =>
    intro cur hrem hps
    obtain ⟨hp0, hpa⟩ := hps p (List.mem_cons_self _ _)
    have hps' : ∀ q ∈ ps, 0 ≤ q.size ∧ q.isallocated = false :=
      fun q hq => hps q (List.mem_cons_of_mem _ hq)
    rcases firstfitScan_cases p cur with ⟨i, c, hi, hfit, -, hF⟩ | ⟨-, hF⟩
    · have hrem' := remainder_carve orig cur p i c hrem hi hfit hp0
      obtain ⟨ihA, ihB⟩ := ih (cur.set i (c.carve p)) hrem' hps'
      have hlt := (List.getElem?_eq_some.mp hi).1
      have hsize := ((fits_iff c p).mp hfit).1
      obtain ⟨oi, hoi⟩ : ∃ oi, orig[i]? = some oi := by
        have : i < orig.length := by rw [hrem.1]; exact hlt
        exact ⟨orig[i], List.getElem?_eq_getElem this⟩
      obtain ⟨hi1, hi2, hi3⟩ := hrem.2 i oi c hoi hi
      simp only [firstfit, hF]
      refine ⟨?_, ?_⟩
      · intro q hq hqa
        rcases List.mem_cons.mp hq with rfl | hq
        · exact ⟨i, oi, c, hoi, hi, le_refl _, by simp only [process.place]; omega⟩
        · exact freeIn_of_carve orig cur p q i c hi hp0 (ihA q hq hqa)
      · refine List.pairwise_cons.mpr ⟨?_, ihB⟩
        intro q hq _ hqa x hx
        obtain ⟨⟨hx1, hx2⟩, ⟨hx3, hx4⟩⟩ := hx
        simp only [process.place] at hx1 hx2
        obtain ⟨j, o, c', ho, hc', h1, h2⟩ := ihA q hq hqa
        by_cases hji : i = j
        · subst hji
          rw [List.getElem?_set_self hlt] at hc'
          cases hc'
          simp only [block.carve] at h1
          omega
        · obtain ⟨hj1, hj2, hj3⟩ := hrem'.2 j o c' ho hc'
          refine disjoint_of_pairwise orig hdis i j oi o hji hoi ho x ⟨⟨?_, ?_⟩, ⟨?_, ?_⟩⟩ <;> omega
    · obtain ⟨ihA, ihB⟩ := ih cur hrem hps'
      simp only [firstfit, hF]
      refine ⟨?_, ?_⟩
      · intro q hq hqa
        rcases List.mem_cons.mp hq with rfl | hq
        · rw [hpa] at hqa; cases hqa
        · exact ihA q hq hqa
      · refine List.pairwise_cons.mpr ⟨?_, ihB⟩
        intro q _ hpa'
        rw [hpa] at hpa'; cases hpa'

theorem within_of_freeIn (blocks : List block) (q : process) (h : FreeIn blocks blocks q) :
    ∃ b ∈ blocks, q.within b := by
  obtain ⟨j, o, c, ho, hc, h1, h2⟩ := h
  rw [ho] at hc
  cases hc
  exact ⟨o, List.getElem?_mem ho, h1, h2⟩

/-! ## `firstfit` on 32-bit fields -/

/-- The inner loop of `firstfit` on `int` fields places `p` at the lowest index
whose block passes the test, or changes nothing when no block passes. -/
theorem firstfitScan32_cases (p : process) (blocks : List block) :
    (∃ (i : Nat) (b : block), blocks[i]? = some b ∧ fits b p = true ∧
        (∀ (j : Nat) (b' : block), j < i → blocks[j]? = some b' → fits b' p = false) ∧
        firstfitScan32 p blocks = (p.place b, blocks.set i (b.carve32 p))) ∨
    ((∀ b ∈ blocks, fits b p = false) ∧ firstfitScan32 p blocks = (p, blocks)) := by
  induction blocks with
  | nil => exact Or.inr ⟨by simp, rfl⟩
  | cons b bs ih =>
    by_cases hb : fits b p = true
    · refine Or.inl ⟨0, b, List.getElem?_cons_zero, hb, fun j _ hj => absurd hj (Nat.not_lt_zero j), ?_⟩
      simp only [firstfitScan32, hb, if_true, List.set_cons_zero]
    · rcases ih with ⟨i, c, hi, hc, hlow, hres⟩ | ⟨hnone, hres⟩
      · refine Or.inl ⟨i + 1, c, by simpa using hi, hc, ?_, ?_⟩
        · intro j b' hj hb'
          cases j with
          | zero =>
            simp only [List.getElem?_cons_zero, Option.some.injEq] at hb'
            subst hb'
            simpa using hb
          | succ j =>
            exact hlow j b' (by omega) (by simpa using hb')
        · simp only [firstfitScan32, hb, if_false, hres, List.set_cons_succ, Bool.false_eq_true]
      · refine Or.inr ⟨?_, ?_⟩
        · intro x hx
          rcases List.mem_cons.mp hx with rfl | hx
          · simpa using hb
          · exact hnone x hx
        · simp only [firstfitScan32, hb, if_false, hres, Bool.false_eq_true]

/-- Carving a block that has room for a process of non-negative size does not
overflow when every address of the block is an `int`. -/
theorem block.carve32_eq_carve (b : block) (p : process) (hb : b.addressable)
    (hfit : fits b p = true) (hp : 0 ≤ p.size) :
    b.carve32 p = b.carve p ∧ (b.carve p).addressable := by
  obtain ⟨h1, h2, h4, h3⟩ := hb
  have hsize := ((fits_iff b p).mp hfit).1
  simp only [INT_MIN, INT_MAX] at h1 h3 h4
  refine ⟨?_, ?_⟩
  · simp only [block.carve32, block.carve]
    rw [wrapInt32_eq _ ⟨by simp only [INT_MIN]; omega, by simp only [INT_MAX]; omega⟩,
      wrapInt32_eq _ ⟨by simp only [INT_MIN]; omega, by simp only [INT_MAX]; omega⟩]
  · simp only [block.addressable, block.carve, INT_MIN, INT_MAX]
    omega

theorem firstfitScan32_eq (p : process) (hp : 0 ≤ p.size) (blocks : List block)
    (hb : ∀ b ∈ blocks, b.addressable) :
    firstfitScan32 p blocks = firstfitScan p blocks ∧
    ∀ b ∈ (firstfitScan p blocks).2, b.addressable := by
  induction blocks with
  | nil => exact ⟨rfl, by simp [firstfitScan]⟩
  | cons b bs ih =>
    have hb0 := hb b (List.mem_cons_self _ _)
    have hbs : ∀ x ∈ bs, x.addressable := fun x hx => hb x (List.mem_cons_of_mem _ hx)
    by_cases hfit : fits b p = true
    · obtain ⟨h1, h2⟩ := block.carve32_eq_carve b p hb0 hfit hp
      simp only [firstfitScan32, firstfitScan, hfit, if_true, h1, true_and]
      intro x hx
      rcases List.mem_cons.mp hx with rfl | hx
      · exact h2
      · exact hbs x hx
    · obtain ⟨h1, h2⟩ := ih hbs
      simp only [firstfitScan32, firstfitScan, hfit, if_false, h1, Bool.false_eq_true, true_and]
      intro x hx
      rcases List.mem_cons.mp hx with rfl | hx
      · exact hb0
      · exact h2 x hx

/-- With every address of every block an `int` and no negative process size,
`firstfit` computes on `int` fields what it computes on exact integers. -/
theorem firstfit32_eq_firstfit (ps : List process) :
    ∀ blocks : List block, (∀ b ∈ blocks, b.addressable) → (∀ p ∈ ps, 0 ≤ p.size) →
      firstfit32 blocks ps = firstfit blocks ps := by
  induction ps with
  | nil => intro blocks _ _; rfl
  | cons p ps ih =>
    intro blocks hb hps
    obtain ⟨h1, h2⟩ := firstfitScan32_eq p (hps p (List.mem_cons_self _ _)) blocks hb
    simp only [firstfit32, firstfit, h1]
    rw [ih _ h2 (fun q hq => hps q (List.mem_cons_of_mem _ hq))]

theorem firstfitScan32_allocated (p : process) (blocks : List block)
    (hb : ∀ b ∈ blocks, b.allocated = false) :
    ∀ b ∈ (firstfitScan32 p blocks).2, b.allocated = false := by
  induction blocks with
  | nil => simp [firstfitScan32]
  | cons b bs ih =>
    have hb0 := hb b (List.mem_cons_self _ _)
    have ih' := ih (fun x hx => hb x (List.mem_cons_of_mem _ hx))
    by_cases hfit : fits b p = true
    · simp only [firstfitScan32, hfit, if_true]
      intro x hx
      rcases List.mem_cons.mp hx with rfl | hx
      · exact hb0
      · exact hb x (List.mem_cons_of_mem _ hx)
    · simp only [firstfitScan32, hfit, if_false, Bool.false_eq_true]
      intro x hx
      rcases List.mem_cons.mp hx with rfl | hx
      · exact hb0
      · exact ih' x hx

/-! ## Indices chosen by `nextfit`, and the report -/

theorem nextfitChoices_length (ps : List process) :
    ∀ (lastpos : Nat) (blocks : List block),
      (nextfitChoices lastpos blocks ps).length = ps.length := by
  induction ps with
  | nil => intro _ _; rfl
  | cons p ps ih => intro lastpos blocks; simp only [nextfitChoices, List.length_cons, ih]

/-- The loop of `displayMemory` succeeds exactly when every index it reads is
inside `blocks`, and then prints one line per iteration. -/
theorem displayLoop_spec (blocks : List block) :
    ∀ (n i : Nat),
      (i + n ≤ blocks.length →
        ∃ ls, displayLoop blocks n i = some ls ∧ ls.length = n ∧
          ∀ (k : Nat) (l : ReportLine), ls[k]? = some l →
            ∃ b, blocks[i + k]? = some b ∧
              l = { blockNumber := i + k + 1, startAddress := b.startAddress, size := b.size }) ∧
      (0 < n → blocks.length < i + n → displayLoop blocks n i = none) := by
  intro n
  induction n with
  | zero =>
    intro i
    exact ⟨fun _ => ⟨[], rfl, rfl, fun k l hl => by simp at hl⟩, fun h => absurd h (lt_irrefl 0)⟩
  | succ n ih =>
    intro i
    obtain ⟨ih1, ih2⟩ := ih (i + 1)
    refine ⟨fun h => ?_, fun _ h => ?_⟩
    · obtain ⟨ls, hls, hlen, hlines⟩ := ih1 (by omega)
      have hi : i < blocks.length := by omega
      refine ⟨ReportLine.mk (i + 1) (blocks[i]).startAddress (blocks[i]).size :: ls, ?_,
        by simp [hlen], ?_⟩
      · simp only [displayLoop, List.getElem?_eq_getElem hi, hls]
      · intro k l hl
        cases k with
        | zero =>
          simp only [List.getElem?_cons_zero, Option.some.injEq] at hl
          exact ⟨blocks[i], by simp [List.getElem?_eq_getElem hi], hl.symm⟩
        | succ k =>
          simp only [List.getElem?_cons_succ] at hl
          obtain ⟨b, hb, hl'⟩ := hlines k l hl
          refine ⟨b, ?_, ?_⟩
          · rw [← hb]; congr 1; omega
          · rw [hl']; congr 1; omega
    · cases hget : blocks[i]? with
      | none => simp only [displayLoop, hget]
      | some b =>
        have hi := (List.getElem?_eq_some.mp hget).1
        have hn : 0 < n := by omega
        simp only [displayLoop, hget, ih2 hn (by omega)]

/-! ## `bestfit` below the initial `minBlockSize` -/

theorem bestfitMin_le (p : process) (blocks : List block) :
    ∀ m : Int, bestfitMin p blocks m ≤ m ∧
      (∀ b ∈ blocks, fits b p = true → bestfitMin p blocks m ≤ b.size) ∧
      (bestfitMin p blocks m = m ∨
        ∃ b ∈ blocks, fits b p = true ∧ bestfitMin p blocks m = b.size) := by
  induction blocks with
  | nil => intro m; exact ⟨le_refl m, fun b hb => by simp at hb, Or.inl rfl⟩
  | cons b bs ih =>
    intro m
    by_cases hb : fits b p = true
    · by_cases hlt : b.size < m
      · obtain ⟨h1, h2, h3⟩ := ih b.size
        have heq : bestfitMin p (b :: bs) m = bestfitMin p bs b.size := by
          simp only [bestfitMin, hb, hlt, if_true]
        rw [heq]
        refine ⟨by omega, ?_, ?_⟩
        · intro c hc hcfit
          rcases List.mem_cons.mp hc with rfl | hc
          · exact h1
          · exact h2 c hc hcfit
        · rcases h3 with h3 | ⟨c, hc, hcfit, h3⟩
          · exact Or.inr ⟨b, List.mem_cons_self _ _, hb, h3⟩
          · exact Or.inr ⟨c, List.mem_cons_of_mem _ hc, hcfit, h3⟩
      · obtain ⟨h1, h2, h3⟩ := ih m
        have heq : bestfitMin p (b :: bs) m = bestfitMin p bs m := by
          simp only [bestfitMin, hb, hlt, if_true, if_false]
        rw [heq]
        refine ⟨h1, ?_, ?_⟩
        · intro c hc hcfit
          rcases List.mem_cons.mp hc with rfl | hc
          · omega
          · exact h2 c hc hcfit
        · rcases h3 with h3 | ⟨c, hc, hcfit, h3⟩
          · exact Or.inl h3
          · exact Or.inr ⟨c, List.mem_cons_of_mem _ hc, hcfit, h3⟩
    · obtain ⟨h1, h2, h3⟩ := ih m
      have heq : bestfitMin p (b :: bs) m = bestfitMin p bs m := by
        simp only [bestfitMin, hb, if_false, Bool.false_eq_true]
      rw [heq]
      refine ⟨h1, ?_, ?_⟩
      · intro c hc hcfit
        rcases List.mem_cons.mp hc with rfl | hc
        · exact absurd hcfit hb
        · exact h2 c hc hcfit
      · rcases h3 with h3 | ⟨c, hc, hcfit, h3⟩
        · exact Or.inl h3
        · exact Or.inr ⟨c, List.mem_cons_of_mem _ hc, hcfit, h3⟩

/-- The second loop of `bestfit` places `p` at the lowest index whose block has
size `m`, whatever that block is, or changes nothing when no block has size `m`. -/
theorem bestfitPlace_cases (p : process) (m : Int) (blocks : List block) :
    (∃ (i : Nat) (b : block), blocks[i]? = some b ∧ b.size = m ∧
        (∀ (j : Nat) (b' : block), j < i → blocks[j]? = some b' → b'.size ≠ m) ∧
        bestfitPlace p m blocks = (p.place b, blocks.set i (b.carve p))) ∨
    ((∀ b ∈ blocks, b.size ≠ m) ∧ bestfitPlace p m blocks = (p, blocks)) := by
  induction blocks with
  | nil => exact Or.inr ⟨by simp, rfl⟩
  | cons b bs ih =>
    by_cases hb : b.size = m
    · refine Or.inl ⟨0, b, List.getElem?_cons_zero, hb,
        fun j _ hj => absurd hj (Nat.not_lt_zero j), ?_⟩
      simp only [bestfitPlace, hb, if_true, List.set_cons_zero]
    · rcases ih with ⟨i, c, hi, hc, hlow, hres⟩ | ⟨hnone, hres⟩
      · refine Or.inl ⟨i + 1, c, by simpa using hi, hc, ?_, ?_⟩
        · intro j b' hj hb'
          cases j with
          | zero =>
            simp only [List.getElem?_cons_zero, Option.some.injEq] at hb'
            subst hb'
            exact hb
          | succ j => exact hlow j b' (by omega) (by simpa using hb')
        · simp only [bestfitPlace, hb, if_false, hres, List.set_cons_succ]
      · refine Or.inr ⟨?_, ?_⟩
        · intro x hx
          rcases List.mem_cons.mp hx with rfl | hx
          · exact hb
          · exact hnone x hx
        · simp only [bestfitPlace, hb, if_false, hres]

/-- When every block is as constructed and smaller than the initial
`minBlockSize`, one pass of `bestfit` is best-fit: the process goes to the
lowest-indexed block of least size among those that are large enough, and
stays unplaced exactly when none is large enough. -/
theorem bestfitScan_below_sentinel (p : process) (blocks : List block)
    (hb : ∀ b ∈ blocks, b.allocated = false ∧ b.size < minBlockSizeInit) :
    (∃ (i : Nat) (b : block), blocks[i]? = some b ∧ p.size ≤ b.size ∧
        (∀ b' ∈ blocks, p.size ≤ b'.size → b.size ≤ b'.size) ∧
        (∀ (j : Nat) (b' : block), j < i → blocks[j]? = some b' → b'.size ≠ b.size) ∧
        bestfitScan p blocks = (p.place b, blocks.set i (b.carve p))) ∨
    ((∀ b ∈ blocks, b.size < p.size) ∧ bestfitScan p blocks = (p, blocks)) := by
  obtain ⟨h1, h2, h3⟩ := bestfitMin_le p blocks minBlockSizeInit
  rcases h3 with h3 | ⟨c, hc, hcfit, h3⟩
  · refine Or.inr ⟨?_, ?_⟩
    · intro b hbm
      by_contra hnot
      have hfit : fits b p = true := (fits_iff b p).mpr ⟨by omega, (hb b hbm).1⟩
      have := h2 b hbm hfit
      have := (hb b hbm).2
      omega
    · rcases bestfitPlace_cases p minBlockSizeInit blocks with ⟨i, b, hi, hsz, -, -⟩ | ⟨-, hres⟩
      · have := (hb b (List.getElem?_mem hi)).2
        omega
      · simp only [bestfitScan, h3, hres]
  · rcases bestfitPlace_cases p (bestfitMin p blocks minBlockSizeInit) blocks with
      ⟨i, b, hi, hsz, hlow, hres⟩ | ⟨hnone, -⟩
    · refine Or.inl ⟨i, b, hi, ?_, ?_, ?_, hres⟩
      · have := ((fits_iff c p).mp hcfit).1
        omega
      · intro b' hb' hsize
        have := h2 b' hb' ((fits_iff b' p).mpr ⟨hsize, (hb b' hb').1⟩)
        omega
      · intro j b' hj hb'
        rw [hsz]
        exact hlow j b' hj hb'
    · exact absurd h3.symm (hnone c hc)

/-! ## The claims on memory allocation -/

/-- C14 as stated fails on the code: with the block of size 2000000000 at
address 2000000000 and a process of size 1000000000, the process is placed at
2000000000 and `b.startAddress += p.size` leaves -1294967296 in the block, not
2000000000 + 1000000000. -/
theorem firstfit32_start_wraps :
    firstfitScan32 (process.new 1 1000000000) highBlocks =
      ({ size := 1000000000, processId := 1, isallocated := true, blockStartAddr := 2000000000 },
       [{ size := 1000000000, startAddress := -1294967296, allocated := false }]) ∧
    (-1294967296 : Int) ≠ 2000000000 + 1000000000 ∧
    (firstfit32 highBlocks [process.new 1 1000000000]).1 =
      [{ size := 1000000000, startAddress := -1294967296, allocated := false }] := by
  refine ⟨by decide, by decide, by decide⟩

/-- C14 (amended). `firstfit` handles the processes in order, each against the
blocks as the previous ones left them.  With blocks and process as
constructed, one pass either places the process in the lowest-indexed block
whose size is at least the process size, recording that block's `startAddress`
in `blockStartAddr`, setting `isallocated`, adding the process size to the
block's `startAddress` and subtracting it from its `size` in `int` arithmetic
(exactly when the sum, respectively the difference, is an `int`, wrapped
around otherwise); or, when no block is large enough, leaves process and blocks
as they were.  The process stays unallocated (with `blockStartAddr` 0) exactly
when no block is large enough. -/
theorem firstfit32_is_first_fit (blocks : List block) (p : process) (ps : List process)
    (hb : ∀ b ∈ blocks, b.allocated = false)
    (hp : p.isallocated = false ∧ p.blockStartAddr = 0) :
    ((∃ (i : Nat) (b : block), blocks[i]? = some b ∧ p.size ≤ b.size ∧
        (∀ (j : Nat) (b' : block), j < i → blocks[j]? = some b' → b'.size < p.size) ∧
        firstfitScan32 p blocks =
          ({ p with blockStartAddr := b.startAddress, isallocated := true },
           blocks.set i
             { b with startAddress := wrapInt32 (b.startAddress + p.size),
                      size := wrapInt32 (b.size - p.size) }) ∧
        (IsInt32 (b.startAddress + p.size) →
          wrapInt32 (b.startAddress + p.size) = b.startAddress + p.size) ∧
        (IsInt32 (b.size - p.size) → wrapInt32 (b.size - p.size) = b.size - p.size)) ∨
      ((∀ b ∈ blocks, b.size < p.size) ∧ firstfitScan32 p blocks = (p, blocks))) ∧
    ((firstfitScan32 p blocks).1.isallocated = false ↔ ∀ b ∈ blocks, b.size < p.size) ∧
    ((firstfitScan32 p blocks).1.isallocated = false →
      (firstfitScan32 p blocks).1.blockStartAddr = 0) ∧
    (∀ b ∈ (firstfitScan32 p blocks).2, b.allocated = false) ∧
    firstfit32 blocks (p :: ps) =
      ((firstfit32 (firstfitScan32 p blocks).2 ps).1,
       (firstfitScan32 p blocks).1 :: (firstfit32 (firstfitScan32 p blocks).2 ps).2) ∧
    firstfit32 blocks [] = (blocks, []) := by
  have hflags := firstfitScan32_allocated p blocks hb
  rcases firstfitScan32_cases p blocks with ⟨i, b, hi, hfit, hlow, hres⟩ | ⟨hnone, hres⟩
  · have hsize := ((fits_iff b p).mp hfit).1
    have hlow' : ∀ (j : Nat) (b' : block), j < i → blocks[j]? = some b' → b'.size < p.size :=
      fun j b' hj hb' =>
        (fits_eq_false_iff b' p (hb b' (List.getElem?_mem hb'))).mp (hlow j b' hj hb')
    refine ⟨Or.inl ⟨i, b, hi, hsize, hlow', hres, wrapInt32_eq _, wrapInt32_eq _⟩, ?_, ?_,
      hflags, rfl, rfl⟩
    · rw [hres]
      simp only [process.place, Bool.true_eq_false, false_iff, not_forall, not_lt]
      exact ⟨b, List.getElem?_mem hi, hsize⟩
    · rw [hres]
      simp only [process.place, Bool.true_eq_false, false_implies]
  · have hnone' : ∀ b ∈ blocks, b.size < p.size :=
      fun b hbm => (fits_eq_false_iff b p (hb b hbm)).mp (hnone b hbm)
    refine ⟨Or.inr ⟨hnone', hres⟩, ?_, ?_, hflags, rfl, rfl⟩
    · rw [hres]
      exact ⟨fun _ => hnone', fun _ => hp.1⟩
    · rw [hres]
      exact fun _ => hp.2

/-- C14 (amended) for the first sample process against the sample blocks. -/
theorem firstfit32_is_first_fit_witness :
    ((∃ (i : Nat) (b : block), sampleBlocks[i]? = some b ∧ (process.new 1 212).size ≤ b.size ∧
        (∀ (j : Nat) (b' : block), j < i → sampleBlocks[j]? = some b' →
          b'.size < (process.new 1 212).size) ∧
        firstfitScan32 (process.new 1 212) sampleBlocks =
          ({ process.new 1 212 with blockStartAddr := b.startAddress, isallocated := true },
           sampleBlocks.set i
             { b with startAddress := wrapInt32 (b.startAddress + (process.new 1 212).size),
                      size := wrapInt32 (b.size - (process.new 1 212).size) }) ∧
        (IsInt32 (b.startAddress + (process.new 1 212).size) →
          wrapInt32 (b.startAddress + (process.new 1 212).size)
            = b.startAddress + (process.new 1 212).size) ∧
        (IsInt32 (b.size - (process.new 1 212).size) →
          wrapInt32 (b.size - (process.new 1 212).size) = b.size - (process.new 1 212).size)) ∨
      ((∀ b ∈ sampleBlocks, b.size < (process.new 1 212).size) ∧
        firstfitScan32 (process.new 1 212) sampleBlocks = (process.new 1 212, sampleBlocks))) ∧
    ((firstfitScan32 (process.new 1 212) sampleBlocks).1.isallocated = false ↔
      ∀ b ∈ sampleBlocks, b.size < (process.new 1 212).size) ∧
    ((firstfitScan32 (process.new 1 212) sampleBlocks).1.isallocated = false →
      (firstfitScan32 (process.new 1 212) sampleBlocks).1.blockStartAddr = 0) ∧
    (∀ b ∈ (firstfitScan32 (process.new 1 212) sampleBlocks).2, b.allocated = false) ∧
    firstfit32 sampleBlocks (process.new 1 212 :: sampleProcesses.tail) =
      ((firstfit32 (firstfitScan32 (process.new 1 212) sampleBlocks).2 sampleProcesses.tail).1,
       (firstfitScan32 (process.new 1 212) sampleBlocks).1 ::
         (firstfit32 (firstfitScan32 (process.new 1 212) sampleBlocks).2
           sampleProcesses.tail).2) ∧
    firstfit32 sampleBlocks [] = (sampleBlocks, []) :=
  firstfit32_is_first_fit sampleBlocks (process.new 1 212) sampleProcesses.tail (by decide)
    ⟨rfl, rfl⟩

/-- C15 fails on the code.  With one block of size 1000000000 and one process
of size 2000000000 no block is large enough, yet `bestfit` places the process
and leaves the block with size -1000000000; with one block of size 1500000000
and one process of size 5 the block is large enough, yet `bestfit` leaves the
process unplaced. -/
theorem bestfit_misses_at_sentinel :
    bestfit [block.new 1000000000 0] [process.new 1 2000000000] =
      ([{ size := -1000000000, startAddress := 2000000000, allocated := false }],
       [{ size := 2000000000, processId := 1, isallocated := true, blockStartAddr := 0 }]) ∧
    bestfit [block.new 1500000000 0] [process.new 1 5] =
      ([block.new 1500000000 0], [process.new 1 5]) := by
  decide

/-- C17 as stated fails on the code: the one block of size 2000000000 at
address 2000000000 and two processes of size 1000000000 meet its conditions,
yet the second process is marked allocated at address -1294967296, outside the
range of the block. -/
theorem firstfit32_allocation_escapes :
    highBlocks.Pairwise block.disjoint ∧ (∀ b ∈ highBlocks, 0 ≤ b.size) ∧
    (∀ p ∈ largeProcesses, 0 ≤ p.size) ∧ (∀ p ∈ largeProcesses, p.isallocated = false) ∧
    (firstfit32 highBlocks largeProcesses).2 =
      [{ size := 1000000000, processId := 1, isallocated := true, blockStartAddr := 2000000000 },
       { size := 1000000000, processId := 2, isallocated := true,
         blockStartAddr := -1294967296 }] ∧
    ¬ (∀ q ∈ (firstfit32 highBlocks largeProcesses).2, q.isallocated = true →
        ∃ b ∈ highBlocks, q.within b) := by
  have hres : (firstfit32 highBlocks largeProcesses).2 =
      [{ size := 1000000000, processId := 1, isallocated := true, blockStartAddr := 2000000000 },
       { size := 1000000000, processId := 2, isallocated := true,
         blockStartAddr := -1294967296 }] := by decide
  refine ⟨by simp [highBlocks], by decide, by decide, by decide, hres, ?_⟩
  intro h
  rw [hres] at h
  obtain ⟨b, hb, h1, -⟩ := h
    { size := 1000000000, processId := 2, isallocated := true, blockStartAddr := -1294967296 }
    (by simp) rfl
  simp only [highBlocks, block.new, List.mem_singleton] at hb
  subst hb
  simp only at h1
  omega

/-- C17 (amended). When the ranges of the blocks given to `firstfit` are
pairwise disjoint, no block or process size is negative, the fields of every
block are `int`s with the end address `startAddress + size` at most `INT_MAX`,
and the processes are as constructed, every process `firstfit` marks allocated
has its range inside the range of one of the given blocks, and no two such
processes share an address. -/
theorem firstfit32_allocations_disjoint (blocks : List block) (ps : List process)
    (hdis : blocks.Pairwise block.disjoint) (hbs : ∀ b ∈ blocks, 0 ≤ b.size)
    (hint : ∀ b ∈ blocks, IsInt32 b.startAddress ∧ IsInt32 b.size)
    (hend : ∀ b ∈ blocks, b.startAddress + b.size ≤ INT_MAX)
    (hps : ∀ p ∈ ps, 0 ≤ p.size) (hnew : ∀ p ∈ ps, p.isallocated = false) :
    (∀ q ∈ (firstfit32 blocks ps).2, q.isallocated = true → ∃ b ∈ blocks, q.within b) ∧
    (firstfit32 blocks ps).2.Pairwise
      (fun q q' => q.isallocated = true → q'.isallocated = true → q.disjoint q') := by
  have haddr : ∀ b ∈ blocks, b.addressable :=
    fun b hb => ⟨(hint b hb).1.1, hbs b hb, (hint b hb).2.2, hend b hb⟩
  rw [firstfit32_eq_firstfit ps blocks haddr hps]
  obtain ⟨hA, hB⟩ := firstfit_ranges blocks hdis ps blocks (remainder_refl blocks hbs)
    (fun p hp => ⟨hps p hp, hnew p hp⟩)
  exact ⟨fun q hq hqa => within_of_freeIn blocks q (hA q hq hqa), hB⟩

/-- C17 (amended) for the sample blocks and processes. -/
theorem firstfit32_allocations_disjoint_witness :
    (∀ q ∈ (firstfit32 sampleBlocks sampleProcesses).2, q.isallocated = true →
      ∃ b ∈ sampleBlocks, q.within b) ∧
    (firstfit32 sampleBlocks sampleProcesses).2.Pairwise
      (fun q q' => q.isallocated = true → q'.isallocated = true → q.disjoint q') :=
  firstfit32_allocations_disjoint sampleBlocks sampleProcesses
    (by
      simp only [sampleBlocks, block.new, List.pairwise_cons, List.mem_cons, List.mem_singleton,
        List.not_mem_nil, forall_eq_or_imp, forall_eq, false_implies, implies_true,
        List.Pairwise.nil, and_true, block.disjoint, inRange]
      refine ⟨⟨?_, ?_, ?_, ?_⟩, ⟨?_, ?_, ?_⟩, ⟨?_, ?_⟩, ?_⟩ <;> intro x <;> omega)
    (by decide) (by decide) (by decide) (by decide) (by decide)

/-- C18. With blocks and processes as constructed, each of `firstfit`,
`nextfit` and `bestfit` leaves every block's end address, the number of blocks,
the `allocated` flags (all false) and every process's `processId` and `size` as
they were, and the sum of the block sizes afterwards plus the sizes of the
processes marked `isallocated` equals the sum of the block sizes before. -/
theorem allocation_conserves (blocks : List block) (ps : List process)
    (hb : ∀ b ∈ blocks, b.allocated = false) (hnew : ∀ p ∈ ps, p.isallocated = false) :
    Preserved blocks ps (firstfit blocks ps) ∧
    Preserved blocks ps (nextfit blocks ps) ∧
    Preserved blocks ps (bestfit blocks ps) := by
  have key : ∀ r : List block × List process, Conserved blocks ps r → Preserved blocks ps r := by
    intro r ⟨h1, h2, h3, h4, h5⟩
    refine ⟨h1, ?_, ?_, h3, h4, ?_, h5⟩
    · simpa using congrArg List.length h1
    · intro b hbm
      have hmem : b.allocated ∈ r.1.map fun b => b.allocated := List.mem_map_of_mem _ hbm
      rw [h2] at hmem
      obtain ⟨b', hb', heq⟩ := List.mem_map.mp hmem
      rw [← heq]
      exact hb b' hb'
    · simpa using congrArg List.length h4
  exact ⟨key _ (firstfit_conserved ps blocks hnew), key _ (nextfitFrom_conserved ps 0 blocks hnew),
    key _ (bestfit_conserved ps blocks hnew)⟩

/-- C18 for the sample blocks and processes. -/
theorem allocation_conserves_witness :
    Preserved sampleBlocks sampleProcesses (firstfit sampleBlocks sampleProcesses) ∧
    Preserved sampleBlocks sampleProcesses (nextfit sampleBlocks sampleProcesses) ∧
    Preserved sampleBlocks sampleProcesses (bestfit sampleBlocks sampleProcesses) :=
  allocation_conserves sampleBlocks sampleProcesses (by decide) (by decide)

/-- C19. When the process sizes do not decrease along the list, `nextfit` and
`firstfit` return the same blocks and the same processes. -/
theorem nextfit_eq_firstfit_of_nondecreasing (blocks : List block) (ps : List process)
    (h : (ps.map fun p => p.size).Chain' (fun a b => a ≤ b)) :
    nextfit blocks ps = firstfit blocks ps := by
  have hpw : (ps.map fun p => p.size).Pairwise (fun a b => a ≤ b) :=
    List.chain'_iff_pairwise.mp h
  exact nextfitFrom_eq_firstfit ps 0 blocks hpw
    (fun j _ _ hj => absurd hj (Nat.not_lt_zero j))

/-- C19 for the sample blocks and the sample sizes in increasing order. -/
theorem nextfit_eq_firstfit_of_nondecreasing_witness :
    nextfit sampleBlocks sortedProcesses = firstfit sampleBlocks sortedProcesses :=
  nextfit_eq_firstfit_of_nondecreasing sampleBlocks sortedProcesses
    (by simp [sortedProcesses, process.new])

/-- C20 fails on the code.  `displayMemory` runs its loop `processes.size()`
times and reads `blocks[i]`: it prints one line per process, not per block, and
reads past the end of `blocks` when there are more processes than blocks.  For
the five sample blocks and four sample processes the report of `firstfit` has
four lines and the fifth block is missing; for one block and two processes the
second read is out of bounds. -/
theorem displayMemory_counts_processes :
    (∀ (blocks : List block) (processes : List process),
      processes.length ≤ blocks.length →
        ∃ ls, displayMemory blocks processes = some ls ∧ ls.length = processes.length) ∧
    (∀ (blocks : List block) (processes : List process),
      blocks.length < processes.length → displayMemory blocks processes = none) ∧
    firstfitReport sampleBlocks sampleProcesses =
      some [{ blockNumber := 1, startAddress := 0, size := 100 },
            { blockNumber := 2, startAddress := 424, size := 176 },
            { blockNumber := 3, startAddress := 600, size := 200 },
            { blockNumber := 4, startAddress := 800, size := 300 }] ∧
    (firstfit sampleBlocks sampleProcesses).1.length = 5 ∧
    displayMemory [block.new 10 0] [process.new 1 15, process.new 2 8] = none := by
  refine ⟨fun blocks processes h => ?_, fun blocks processes h => ?_, by decide, by decide,
    by decide⟩
  · obtain ⟨ls, h1, h2, -⟩ := (displayLoop_spec blocks processes.length 0).1 (by omega)
    exact ⟨ls, h1, h2⟩
  · exact (displayLoop_spec blocks processes.length 0).2 (by omega) (by omega)

end MemoryManagement
